import Mathlib

/-!
Verification of the snake pathfinding core (util.hpp, game.hpp, game_util.hpp,
shortest_path.hpp, cell_tree_agent.hpp, hamiltonian_cycle.hpp).

The C++ sources are shallowly embedded: machine `int` is modelled as `Int`
(all arithmetic in the verified fragments stays far below `INT_MAX`, which the
code uses only as an "unreachable"/"infinity" sentinel, kept here as the
literal value 2^31 - 1), dense `Grid<T>` as a width/height pair plus a
row-major `List`, and functions that can throw, fail an `assert`, or access a
grid out of bounds return `Option`/carry explicit fuel.  The random number
generator is modelled as an arbitrary stream of naturals (the C++ `RNG`
produces `next() % range`; quantifying over all streams covers every RNG
state).
-/

namespace Snake

/-- The four movement directions (`enum class Dir` in util.hpp). -/
inductive Dir where
  | up | down | left | right
deriving DecidableEq, Repr

/-- The constant array `dirs` of util.hpp, in declaration order. -/
def dirs : List Dir := [Dir.up, Dir.down, Dir.left, Dir.right]

/-- Direction negation, `operator - (Dir)` from util.hpp. -/
def Dir.neg : Dir → Dir
  | .up => .down
  | .down => .up
  | .left => .right
  | .right => .left

/-- `rotate_clockwise` from util.hpp. -/
def rotate_clockwise : Dir → Dir
  | .up => .right
  | .down => .left
  | .left => .up
  | .right => .down

/-- `rotate_counter_clockwise` from util.hpp. -/
def rotate_counter_clockwise : Dir → Dir
  | .up => .left
  | .down => .right
  | .left => .down
  | .right => .up

/-- Integer grid coordinate (`struct Coord { int x, y; }` in util.hpp). -/
structure Coord where
  x : Int
  y : Int
deriving DecidableEq, Repr

/-- Coordinate plus direction, `operator + (Coord, Dir)` from util.hpp. -/
def Coord.add (a : Coord) : Dir → Coord
  | .up => ⟨a.x, a.y - 1⟩
  | .down => ⟨a.x, a.y + 1⟩
  | .left => ⟨a.x - 1, a.y⟩
  | .right => ⟨a.x + 1, a.y⟩

/-- Direction from `b` to `a`, `operator - (Coord a, Coord b)` from util.hpp;
`none` models the `throw std::logic_error("Not a dir")` branch. -/
def coordSub (a b : Coord) : Option Dir :=
  if a.x = b.x then
    if a.y = b.y - 1 then some .up
    else if a.y = b.y + 1 then some .down
    else none
  else if a.y = b.y then
    if a.x = b.x - 1 then some .left
    else if a.x = b.x + 1 then some .right
    else none
  else none

/-- `manhattan_distance` from util.hpp. -/
def manhattan_distance (a b : Coord) : Int :=
  (a.x - b.x).natAbs + (a.y - b.y).natAbs

/-- `is_neighbor` from util.hpp. -/
def is_neighbor (a b : Coord) : Bool :=
  manhattan_distance a b = 1

/-- The sentinel `INVALID = {-1,-1}` from util.hpp. -/
def INVALID : Coord := ⟨-1, -1⟩

/-- The sentinel `NOT_VISITED = {-1,-1}` from util.hpp. -/
def NOT_VISITED : Coord := ⟨-1, -1⟩

/-- The sentinel `ROOT = {-2,-2}` from util.hpp. -/
def ROOT : Coord := ⟨-2, -2⟩

/-- `INT_MAX`, used by the code as an "infinity" marker. -/
def INT_MAX : Int := 2147483647

/-- `CoordRange` from util.hpp: the dimensions of a `w*h` grid.  The C++
fields are `int`, but every constructed range has nonnegative sizes, so
widths/heights are embedded as `Nat`. -/
structure CoordRange where
  w : Nat
  h : Nat
deriving DecidableEq, Repr

/-- `CoordRange::valid`. -/
def CoordRange.valid (r : CoordRange) (a : Coord) : Bool :=
  0 ≤ a.x && a.x < (r.w : Int) && 0 ≤ a.y && a.y < (r.h : Int)

/-- `CoordRange::size`. -/
def CoordRange.size (r : CoordRange) : Nat := r.w * r.h

/-- The row-major list of all coordinates of a range, the iteration order of
`CoordRange::begin()..end()`. -/
def CoordRange.coordList (r : CoordRange) : List Coord :=
  (List.range r.h).flatMap fun (y : Nat) =>
    (List.range r.w).map fun (x : Nat) => ⟨(x : Int), (y : Int)⟩

/-- A dense `w*h` grid storing values of type `T` (`Grid<T>` in util.hpp),
as the row-major list of its entries (`data[a.x + w*a.y]`). -/
structure Grid (T : Type) where
  w : Nat
  h : Nat
  data : List T
deriving DecidableEq, Repr

/-- The flat row-major index of a coordinate. -/
def Grid.idx {T : Type} (g : Grid T) (a : Coord) : Nat :=
  (a.x + g.w * a.y).toNat

/-- `Grid` built from a range with a constant initial value
(the `Grid(CoordRange, T init)` constructor). -/
def Grid.mk' {T : Type} (r : CoordRange) (init : T) : Grid T :=
  ⟨r.w, r.h, List.replicate (r.w * r.h) init⟩

/-- `Grid::coords()` / `Grid::dimensions()`. -/
def Grid.coords {T : Type} (g : Grid T) : CoordRange := ⟨g.w, g.h⟩

/-- `Grid::size()`. -/
def Grid.size {T : Type} (g : Grid T) : Nat := g.w * g.h

/-- `Grid::valid`. -/
def Grid.validC {T : Type} (g : Grid T) (a : Coord) : Bool :=
  g.coords.valid a

/-- Read `grid[a]`.  In-bounds reads return the stored entry; out-of-bounds
reads (undefined behavior in C++) return `default`. -/
def Grid.get {T : Type} [Inhabited T] (g : Grid T) (a : Coord) : T :=
  if g.validC a then g.data.getD (g.idx a) default else default

/-- Write `grid[a] = v`.  Out-of-bounds writes (undefined behavior in C++)
are dropped; the checked variants used for the error-handling claims make
them observable instead. -/
def Grid.set {T : Type} (g : Grid T) (a : Coord) (v : T) : Grid T :=
  if g.validC a then ⟨g.w, g.h, g.data.set (g.idx a) v⟩ else g

/-- `Grid::is_clear` for `Grid<bool>` (inside the range and `false`). -/
def Grid.is_clear (g : Grid Bool) (a : Coord) : Bool :=
  g.validC a && !(g.get a)

/-- The random number generator, modelled as an arbitrary stream of raw
`next()` outputs plus a position.  `RNG::random(range)` is `next() % range`. -/
structure RNG where
  seq : Nat → Nat
  pos : Nat

/-- `RNG::random(int range)`: one draw and the advanced generator. -/
def RNG.random (r : RNG) (range : Nat) : Nat × RNG :=
  (r.seq r.pos % range, ⟨r.seq, r.pos + 1⟩)

/-- `CoordRange::random`: a uniformly drawn coordinate. -/
def CoordRange.randomC (r : CoordRange) (rng : RNG) : Coord × RNG :=
  let dx := rng.random r.w
  let dy := dx.2.random r.h
  (⟨dx.1, dy.1⟩, dy.2)

instance : Inhabited Coord := ⟨⟨0, 0⟩⟩

instance : Inhabited Dir := ⟨.up⟩

/-! ## Cell moves (game_util.hpp)

The grid is viewed as a smaller grid of 2x2 cells; each coordinate has one
fixed direction staying inside its cell and one leaving it ("right-hand
drive").  The C++ tests `(c.x & 1) == 0`, which for `Int` coincides with
`c.x % 2 = 0` under Euclidean `%`. -/

/-- `cell_move_inside` from game_util.hpp. -/
def cell_move_inside (c : Coord) : Dir :=
  if c.y % 2 = 0 then (if c.x % 2 = 0 then .down else .left)
  else (if c.x % 2 = 0 then .right else .up)

/-- `cell_move_outside` from game_util.hpp. -/
def cell_move_outside (c : Coord) : Dir :=
  if c.y % 2 = 0 then (if c.x % 2 = 0 then .left else .up)
  else (if c.x % 2 = 0 then .down else .right)

/-- `is_cell_move` from game_util.hpp. -/
def is_cell_move (c : Coord) (dir : Dir) : Bool :=
  cell_move_inside c = dir || cell_move_outside c = dir

/-- `cell` from game_util.hpp: `{c.x/2, c.y/2}` with C++ truncating `int`
division (`Int.div`). -/
def cell (c : Coord) : Coord := ⟨Int.tdiv c.x 2, Int.tdiv c.y 2⟩

/-! ## Hamiltonian cycles (game_util.hpp) -/

/-- A Hamiltonian cycle as a next-coordinate map, `using GridPath = Grid<Coord>`. -/
abbrev GridPath := Grid Coord

/-- The loop body of `is_hamiltonian_cycle`: `rem` counts the iterations the
`for (i = 0; i < path.size(); ++i)` loop still has ahead of it, so the C++
test `i == path.size()-1` on the closing step becomes `rem = 0`. -/
def isHamLoop (g : GridPath) : Coord → Nat → Bool
  | _, 0 => false
  | pos, rem + 1 =>
    if !(g.validC (g.get pos)) then false
    else if !(is_neighbor pos (g.get pos)) then false
    else
      let pos2 := g.get pos
      if pos2 = ⟨0, 0⟩ then rem = 0
      else isHamLoop g pos2 rem

/-- `is_hamiltonian_cycle` from game_util.hpp: follow next-pointers from
`{0,0}`; every step must be a valid neighbor and the walk must return to
`{0,0}` after exactly `w*h` steps and no sooner. -/
def is_hamiltonian_cycle (g : GridPath) : Bool :=
  isHamLoop g ⟨0, 0⟩ g.size

/-- The per-coordinate next pointer chosen by `tree_to_hamiltonian_cycle`:
leave the 2x2 cell when the cell-tree `parent` grid has an edge between this
cell and the outward neighbor cell, else continue inside the cell. -/
def treeNext (parent : Grid Coord) (c : Coord) : Coord :=
  let inC := c.add (cell_move_inside c)
  let outC := c.add (cell_move_outside c)
  let c_cell := cell c
  let o_cell := cell outC
  if (decide (0 ≤ outC.x) && decide (outC.x < (2 * parent.w : Int)) &&
      decide (0 ≤ outC.y) && decide (outC.y < (2 * parent.h : Int))) &&
     (parent.get o_cell = c_cell || parent.get c_cell = o_cell) then outC
  else inC

/-- `tree_to_hamiltonian_cycle` from game_util.hpp: the `w*2 x h*2` grid is
filled coordinate by coordinate with `treeNext`.  The C++ loop writes every
coordinate of the fresh grid exactly once, so the grid is the row-major table
of `treeNext`; its two `assert`s are established as theorems below. -/
def tree_to_hamiltonian_cycle (parent : Grid Coord) : GridPath :=
  ⟨parent.w * 2, parent.h * 2,
   (CoordRange.mk (parent.w * 2) (parent.h * 2)).coordList.map (treeNext parent)⟩

/-- The frontier edges pushed for a freshly visited `node` in
`random_spanning_tree`: `{node, node+d}` for each in-range neighbor, in
`dirs` order. -/
def frontierPushes (dims : CoordRange) (node : Coord) : List (Coord × Coord) :=
  dirs.filterMap fun d =>
    if dims.valid (node.add d) then some (node, node.add d) else none

/-- The `while (!queue.empty())` loop of `random_spanning_tree`: draw a random
index, swap-remove it (`queue[i] = queue.back(); queue.pop_back()`), and adopt
the node if still unvisited.  `fuel` bounds the iteration count; the spanning
theorems show the stated fuel is never exhausted. -/
def rstLoop (dims : CoordRange) :
    Nat → Grid Coord → List (Coord × Coord) → RNG → Grid Coord
  | 0, tree, _, _ => tree
  | _ + 1, tree, [], _ => tree
  | fuel + 1, tree, q :: qs, rng =>
    let queue := q :: qs
    let draw := rng.random queue.length
    let pn := queue.getD draw.1 default
    let queue1 := (queue.set draw.1 (queue.getLast (by simp))).dropLast
    if tree.get pn.2 = INVALID then
      rstLoop dims fuel (tree.set pn.2 pn.1)
        (queue1 ++ frontierPushes dims pn.2) draw.2
    else
      rstLoop dims fuel tree queue1 draw.2

/-- `random_spanning_tree` from game_util.hpp: pick a random root, seed the
frontier queue with its in-range edges, then run the frontier loop.  The fuel
`5 * size + 5` strictly dominates the measure `5 * unvisited + queue length`,
which every iteration decreases. -/
def random_spanning_tree (dims : CoordRange) (rng : RNG) : Grid Coord :=
  let tree := Grid.mk' dims INVALID
  let (node, rng1) := dims.randomC rng
  let tree1 := tree.set node ROOT
  rstLoop dims (5 * dims.size + 5) tree1 (frontierPushes dims node) rng1

/-- `random_hamiltonian_cycle` from game_util.hpp (`{dims.w/2, dims.h/2}`
truncates odd dimensions). -/
def random_hamiltonian_cycle (dims : CoordRange) (rng : RNG) : GridPath :=
  tree_to_hamiltonian_cycle (random_spanning_tree ⟨dims.w / 2, dims.h / 2⟩ rng)

/-! ## Basic grid lemmas -/

/-- Well-formedness: the backing list has exactly `w*h` entries (guaranteed by
every `Grid` constructor in util.hpp). -/
def Grid.Wf {T : Type} (g : Grid T) : Prop := g.data.length = g.w * g.h

theorem CoordRange.valid_iff {r : CoordRange} {a : Coord} :
    r.valid a = true ↔ 0 ≤ a.x ∧ a.x < (r.w : Int) ∧ 0 ≤ a.y ∧ a.y < (r.h : Int) := by
  simp [CoordRange.valid, and_assoc]

theorem Grid.validC_iff {T : Type} {g : Grid T} {a : Coord} :
    g.validC a = true ↔
      0 ≤ a.x ∧ a.x < (g.w : Int) ∧ 0 ≤ a.y ∧ a.y < (g.h : Int) := by
  simp [Grid.validC, Grid.coords, CoordRange.valid_iff]

theorem idxLtAux {w h : Nat} {x y : Int} (hx0 : 0 ≤ x) (hxw : x < (w : Int))
    (hy0 : 0 ≤ y) (hyh : y < (h : Int)) : (x + w * y).toNat < w * h := by
  have h2 : (0 : Int) ≤ (w : Int) * y := by positivity
  have h1 : x + (w : Int) * y < ((w * h : Nat) : Int) := by push_cast; nlinarith
  omega

theorem idxInjAux {w : Nat} {x1 y1 x2 y2 : Int} (hx10 : 0 ≤ x1) (hx1w : x1 < (w : Int))
    (hx20 : 0 ≤ x2) (hx2w : x2 < (w : Int))
    (h : x1 + (w : Int) * y1 = x2 + (w : Int) * y2) : x1 = x2 ∧ y1 = y2 := by
  have hy : y1 = y2 := by
    by_contra hne
    rcases lt_or_gt_of_ne hne with hlt | hgt
    · have h1 : y1 + 1 ≤ y2 := hlt
      have h2 : (w : Int) * (y1 + 1) ≤ (w : Int) * y2 :=
        mul_le_mul_of_nonneg_left h1 (by positivity)
      nlinarith
    · have h1 : y2 + 1 ≤ y1 := hgt
      have h2 : (w : Int) * (y2 + 1) ≤ (w : Int) * y1 :=
        mul_le_mul_of_nonneg_left h1 (by positivity)
      nlinarith
  subst hy
  constructor
  · omega
  · rfl

theorem Grid.idx_lt {T : Type} {g : Grid T} {a : Coord} (h : g.validC a = true) :
    g.idx a < g.w * g.h := by
  rcases Grid.validC_iff.mp h with ⟨hx0, hxw, hy0, hyh⟩
  exact idxLtAux hx0 hxw hy0 hyh

theorem Grid.idx_inj {T : Type} {g : Grid T} {a b : Coord}
    (ha : g.validC a = true) (hb : g.validC b = true) (h : g.idx a = g.idx b) :
    a = b := by
  rcases Grid.validC_iff.mp ha with ⟨hx0, hxw, hy0, hyh⟩
  rcases Grid.validC_iff.mp hb with ⟨hx0', hxw', hy0', hyh'⟩
  simp only [Grid.idx] at h
  have hwy : (0 : Int) ≤ (g.w : Int) * a.y := by positivity
  have hwy' : (0 : Int) ≤ (g.w : Int) * b.y := by positivity
  have h' : a.x + (g.w : Int) * a.y = b.x + (g.w : Int) * b.y := by omega
  obtain ⟨hx, hy⟩ := idxInjAux hx0 hxw hx0' hxw' h'
  cases a; cases b; simp_all

theorem Grid.set_w {T : Type} (g : Grid T) (a : Coord) (v : T) :
    (g.set a v).w = g.w := by
  simp only [Grid.set]; split <;> rfl

theorem Grid.set_h {T : Type} (g : Grid T) (a : Coord) (v : T) :
    (g.set a v).h = g.h := by
  simp only [Grid.set]; split <;> rfl

theorem Grid.set_validC {T : Type} (g : Grid T) (a b : Coord) (v : T) :
    (g.set a v).validC b = g.validC b := by
  simp only [Grid.set]; split <;> rfl

theorem Grid.set_wf {T : Type} {g : Grid T} (hg : g.Wf) (a : Coord) (v : T) :
    (g.set a v).Wf := by
  simp only [Grid.Wf, Grid.set] at *
  split <;> simp [hg]

theorem Grid.get_set_same {T : Type} [Inhabited T] {g : Grid T} (hg : g.Wf)
    {a : Coord} (ha : g.validC a = true) (v : T) :
    (g.set a v).get a = v := by
  have hlt : g.idx a < g.data.length := by rw [hg]; exact Grid.idx_lt ha
  simp only [Grid.set, ha, if_true, Grid.get]
  have hva : Grid.validC ⟨g.w, g.h, g.data.set (g.idx a) v⟩ a = true := ha
  rw [hva]
  have hidx : Grid.idx ⟨g.w, g.h, g.data.set (g.idx a) v⟩ a = g.idx a := rfl
  simp only [if_true, hidx, List.getD_eq_getElem?_getD, List.getElem?_set_self hlt,
    Option.getD_some]

theorem Grid.get_set_ne {T : Type} [Inhabited T] (g : Grid T)
    {a b : Coord} (hne : b ≠ a) (v : T) :
    (g.set a v).get b = g.get b := by
  by_cases hb : g.validC b = true
  · by_cases ha : g.validC a = true
    · have hidx : g.idx a ≠ g.idx b := fun h => hne (Grid.idx_inj hb ha h.symm)
      simp only [Grid.set, ha, if_true, Grid.get]
      have hvb : Grid.validC ⟨g.w, g.h, g.data.set (g.idx a) v⟩ b = true := hb
      rw [hvb, hb]
      have hidxb : Grid.idx ⟨g.w, g.h, g.data.set (g.idx a) v⟩ b = g.idx b := rfl
      simp only [if_true, hidxb, List.getD_eq_getElem?_getD, List.getElem?_set_ne hidx]
    · simp only [Grid.set]
      rw [if_neg ha]
  · have hb' : (g.set a v).validC b = g.validC b := Grid.set_validC g a b v
    simp only [Grid.get, hb', hb]
    simp

theorem Grid.mk'_wf {T : Type} (r : CoordRange) (init : T) :
    (Grid.mk' r init).Wf := by
  simp [Grid.mk', Grid.Wf]

theorem Grid.mk'_get {T : Type} [Inhabited T] (r : CoordRange) (init : T)
    {a : Coord} (ha : (Grid.mk' r init).validC a = true) :
    (Grid.mk' r init).get a = init := by
  have hlt : (Grid.mk' r init).idx a < r.w * r.h := Grid.idx_lt ha
  have ha' : Grid.validC ⟨r.w, r.h, List.replicate (r.w * r.h) init⟩ a = true := ha
  have hlt' : Grid.idx ⟨r.w, r.h, List.replicate (r.w * r.h) init⟩ a < r.w * r.h := hlt
  simp only [Grid.mk', Grid.get, ha', if_true]
  simp [List.getD_eq_getElem?_getD, List.getElem?_replicate, hlt']

/-! ## Row-major coordinate list lemmas -/

theorem CoordRange.coordList_succ (w h : Nat) :
    (CoordRange.mk w (h+1)).coordList =
      (CoordRange.mk w h).coordList ++ (List.range w).map (fun x => ⟨x, h⟩) := by
  unfold CoordRange.coordList
  rw [List.range_succ, List.flatMap_append, List.flatMap_cons, List.flatMap_nil,
    List.append_nil]

theorem CoordRange.length_coordList (r : CoordRange) :
    r.coordList.length = r.w * r.h := by
  obtain ⟨w, h⟩ := r
  induction h with
  | zero => simp [CoordRange.coordList]
  | succ h ih =>
    rw [CoordRange.coordList_succ]
    simp only [List.length_append, List.length_map, List.length_range]
    rw [ih]
    ring

theorem CoordRange.mem_coordList {r : CoordRange} {a : Coord} :
    a ∈ r.coordList ↔ r.valid a = true := by
  obtain ⟨w, h⟩ := r
  constructor
  · intro hmem
    rcases List.mem_flatMap.mp hmem with ⟨y, hy, hrow⟩
    rcases List.mem_map.mp hrow with ⟨x, hx, rfl⟩
    rw [List.mem_range] at hy hx
    dsimp only at hy hx
    refine CoordRange.valid_iff.mpr ⟨?_, ?_, ?_, ?_⟩ <;> dsimp only <;> simp <;> omega
  · intro hv
    rcases CoordRange.valid_iff.mp hv with ⟨hx0, hxw, hy0, hyh⟩
    dsimp only at hx0 hxw hy0 hyh
    apply List.mem_flatMap.mpr
    refine ⟨a.y.toNat, List.mem_range.mpr (by dsimp only; omega), ?_⟩
    apply List.mem_map.mpr
    refine ⟨a.x.toNat, List.mem_range.mpr (by dsimp only; omega), ?_⟩
    cases a with
    | mk ax ay =>
      simp only [Coord.mk.injEq]
      dsimp only at hx0 hy0
      constructor <;> omega

theorem CoordRange.coordList_getElem? {r : CoordRange} {a : Coord}
    (ha : r.valid a = true) :
    r.coordList[(a.x + r.w * a.y).toNat]? = some a := by
  obtain ⟨w, h⟩ := r
  rcases CoordRange.valid_iff.mp ha with ⟨hx0, hxw, hy0, hyh⟩
  clear ha
  dsimp only at hxw hyh ⊢
  revert hyh
  induction h with
  | zero =>
    intro hyh
    omega
  | succ h ih =>
    intro hyh
    rw [CoordRange.coordList_succ]
    by_cases hylt : a.y < (h : Int)
    · have hidx : (a.x + (w : Int) * a.y).toNat < (CoordRange.mk w h).coordList.length := by
        rw [CoordRange.length_coordList]
        exact idxLtAux hx0 hxw hy0 hylt
      rw [List.getElem?_append_left hidx]
      exact ih hylt
    · have hy : a.y = (h : Int) := by push_cast at hyh; omega
      have hidx : (a.x + (w : Int) * a.y).toNat = (CoordRange.mk w h).coordList.length + a.x.toNat := by
        rw [CoordRange.length_coordList]
        have hcast : (w : Int) * a.y = ((w * h : Nat) : Int) := by rw [hy]; push_cast; ring
        dsimp only
        omega
      rw [hidx, List.getElem?_append_right (Nat.le_add_right _ _)]
      rw [Nat.add_sub_cancel_left]
      have hxlt : a.x.toNat < w := by omega
      rw [List.getElem?_map, List.getElem?_range hxlt]
      simp only [Option.map_some']
      congr 1
      cases a with
      | mk ax ay =>
        simp only [Coord.mk.injEq]
        dsimp only at hy hx0
        constructor <;> omega

theorem CoordRange.coordList_nodup (r : CoordRange) : r.coordList.Nodup := by
  obtain ⟨w, h⟩ := r
  induction h with
  | zero => simp [CoordRange.coordList]
  | succ h ih =>
    rw [CoordRange.coordList_succ]
    refine List.Nodup.append ih ?_ ?_
    · refine List.Nodup.map ?_ (List.nodup_range w)
      intro x y hxy
      have hx := congrArg Coord.x hxy
      simpa using hx
    · intro a ha hb
      rcases List.mem_map.mp hb with ⟨x, _, rfl⟩
      have hmem := CoordRange.mem_coordList.mp ha
      rcases CoordRange.valid_iff.mp hmem with ⟨_, _, _, hyh⟩
      dsimp only at hyh
      omega

/-! ## Cell-tree constraint layer (cell_tree_agent.hpp) -/

/-- `can_move_in_tree_cell` from cell_tree_agent.hpp: the two directions
allowed from each position of a 2x2 cell (right-hand drive). -/
def can_move_in_tree_cell (x y : Int) (dir : Dir) : Bool :=
  if x = 1 ∧ y = 0 then dir = Dir.up || dir = Dir.left
  else if x = 0 ∧ y = 1 then dir = Dir.down || dir = Dir.right
  else if x = 0 ∧ y = 0 then dir = Dir.left || dir = Dir.down
  else if x = 1 ∧ y = 1 then dir = Dir.right || dir = Dir.up
  else false

/-- `can_move_in_cell_tree` from cell_tree_agent.hpp: condition 1 (cell-local
direction legality, with the C++ truncating `%`) and condition 2 (target cell
is the same cell, unvisited, or the recorded parent). -/
def can_move_in_cell_tree (cell_parents : Grid Coord) (a b : Coord) (dir : Dir) : Bool :=
  if !can_move_in_tree_cell (Int.tmod a.x 2) (Int.tmod a.y 2) dir then false
  else
    let cell_a := cell a
    let cell_b := cell b
    cell_b = cell_a || cell_parents.get cell_b = NOT_VISITED ||
      cell_parents.get cell_a = cell_b

/-- `move_to_parent` from cell_tree_agent.hpp; `none` models the final
`throw "move_to_parent"`. -/
def move_to_parent (cell_parents : Grid Coord) (a : Coord) : Option Dir :=
  let cell_a := cell a
  let parent := cell_parents.get cell_a
  let x := Int.tmod a.x 2
  let y := Int.tmod a.y 2
  if x = 1 ∧ y = 0 then some (if parent.y < cell_a.y then .up else .left)
  else if x = 0 ∧ y = 1 then some (if parent.y > cell_a.y then .down else .right)
  else if x = 0 ∧ y = 0 then some (if parent.x < cell_a.x then .left else .down)
  else if x = 1 ∧ y = 1 then some (if parent.x > cell_a.x then .right else .up)
  else none

/-- An in-range grid entry equal to `NOT_VISITED` forces the coordinate to be
in range (out-of-range reads return the zero coordinate). -/
theorem Grid.validC_of_get_nv {g : Grid Coord} {c : Coord}
    (h : g.get c = NOT_VISITED) : g.validC c = true := by
  by_contra hc
  simp only [Grid.get] at h
  rw [if_neg hc] at h
  exact absurd h (by decide)

/-- The all-unvisited 2x2 cell-parent grid of a 4x4 board, used as the C5
counterexample world. -/
def c5Tree : Grid Coord := Grid.mk' ⟨2, 2⟩ NOT_VISITED

/-- C5 counterexample: on a 4x4 board with no cell visited, the move
`a=(2,0) → b=(1,0)` (direction `left`) is legal and enters the unvisited cell
`(0,0)`, but after recording `cell(a)=(1,0)` as that cell's parent the exact
reverse move `b → a` (direction `right`) is rejected by condition 1: from the
position `(1,0)` inside its cell only `up` and `left` are ever permitted. -/
theorem c5_counterexample :
    can_move_in_cell_tree c5Tree ⟨2, 0⟩ (Coord.add ⟨2, 0⟩ .left) .left = true ∧
    c5Tree.get (cell (Coord.add ⟨2, 0⟩ .left)) = NOT_VISITED ∧
    can_move_in_cell_tree (c5Tree.set (cell (Coord.add ⟨2, 0⟩ .left)) (cell ⟨2, 0⟩))
      (Coord.add ⟨2, 0⟩ .left) ⟨2, 0⟩ (Dir.neg .left) = false := by
  decide

/-- `cell` via Euclidean division on nonnegative coordinates. -/
theorem cell_eq_ediv {c : Coord} (hx : 0 ≤ c.x) (hy : 0 ≤ c.y) :
    cell c = ⟨c.x / 2, c.y / 2⟩ := by
  unfold cell
  rw [Int.tdiv_eq_ediv hx (by norm_num), Int.tdiv_eq_ediv hy (by norm_num)]

/-- Condition 1 always allows the inside move, which stays in the same cell;
hence `can_move_in_cell_tree` accepts it against any parent grid. -/
theorem can_move_inside_always (tree : Grid Coord) {b : Coord}
    (hx : 0 ≤ b.x) (hy : 0 ≤ b.y) :
    cell (b.add (cell_move_inside b)) = cell b ∧
    can_move_in_cell_tree tree b (b.add (cell_move_inside b)) (cell_move_inside b) = true := by
  have htx : Int.tmod b.x 2 = b.x % 2 := Int.tmod_eq_emod hx (by norm_num)
  have hty : Int.tmod b.y 2 = b.y % 2 := Int.tmod_eq_emod hy (by norm_num)
  have hmain : cell (b.add (cell_move_inside b)) = cell b ∧
      can_move_in_tree_cell (Int.tmod b.x 2) (Int.tmod b.y 2) (cell_move_inside b) = true := by
    rcases Int.emod_two_eq b.x with h1 | h1 <;> rcases Int.emod_two_eq b.y with h2 | h2
    · have hd : cell_move_inside b = Dir.down := by simp [cell_move_inside, h1, h2]
      rw [hd]
      refine ⟨?_, by simp [can_move_in_tree_cell, htx, hty, h1, h2]⟩
      show cell ⟨b.x, b.y + 1⟩ = cell b
      rw [cell_eq_ediv (by dsimp only; omega) (by dsimp only; omega), cell_eq_ediv hx hy]
      dsimp only
      simp only [Coord.mk.injEq]
      constructor <;> first | trivial | omega
    · have hd : cell_move_inside b = Dir.right := by simp [cell_move_inside, h1, h2]
      rw [hd]
      refine ⟨?_, by simp [can_move_in_tree_cell, htx, hty, h1, h2]⟩
      show cell ⟨b.x + 1, b.y⟩ = cell b
      rw [cell_eq_ediv (by dsimp only; omega) (by dsimp only; omega), cell_eq_ediv hx hy]
      dsimp only
      simp only [Coord.mk.injEq]
      constructor <;> first | trivial | omega
    · have hd : cell_move_inside b = Dir.left := by simp [cell_move_inside, h1, h2]
      rw [hd]
      refine ⟨?_, by simp [can_move_in_tree_cell, htx, hty, h1, h2]⟩
      show cell ⟨b.x - 1, b.y⟩ = cell b
      rw [cell_eq_ediv (by dsimp only; omega) (by dsimp only; omega), cell_eq_ediv hx hy]
      dsimp only
      simp only [Coord.mk.injEq]
      constructor <;> first | trivial | omega
    · have hd : cell_move_inside b = Dir.up := by simp [cell_move_inside, h1, h2]
      rw [hd]
      refine ⟨?_, by simp [can_move_in_tree_cell, htx, hty, h1, h2]⟩
      show cell ⟨b.x, b.y - 1⟩ = cell b
      rw [cell_eq_ediv (by dsimp only; omega) (by dsimp only; omega), cell_eq_ediv hx hy]
      dsimp only
      simp only [Coord.mk.injEq]
      constructor <;> first | trivial | omega
  refine ⟨hmain.1, ?_⟩
  unfold can_move_in_cell_tree
  rw [hmain.2, hmain.1]
  simp

/-- C5 amended: after a legal move `a → b = a+dir` into an unvisited *new*
cell and recording `cell(a)` as that cell's parent, the retrace toward the
parent cell is legal in the sense the code uses it (`move_to_parent`): the
direction `move_to_parent` returns from `b` — the inside move of `b`, which
makes progress around `b`'s cell toward its exit — is accepted by
`can_move_in_cell_tree`.  (The exact reverse direction `-dir` itself is never
legal, per the counterexample.) -/
theorem c5_amended (tree : Grid Coord) (hwf : tree.Wf) (a : Coord) (dir : Dir)
    (hax : 0 ≤ a.x) (hay : 0 ≤ a.y)
    (hbx : 0 ≤ (a.add dir).x) (hby : 0 ≤ (a.add dir).y)
    (hcm : can_move_in_cell_tree tree a (a.add dir) dir = true)
    (hnv : tree.get (cell (a.add dir)) = NOT_VISITED)
    (hne : cell (a.add dir) ≠ cell a) :
    ∃ d2 : Dir,
      move_to_parent (tree.set (cell (a.add dir)) (cell a)) (a.add dir) = some d2 ∧
      can_move_in_cell_tree (tree.set (cell (a.add dir)) (cell a)) (a.add dir)
        ((a.add dir).add d2) d2 = true := by
  have hvb : tree.validC (cell (a.add dir)) = true := Grid.validC_of_get_nv hnv
  have hpar : (tree.set (cell (a.add dir)) (cell a)).get (cell (a.add dir)) = cell a :=
    Grid.get_set_same hwf hvb _
  have hc1 : can_move_in_tree_cell (Int.tmod a.x 2) (Int.tmod a.y 2) dir = true := by
    unfold can_move_in_cell_tree at hcm
    rcases hq : can_move_in_tree_cell (Int.tmod a.x 2) (Int.tmod a.y 2) dir
    · rw [hq] at hcm
      simp at hcm
    · rfl
  rw [Int.tmod_eq_emod hax (by norm_num), Int.tmod_eq_emod hay (by norm_num)] at hc1
  suffices hmtp : move_to_parent (tree.set (cell (a.add dir)) (cell a)) (a.add dir)
      = some (cell_move_inside (a.add dir)) by
    exact ⟨cell_move_inside (a.add dir), hmtp,
      (can_move_inside_always _ hbx hby).2⟩
  cases dir with
  | up =>
    dsimp only [Coord.add] at hbx hby hpar hne ⊢
    have hx1 : a.x % 2 = 1 := by
      rcases Int.emod_two_eq a.x with h1 | h1
      · exfalso
        rcases Int.emod_two_eq a.y with h2 | h2 <;>
          simp [can_move_in_tree_cell, h1, h2] at hc1
      · exact h1
    have hy0 : a.y % 2 = 0 := by
      rcases Int.emod_two_eq a.y with h2 | h2
      · exact h2
      · exfalso
        apply hne
        rw [cell_eq_ediv (c := ⟨a.x, a.y - 1⟩) (by exact hax) (by exact hby),
          cell_eq_ediv hax hay]
        simp only [Coord.mk.injEq]
        constructor <;> first | trivial | omega
    have e1 : Int.tmod (⟨a.x, a.y - 1⟩ : Coord).x 2 = 1 := by
      rw [Int.tmod_eq_emod hax (by norm_num)]
      omega
    have e2 : Int.tmod (⟨a.x, a.y - 1⟩ : Coord).y 2 = 1 := by
      rw [Int.tmod_eq_emod hby (by norm_num)]
      omega
    have hmov : cell_move_inside ⟨a.x, a.y - 1⟩ = Dir.up := by
      have h9 : ((⟨a.x, a.y - 1⟩ : Coord).y) % 2 = 1 := by
        show (a.y - 1) % 2 = 1
        omega
      simp only [cell_move_inside, h9, hx1]
      norm_num
    simp only [move_to_parent, e1, e2, hpar, hmov]
    rw [cell_eq_ediv (c := ⟨a.x, a.y - 1⟩) (by exact hax) (by exact hby),
      cell_eq_ediv hax hay]
    norm_num
  | down =>
    dsimp only [Coord.add] at hbx hby hpar hne ⊢
    have hx0 : a.x % 2 = 0 := by
      rcases Int.emod_two_eq a.x with h1 | h1
      · exact h1
      · exfalso
        rcases Int.emod_two_eq a.y with h2 | h2 <;>
          simp [can_move_in_tree_cell, h1, h2] at hc1
    have hy1 : a.y % 2 = 1 := by
      rcases Int.emod_two_eq a.y with h2 | h2
      · exfalso
        apply hne
        rw [cell_eq_ediv (c := ⟨a.x, a.y + 1⟩) (by exact hbx) (by exact hby),
          cell_eq_ediv hax hay]
        simp only [Coord.mk.injEq]
        constructor <;> first | trivial | omega
      · exact h2
    have e1 : Int.tmod (⟨a.x, a.y + 1⟩ : Coord).x 2 = 0 := by
      rw [Int.tmod_eq_emod hax (by norm_num)]
      omega
    have e2 : Int.tmod (⟨a.x, a.y + 1⟩ : Coord).y 2 = 0 := by
      rw [Int.tmod_eq_emod hby (by norm_num)]
      omega
    have hmov : cell_move_inside ⟨a.x, a.y + 1⟩ = Dir.down := by
      have h9 : ((⟨a.x, a.y + 1⟩ : Coord).y) % 2 = 0 := by
        show (a.y + 1) % 2 = 0
        omega
      simp only [cell_move_inside, h9, hx0]
      norm_num
    simp only [move_to_parent, e1, e2, hpar, hmov]
    rw [cell_eq_ediv (c := ⟨a.x, a.y + 1⟩) (by exact hbx) (by exact hby),
      cell_eq_ediv hax hay]
    norm_num
  | left =>
    dsimp only [Coord.add] at hbx hby hpar hne ⊢
    have hy0 : a.y % 2 = 0 := by
      rcases Int.emod_two_eq a.y with h2 | h2
      · exact h2
      · exfalso
        rcases Int.emod_two_eq a.x with h1 | h1 <;>
          simp [can_move_in_tree_cell, h1, h2] at hc1
    have hx0 : a.x % 2 = 0 := by
      rcases Int.emod_two_eq a.x with h1 | h1
      · exact h1
      · exfalso
        apply hne
        rw [cell_eq_ediv (c := ⟨a.x - 1, a.y⟩) (by exact hbx) (by exact hby),
          cell_eq_ediv hax hay]
        simp only [Coord.mk.injEq]
        constructor <;> first | trivial | omega
    have e1 : Int.tmod (⟨a.x - 1, a.y⟩ : Coord).x 2 = 1 := by
      rw [Int.tmod_eq_emod hbx (by norm_num)]
      omega
    have e2 : Int.tmod (⟨a.x - 1, a.y⟩ : Coord).y 2 = 0 := by
      rw [Int.tmod_eq_emod hay (by norm_num)]
      omega
    have hmov : cell_move_inside ⟨a.x - 1, a.y⟩ = Dir.left := by
      have h9 : ((⟨a.x - 1, a.y⟩ : Coord).x) % 2 = 1 := by
        show (a.x - 1) % 2 = 1
        omega
      simp only [cell_move_inside, h9, hy0]
      norm_num
    simp only [move_to_parent, e1, e2, hpar, hmov]
    rw [cell_eq_ediv (c := ⟨a.x - 1, a.y⟩) (by exact hbx) (by exact hby),
      cell_eq_ediv hax hay]
    norm_num
  | right =>
    dsimp only [Coord.add] at hbx hby hpar hne ⊢
    have hy1 : a.y % 2 = 1 := by
      rcases Int.emod_two_eq a.y with h2 | h2
      · exfalso
        rcases Int.emod_two_eq a.x with h1 | h1 <;>
          simp [can_move_in_tree_cell, h1, h2] at hc1
      · exact h2
    have hx1 : a.x % 2 = 1 := by
      rcases Int.emod_two_eq a.x with h1 | h1
      · exfalso
        apply hne
        rw [cell_eq_ediv (c := ⟨a.x + 1, a.y⟩) (by exact hbx) (by exact hby),
          cell_eq_ediv hax hay]
        simp only [Coord.mk.injEq]
        constructor <;> first | trivial | omega
      · exact h1
    have e1 : Int.tmod (⟨a.x + 1, a.y⟩ : Coord).x 2 = 0 := by
      rw [Int.tmod_eq_emod hbx (by norm_num)]
      omega
    have e2 : Int.tmod (⟨a.x + 1, a.y⟩ : Coord).y 2 = 1 := by
      rw [Int.tmod_eq_emod hay (by norm_num)]
      omega
    have hmov : cell_move_inside ⟨a.x + 1, a.y⟩ = Dir.right := by
      have h9 : ((⟨a.x + 1, a.y⟩ : Coord).x) % 2 = 0 := by
        show (a.x + 1) % 2 = 0
        omega
      simp only [cell_move_inside, h9, hy1]
      norm_num
    simp only [move_to_parent, e1, e2, hpar, hmov]
    rw [cell_eq_ediv (c := ⟨a.x + 1, a.y⟩) (by exact hbx) (by exact hby),
      cell_eq_ediv hax hay]
    norm_num

/-- Witness for `c5_amended` at the counterexample's own world: the move
`(2,0) → (1,0)` into the unvisited cell `(0,0)` of the 2x2 cell grid. -/
theorem c5_amended_witness :
    ∃ d2 : Dir,
      move_to_parent (c5Tree.set (cell (Coord.add ⟨2, 0⟩ .left)) (cell ⟨2, 0⟩))
        (Coord.add ⟨2, 0⟩ .left) = some d2 ∧
      can_move_in_cell_tree (c5Tree.set (cell (Coord.add ⟨2, 0⟩ .left)) (cell ⟨2, 0⟩))
        (Coord.add ⟨2, 0⟩ .left) ((Coord.add ⟨2, 0⟩ .left).add d2) d2 = true :=
  c5_amended c5Tree (Grid.mk'_wf _ _) ⟨2, 0⟩ .left (by norm_num) (by norm_num)
    (by decide) (by decide) (by decide) (by decide) (by decide)

/-! ## Shortest paths (shortest_path.hpp)

The BFS result per cell (`struct Step {int dist; Coord from;}`); the C++
field `from` is a Lean keyword and is embedded as `frm`. -/

structure Step where
  dist : Int
  frm : Coord
deriving DecidableEq, Repr

/-- `Grid<Step>` cells start as `Step{INT_MAX, NOT_VISITED}`; the default is
only ever produced by out-of-range reads. -/
instance : Inhabited Step := ⟨⟨INT_MAX, NOT_VISITED⟩⟩

/-- `Step::reachable`. -/
def Step.reachable (s : Step) : Bool := s.dist < INT_MAX

/-- The admissibility predicate of a BFS (`CanMove` template parameter). -/
abbrev CanMove := Coord → Coord → Dir → Bool

/-- One neighbor examination of `generic_shortest_path`'s inner loop: relax
`b = a+d` at level `dist`, with `Except` carrying the `return out` taken when
the target is reached. -/
def bfsStepPair (dims : CoordRange) (can_move : CanMove) (tgt : Coord) (dist : Int)
    (st : Grid Step × List Coord) (a : Coord) (d : Dir) :
    Except (Grid Step) (Grid Step × List Coord) :=
  let out := st.1
  let next := st.2
  let b := a.add d
  if dims.valid b && can_move a b d && decide ((out.get b).dist > dist) then
    let out1 := out.set b ⟨dist, a⟩
    let next1 := next ++ [b]
    if b = tgt then .error out1 else .ok (out1, next1)
  else .ok (out, next)

/-- One full level of `generic_shortest_path`'s `for (a : queue) for (d : dirs)`
loops. -/
def bfsLevel (dims : CoordRange) (can_move : CanMove) (tgt : Coord) (dist : Int)
    (out : Grid Step) (queue : List Coord) :
    Except (Grid Step) (Grid Step × List Coord) :=
  queue.foldlM
    (fun st a => dirs.foldlM (fun st d => bfsStepPair dims can_move tgt dist st a d) st)
    (out, ([] : List Coord))

/-- The `while (!queue.empty())` loop of `generic_shortest_path`.  The fuel
`dims.size + 2` strictly dominates the possible number of levels: every
non-final level marks at least one previously unreached cell. -/
def bfsLevels (dims : CoordRange) (can_move : CanMove) (tgt : Coord) :
    Nat → Int → Grid Step → List Coord → Grid Step
  | 0, _, out, _ => out
  | fuel + 1, dist, out, queue =>
    if queue.isEmpty then out
    else
      match bfsLevel dims can_move tgt (dist + 1) out queue with
      | .error outE => outE
      | .ok (out1, next1) => bfsLevels dims can_move tgt fuel (dist + 1) out1 next1

/-- `generic_shortest_path` from shortest_path.hpp: level-by-level BFS from
`frm` (the C++ parameter `from`), early-exiting when the target is first relaxed. -/
def generic_shortest_path (dims : CoordRange) (can_move : CanMove)
    (frm tgt : Coord) : Grid Step :=
  let out := Grid.mk' dims (⟨INT_MAX, NOT_VISITED⟩ : Step)
  let out1 := out.set frm ⟨0, ROOT⟩
  bfsLevels dims can_move tgt (dims.size + 2) 0 out1 [frm]

/-- `shortest_path` from shortest_path.hpp: BFS through free grid cells. -/
def shortest_path (grid : Grid Bool) (frm tgt : Coord) : Grid Step :=
  generic_shortest_path grid.coords (fun _ b _ => !(grid.get b)) frm tgt

/-- The loop of `first_step`: walk predecessors until the cell just after
`frm`; fuel models the potential divergence on malformed predecessor maps. -/
def firstStepLoop (path : Grid Step) (frm : Coord) : Coord → Nat → Option Coord
  | _, 0 => none
  | tgt, fuel + 1 =>
    if tgt ≠ ROOT ∧ (path.get tgt).frm ≠ frm then
      if tgt = NOT_VISITED then some tgt
      else firstStepLoop path frm ((path.get tgt).frm) fuel
    else some tgt

/-- `first_step` from shortest_path.hpp. -/
def first_step (path : Grid Step) (frm tgt : Coord) : Option Coord :=
  firstStepLoop path frm tgt (path.size + 2)

/-- The loop of `read_path`: collect coordinates walking predecessors from
`tgt`, stopping at `frm`/`ROOT` (or just after pushing `NOT_VISITED`). -/
def readPathLoop (paths : Grid Step) (frm : Coord) :
    Coord → List Coord → Nat → Option (List Coord)
  | _, _, 0 => none
  | tgt, acc, fuel + 1 =>
    if tgt ≠ ROOT ∧ tgt ≠ frm then
      let acc1 := acc ++ [tgt]
      if tgt = NOT_VISITED then some acc1
      else readPathLoop paths frm ((paths.get tgt).frm) acc1 fuel
    else some acc

/-- `read_path` from shortest_path.hpp: the found path in reverse order
(`result.front() == to`, `result.back()` the first step out of `from`). -/
def read_path (paths : Grid Step) (frm tgt : Coord) : Option (List Coord) :=
  readPathLoop paths frm tgt [] (paths.size + 2)

/-! ## A* (shortest_path.hpp)

`std::priority_queue<Item>` with comparison `dist > b.dist` (a min-heap on
`dist`) is modelled as the list of queued items; `popMin` removes the
leftmost item of minimal `dist`, matching the heap's contract (which element
is served among equal keys is unspecified in the source's own terms; the
model fixes the leftmost). -/

structure AItem where
  c : Coord
  dist : Int
deriving DecidableEq, Repr

/-- Remove the leftmost minimal-`dist` item. -/
def popMin : List AItem → Option (AItem × List AItem)
  | [] => none
  | x :: xs =>
    match popMin xs with
    | none => some (x, [])
    | some (m, rest) => if x.dist ≤ m.dist then some (x, xs) else some (m, x :: rest)

/-- One neighbor relaxation of `astar_shortest_path`'s inner loop. -/
def astarRelax (dims : CoordRange) (edges : Coord → Coord → Dir → Int)
    (bound : Coord → Int) (c : Coord) (st : Grid Step × List AItem) (d : Dir) :
    Grid Step × List AItem :=
  let out := st.1
  let queue := st.2
  let b := c.add d
  if !(dims.valid b) then (out, queue)
  else
    let edge := edges c b d
    if edge = INT_MAX then (out, queue)
    else
      let new_dist := (out.get c).dist + edge
      if new_dist < (out.get b).dist then
        (out.set b ⟨new_dist, c⟩, queue ++ [⟨b, new_dist + bound b⟩])
      else (out, queue)

/-- The `while (!queue.empty())` loop of `astar_shortest_path`. -/
def astarLoop (dims : CoordRange) (edges : Coord → Coord → Dir → Int)
    (bound : Coord → Int) (tgt : Coord) :
    Nat → Grid Step → List AItem → Grid Step
  | 0, out, _ => out
  | fuel + 1, out, queue =>
    match popMin queue with
    | none => out
    | some (item, queue1) =>
      if item.c = tgt then out
      else
        let st := dirs.foldl (astarRelax dims edges bound item.c) (out, queue1)
        astarLoop dims edges bound tgt fuel st.1 st.2

/-- `astar_shortest_path` from shortest_path.hpp.  The C++ initialization
only assigns `out[from].dist = 0`, leaving the predecessor `INVALID`.  The
fuel `5 * size + 10` is far beyond what the verified runs consume; the C8
theorems check explicitly that the runs they evaluate drain the queue. -/
def astar_shortest_path (dims : CoordRange) (edges : Coord → Coord → Dir → Int)
    (frm tgt : Coord) (min_distance_cost : Int) : Grid Step :=
  let bound := fun (a : Coord) =>
    min_distance_cost * (((a.x - tgt.x).natAbs : Int) + ((a.y - tgt.y).natAbs : Int))
  let out := (Grid.mk' dims (⟨INT_MAX, INVALID⟩ : Step)).set frm ⟨0, INVALID⟩
  astarLoop dims edges bound tgt (5 * dims.size + 10) out [⟨frm, 0 + bound frm⟩]

/-! ## Ring buffer and game state (util.hpp / game.hpp)

`RingBuffer<T>` is a fixed-capacity deque over an array with `begin_`/`end_`
indices; the backing list has length = capacity.  Index arithmetic follows
the C++ exactly (including that a completely full buffer is
unrepresentable: `begin_ == end_` reads as size 0). -/

structure RingBuffer (T : Type) where
  data : List T
  begin_ : Nat
  end_ : Nat
deriving DecidableEq, Repr

namespace RingBuffer

variable {T : Type} [Inhabited T]

/-- `RingBuffer::capacity`. -/
def capacity (r : RingBuffer T) : Nat := r.data.length

/-- `RingBuffer::size`: `end_ - begin_ + (end_ < begin_) * capacity()` in
`int` arithmetic. -/
def size (r : RingBuffer T) : Nat :=
  (((r.end_ : Int) - r.begin_) + (if r.end_ < r.begin_ then (r.capacity : Int) else 0)).toNat

/-- `RingBuffer::empty`. -/
def empty (r : RingBuffer T) : Bool := r.begin_ = r.end_

/-- `RingBuffer::front`. -/
def front (r : RingBuffer T) : T := r.data.getD r.begin_ default

/-- `RingBuffer::back`. -/
def back (r : RingBuffer T) : T :=
  r.data.getD (if r.end_ = 0 then r.capacity - 1 else r.end_ - 1) default

/-- `RingBuffer::push_front`. -/
def push_front (r : RingBuffer T) (x : T) : RingBuffer T :=
  let b1 := if r.begin_ = 0 then r.capacity - 1 else r.begin_ - 1
  ⟨r.data.set b1 x, b1, r.end_⟩

/-- `RingBuffer::pop_front`. -/
def pop_front (r : RingBuffer T) : RingBuffer T :=
  ⟨r.data, if r.begin_ + 1 ≥ r.capacity then 0 else r.begin_ + 1, r.end_⟩

/-- `RingBuffer::push_back`. -/
def push_back (r : RingBuffer T) (x : T) : RingBuffer T :=
  ⟨r.data.set r.end_ x, r.begin_, if r.end_ + 1 ≥ r.capacity then 0 else r.end_ + 1⟩

/-- `RingBuffer::pop_back`. -/
def pop_back (r : RingBuffer T) : RingBuffer T :=
  ⟨r.data, r.begin_, if r.end_ = 0 then r.capacity - 1 else r.end_ - 1⟩

/-- `RingBuffer::operator[]`. -/
def getIdx (r : RingBuffer T) (i : Nat) : T :=
  r.data.getD ((r.begin_ + i) % r.capacity) default

end RingBuffer

/-- The snake: a ring buffer of coordinates, head at the front. -/
abbrev Snake := RingBuffer Coord

/-- `GameBase` from game.hpp: occupancy grid, snake, goal coordinate. -/
structure GameBase where
  grid : Grid Bool
  snake : Snake
  apple_pos : Coord
deriving Repr

/-- `GameBase::snake_pos`. -/
def GameBase.snake_pos (g : GameBase) : Coord := g.snake.front

/-- `GameBase::dimensions`. -/
def GameBase.dimensions (g : GameBase) : CoordRange := g.grid.coords

/-! ## Perturbed Hamiltonian Cycle agent (hamiltonian_cycle.hpp) -/

/-- The `cycle_order` loop of `PerturbedHamiltonianCycle`'s constructor:
walk the cycle from `{0,0}` for `size` steps, numbering the cells. -/
def cycleOrderLoop (cycle : GridPath) : Coord → Int → Nat → Grid Int → Grid Int
  | _, _, 0, ord => ord
  | c, i, n + 1, ord => cycleOrderLoop cycle (cycle.get c) (i + 1) n (ord.set c i)

/-- The `cycle_order` grid built by `PerturbedHamiltonianCycle(cycle)`. -/
def cycle_order_of (cycle : GridPath) : Grid Int :=
  cycleOrderLoop cycle ⟨0, 0⟩ 0 cycle.size (Grid.mk' cycle.coords (-1))

/-- `PerturbedHamiltonianCycle::cycle_distance`: forward distance in cycle
order, wrapping by `cycle_order.size()`. -/
def cycle_distance (ord : Grid Int) (a b : Coord) : Int :=
  let order_a := ord.get a
  let order_b := ord.get b
  if order_a < order_b then order_b - order_a else order_b - order_a + (ord.size : Int)

/-- `PerturbedHamiltonianCycle::cycle_distance_round_down`. -/
def cycle_distance_round_down (ord : Grid Int) (a b : Coord) : Int :=
  let order_a := ord.get a
  let order_b := ord.get b
  if order_a ≤ order_b then order_b - order_a else order_b - order_a + (ord.size : Int)

/-- The shortcut bound of `PerturbedHamiltonianCycle::operator()`:
`min(dist_goal, dist_tail - 3)`, zeroed when the snake exceeds 50% of the
grid, then reduced when the goal is nearer than the tail (growth, and the
chance of passing more goals). -/
def phcMaxShortcut (ord : Grid Int) (game : GameBase) : Int :=
  let pos := game.snake_pos
  let goal := game.apple_pos
  let dist_goal := cycle_distance ord pos goal
  let dist_tail := cycle_distance ord pos game.snake.back
  let ms0 := min dist_goal (dist_tail - 3)
  let ms1 := if game.snake.size > game.grid.size * 50 / 100 then 0 else ms0
  if dist_goal < dist_tail then
    (ms1 - 1) -
      (if (dist_tail - dist_goal) * 4 > ((game.grid.size : Int) - (game.snake.size : Int))
       then 10 else 0)
  else ms1

/-- The coordinate `next` chosen by `PerturbedHamiltonianCycle::operator()`
(the returned direction is `next - pos`).  `none` models divergence inside
the `use_shortest_path` branch's `first_step` call. -/
def phcNext (cycle : GridPath) (ord : Grid Int) (use_shortest_path : Bool)
    (game : GameBase) : Option Coord :=
  let pos := game.snake_pos
  let goal := game.apple_pos
  let next0 := cycle.get pos
  let dist_goal := cycle_distance ord pos goal
  let dist_tail := cycle_distance ord pos game.snake.back
  let max_shortcut := phcMaxShortcut ord game
  if max_shortcut > 0 then
    if use_shortest_path then
      let edge := fun (f t : Coord) (_ : Dir) =>
        let dist_from := cycle_distance_round_down ord pos f
        let dist_to := cycle_distance ord pos t
        if dist_to > dist_from ∧ dist_to < dist_tail ∧ !(game.grid.get t) then 1
        else if dist_to = dist_from + 1 then 1
        else INT_MAX
      let tgt := if dist_goal < dist_tail then goal else game.snake.back
      let paths := astar_shortest_path game.grid.coords edge pos tgt 1
      match first_step paths pos tgt with
      | none => none
      | some better_next =>
        some (if game.grid.is_clear better_next then better_next else next0)
    else
      some ((dirs.foldl (fun st dir =>
        let b := pos.add dir
        if game.grid.validC b && !(game.grid.get b) then
          let dist_b := cycle_distance ord pos b
          if dist_b ≤ max_shortcut ∧ dist_b > st.2 then (b, dist_b) else st
        else st) (next0, (1 : Int))).1)
  else some next0

/-- `PerturbedHamiltonianCycle::operator()`: the returned direction
`next - pos`. -/
def phcMove (cycle : GridPath) (ord : Grid Int) (use_shortest_path : Bool)
    (game : GameBase) : Option Dir :=
  match phcNext cycle ord use_shortest_path game with
  | none => none
  | some nxt => coordSub nxt game.snake_pos

/-- When the snake exceeds 50% of the grid, the shortcut bound is forced
nonpositive (it is zeroed before the goal-side reductions, which only
decrease it). -/
theorem phcMaxShortcut_le_of_size {ord : Grid Int} {game : GameBase}
    (hsz : game.snake.size > game.grid.size * 50 / 100) :
    phcMaxShortcut ord game ≤ 0 := by
  simp only [phcMaxShortcut]
  split_ifs <;> omega

/-- Claim C4: with `use_shortest_path = false`, the PHC agent returns exactly
the static-cycle step `cycle[pos] - pos` whenever the snake exceeds 50% of
the grid capacity or the computed shortcut bound is not positive; conversely
a move off the static cycle can only be chosen while the snake is at most
50% of the grid and the bound is positive. -/
theorem c4_phc_shortcut_guard (cycle : GridPath) (game : GameBase) :
    ((game.snake.size > game.grid.size * 50 / 100 ∨
        phcMaxShortcut (cycle_order_of cycle) game ≤ 0) →
      phcNext cycle (cycle_order_of cycle) false game
          = some (cycle.get game.snake_pos) ∧
      phcMove cycle (cycle_order_of cycle) false game
          = coordSub (cycle.get game.snake_pos) game.snake_pos) ∧
    (∀ nxt : Coord, phcNext cycle (cycle_order_of cycle) false game = some nxt →
      nxt ≠ cycle.get game.snake_pos →
      ¬(game.snake.size > game.grid.size * 50 / 100) ∧
        phcMaxShortcut (cycle_order_of cycle) game > 0) := by
  constructor
  · intro h
    have hms : phcMaxShortcut (cycle_order_of cycle) game ≤ 0 := by
      rcases h with h | h
      · exact phcMaxShortcut_le_of_size h
      · exact h
    have hnext : phcNext cycle (cycle_order_of cycle) false game
        = some (cycle.get game.snake_pos) := by
      simp only [phcNext]
      rw [if_neg (by omega)]
    refine ⟨hnext, ?_⟩
    simp only [phcMove, hnext]
  · intro nxt hnx hne
    by_cases hms : phcMaxShortcut (cycle_order_of cycle) game > 0
    · refine ⟨?_, hms⟩
      intro hsz
      have := @phcMaxShortcut_le_of_size (cycle_order_of cycle) game hsz
      omega
    · exfalso
      apply hne
      simp only [phcNext] at hnx
      rw [if_neg hms] at hnx
      exact (Option.some.injEq _ _ ▸ hnx).symm

/-- A concrete 2x2 board with its unique Hamiltonian cycle, the snake
occupying 3 of 4 cells (over 50%), used to witness C4. -/
def c4Cycle : GridPath := ⟨2, 2, [⟨0, 1⟩, ⟨0, 0⟩, ⟨1, 1⟩, ⟨1, 0⟩]⟩

/-- Game state for the C4 witness: snake `(0,0) ← (0,1) ← (1,1)` (head
first), goal `(1,0)`. -/
def c4Game : GameBase :=
  { grid := ⟨2, 2, [true, false, true, true]⟩
    snake := ⟨[⟨0, 0⟩, ⟨0, 1⟩, ⟨1, 1⟩, ⟨0, 0⟩, ⟨0, 0⟩], 0, 3⟩
    apple_pos := ⟨1, 0⟩ }

/-- Witness for C4: on `c4Game` the snake covers 75% of the grid, so the PHC
agent follows the static cycle. -/
theorem c4_phc_shortcut_guard_witness :
    phcNext c4Cycle (cycle_order_of c4Cycle) false c4Game
        = some (c4Cycle.get c4Game.snake_pos) ∧
    phcMove c4Cycle (cycle_order_of c4Cycle) false c4Game
        = coordSub (c4Cycle.get c4Game.snake_pos) c4Game.snake_pos :=
  (c4_phc_shortcut_guard c4Cycle c4Game).1 (Or.inl (by decide))

/-! ## Cell-tree parents (cell_tree_agent.hpp) -/

/-- The snake walk of `cell_tree_parents`: `for (i = snake.size()-1; i >= 0;
--i)` recording each newly-seen cell's parent (the previously-seen cell,
`ROOT` for the first). -/
def ctpLoop (snake : Snake) : Nat → Coord → Grid Coord → Grid Coord
  | 0, _, parents => parents
  | i + 1, parent, parents =>
    let c := snake.getIdx i
    let cc := cell c
    let parents1 := if parents.get cc = NOT_VISITED then parents.set cc parent else parents
    ctpLoop snake i cc parents1

/-- `cell_tree_parents` from cell_tree_agent.hpp: the parent-tree over the
`w/2 x h/2` cell grid implied by the snake body (tail = root). -/
def cell_tree_parents (dims : CoordRange) (snake : Snake) : Grid Coord :=
  ctpLoop snake snake.size ROOT (Grid.mk' ⟨dims.w / 2, dims.h / 2⟩ NOT_VISITED)

/-- Checked variant of the `cell_tree_parents` walk: `none` as soon as the
C++ would touch `parents[cell_coord]` out of range (undefined behavior). -/
def ctpLoopChecked (snake : Snake) : Nat → Coord → Grid Coord → Option (Grid Coord)
  | 0, _, parents => some parents
  | i + 1, parent, parents =>
    let c := snake.getIdx i
    let cc := cell c
    if parents.validC cc then
      let parents1 := if parents.get cc = NOT_VISITED then parents.set cc parent else parents
      ctpLoopChecked snake i cc parents1
    else none

/-- `cell_tree_parents` with out-of-range accesses made observable. -/
def cell_tree_parentsChecked (dims : CoordRange) (snake : Snake) : Option (Grid Coord) :=
  ctpLoopChecked snake snake.size ROOT (Grid.mk' ⟨dims.w / 2, dims.h / 2⟩ NOT_VISITED)

/-- A fixed RNG stream (all zero draws), enough to witness behavior that the
claims quantify over all streams. -/
def rng0 : RNG := ⟨fun _ => 0, 0⟩

/-- A length-1 snake sitting in the last column of a 5-wide grid. -/
def c9Snake : Snake := ⟨[⟨4, 0⟩, ⟨0, 0⟩], 0, 1⟩

/-- The spanning-tree loop never changes the tree grid's dimensions. -/
theorem rstLoop_dims (dims : CoordRange) :
    ∀ (fuel : Nat) (tree : Grid Coord) (queue : List (Coord × Coord)) (rng : RNG),
      (rstLoop dims fuel tree queue rng).w = tree.w ∧
      (rstLoop dims fuel tree queue rng).h = tree.h := by
  intro fuel
  induction fuel with
  | zero => intro tree queue rng; exact ⟨rfl, rfl⟩
  | succ fuel ih =>
    intro tree queue rng
    cases queue with
    | nil => exact ⟨rfl, rfl⟩
    | cons q qs =>
      simp only [rstLoop]
      split
      · constructor
        · rw [(ih _ _ _).1, Grid.set_w]
        · rw [(ih _ _ _).2, Grid.set_h]
      · exact ih _ _ _

/-- C9 amended, general part: `random_hamiltonian_cycle` never rejects; it
always returns a grid of the truncated even dimensions `(w/2)*2 x (h/2)*2`. -/
theorem c9_amended_dims (dims : CoordRange) (rng : RNG) :
    (random_hamiltonian_cycle dims rng).w = dims.w / 2 * 2 ∧
    (random_hamiltonian_cycle dims rng).h = dims.h / 2 * 2 := by
  unfold random_hamiltonian_cycle tree_to_hamiltonian_cycle random_spanning_tree
  constructor
  · show (rstLoop _ _ _ _ _).w * 2 = dims.w / 2 * 2
    rw [(rstLoop_dims _ _ _ _ _).1, Grid.set_w]
    rfl
  · show (rstLoop _ _ _ _ _).h * 2 = dims.h / 2 * 2
    rw [(rstLoop_dims _ _ _ _ _).2, Grid.set_h]
    rfl

/-- C9 counterexample: on the odd 5x4 grid nothing is rejected at
construction time.  `random_hamiltonian_cycle` silently returns a (valid)
cycle of the truncated 4x4 grid, and `cell_tree_parents` for a snake in the
fifth column performs an out-of-range parent-grid access (undefined behavior
at runtime) instead of any construction-time failure. -/
theorem c9_counterexample :
    (random_hamiltonian_cycle ⟨5, 4⟩ rng0).w = 4 ∧
    is_hamiltonian_cycle (random_hamiltonian_cycle ⟨5, 4⟩ rng0) = true ∧
    cell_tree_parentsChecked ⟨5, 4⟩ c9Snake = none := by
  decide

/-! ## Ring buffer list view -/

/-- Reduce `a % n` when `a < 2*n`. -/
theorem modTwoCases {a n : Nat} (h : a < 2 * n) : a % n = if a < n then a else a - n := by
  split
  · exact Nat.mod_eq_of_lt (by assumption)
  · have hn : 0 < n := by omega
    have h2 : a - n < n := by omega
    rw [Nat.mod_eq_sub_mod (by omega), Nat.mod_eq_of_lt h2]

namespace RingBuffer

variable {T : Type} [Inhabited T]

/-- Structural well-formedness: nonzero capacity, indices in range. -/
def WfRB (r : RingBuffer T) : Prop :=
  0 < r.data.length ∧ r.begin_ < r.data.length ∧ r.end_ < r.data.length

/-- The logical content of the buffer, front first. -/
def toList (r : RingBuffer T) : List T := (List.range r.size).map r.getIdx

theorem length_toList (r : RingBuffer T) : r.toList.length = r.size := by
  simp [toList]

theorem size_spec (r : RingBuffer T) :
    r.size = if r.end_ < r.begin_ then r.end_ + r.capacity - r.begin_ else r.end_ - r.begin_ := by
  unfold size
  split <;> omega

theorem size_lt_cap (r : RingBuffer T) (hwf : r.WfRB) : r.size < r.capacity := by
  obtain ⟨h0, hb, he⟩ := hwf
  rw [size_spec]
  unfold capacity at *
  split <;> omega

theorem getIdx_eq (r : RingBuffer T) {i : Nat} (hwf : r.WfRB) (hi : i < r.capacity) :
    r.getIdx i = r.data.getD (if r.begin_ + i < r.capacity then r.begin_ + i
      else r.begin_ + i - r.capacity) default := by
  obtain ⟨h0, hb, he⟩ := hwf
  unfold getIdx capacity at *
  rw [modTwoCases (by omega)]

theorem toList_getD (r : RingBuffer T) {i : Nat} (hi : i < r.size) :
    r.toList.getD i default = r.getIdx i := by
  unfold toList
  rw [List.getD_eq_getElem?_getD, List.getElem?_map, List.getElem?_range hi]
  rfl

end RingBuffer

/-- Index arithmetic for `push_front`: the old element `i` sits at position
`i+1` of the new buffer, and its slot differs from the newly written one. -/
theorem pfIdxAux {cap begin_ i s b1 : Nat} (hcap : 0 < cap) (hb : begin_ < cap)
    (hi : i < s) (hs : s + 1 < cap)
    (hb1 : (begin_ = 0 ∧ b1 = cap - 1) ∨ (0 < begin_ ∧ b1 = begin_ - 1)) :
    (b1 + (i + 1)) % cap = (begin_ + i) % cap ∧
    (begin_ + i) % cap ≠ b1 ∧ (begin_ + i) % cap < cap := by
  rcases hb1 with ⟨h, rfl⟩ | ⟨h, rfl⟩ <;>
  · rw [modTwoCases (n := cap) (by omega), modTwoCases (n := cap) (by omega)]
    split_ifs <;> omega

namespace RingBuffer

variable {T : Type} [Inhabited T]

theorem push_front_capacity (r : RingBuffer T) (x : T) :
    (r.push_front x).capacity = r.capacity := by
  simp [push_front, capacity]

theorem push_front_size (r : RingBuffer T) (x : T) (hwf : r.WfRB)
    (hs : r.size + 1 < r.capacity) : (r.push_front x).size = r.size + 1 := by
  obtain ⟨h0, hb, he⟩ := hwf
  have h1 := r.size_spec
  have h2 := (r.push_front x).size_spec
  rw [push_front_capacity] at h2
  simp only [push_front, List.length_set] at h2 ⊢
  unfold capacity at *
  split_ifs at h1 h2 ⊢ <;> omega

theorem push_front_wf (r : RingBuffer T) (x : T) (hwf : r.WfRB) :
    (r.push_front x).WfRB := by
  obtain ⟨h0, hb, he⟩ := hwf
  refine ⟨?_, ?_, ?_⟩ <;> simp only [push_front, List.length_set, capacity] <;>
    first
      | omega
      | (split <;> omega)

theorem push_front_toList (r : RingBuffer T) (x : T) (hwf : r.WfRB)
    (hs : r.size + 1 < r.capacity) :
    (r.push_front x).toList = x :: r.toList := by
  have hsz := r.push_front_size x hwf hs
  have hs' : r.size + 1 < r.data.length := hs
  obtain ⟨h0, hb, he⟩ := hwf
  have hb1 : ((r.begin_ = 0 ∧ (if r.begin_ = 0 then r.data.length - 1 else r.begin_ - 1) = r.data.length - 1) ∨
      (0 < r.begin_ ∧ (if r.begin_ = 0 then r.data.length - 1 else r.begin_ - 1) = r.begin_ - 1)) := by
    split_ifs with hc <;> [exact Or.inl ⟨hc, rfl⟩; exact Or.inr ⟨by omega, rfl⟩]
  unfold toList
  rw [hsz, List.range_succ_eq_map, List.map_cons, List.map_map]
  have hcap0 : 0 < r.capacity := h0
  congr 1
  · show (r.push_front x).getIdx 0 = x
    unfold getIdx push_front capacity
    simp only [List.length_set, Nat.add_zero]
    rw [Nat.mod_eq_of_lt (by unfold capacity at *; split_ifs <;> omega)]
    rw [List.getD_eq_getElem?_getD, List.getElem?_set_self (by unfold capacity at *; split_ifs <;> omega)]
    rfl
  · apply List.map_congr_left
    intro i hi
    rw [List.mem_range] at hi
    show (r.push_front x).getIdx (i + 1) = r.getIdx i
    unfold getIdx push_front capacity
    simp only [List.length_set]
    obtain ⟨he1, he2, he3⟩ := pfIdxAux (i := i) (s := r.size) h0 hb hi hs' hb1
    rw [he1, List.getD_eq_getElem?_getD, List.getD_eq_getElem?_getD,
      List.getElem?_set_ne (by exact fun hq => he2 hq.symm)]

theorem pop_back_capacity (r : RingBuffer T) : r.pop_back.capacity = r.capacity := rfl

theorem pop_back_size (r : RingBuffer T) (hwf : r.WfRB) (hs : 0 < r.size) :
    r.pop_back.size = r.size - 1 := by
  obtain ⟨h0, hb, he⟩ := hwf
  have h1 := r.size_spec
  have h2 := r.pop_back.size_spec
  rw [pop_back_capacity] at h2
  simp only [pop_back] at h2 ⊢
  unfold capacity at *
  split_ifs at h1 h2 ⊢ <;> omega

theorem pop_back_wf (r : RingBuffer T) (hwf : r.WfRB) : r.pop_back.WfRB := by
  obtain ⟨h0, hb, he⟩ := hwf
  refine ⟨h0, hb, ?_⟩
  simp only [pop_back, capacity]
  split <;> omega

theorem pop_back_toList (r : RingBuffer T) (hwf : r.WfRB) (hs : 0 < r.size) :
    r.pop_back.toList = r.toList.dropLast := by
  have hsz := r.pop_back_size hwf hs
  have hgi : ∀ i, r.pop_back.getIdx i = r.getIdx i := fun i => rfl
  unfold toList
  rw [hsz]
  have hrange : List.range r.size = List.range (r.size - 1) ++ [r.size - 1] := by
    have h9 : r.size = (r.size - 1) + 1 := by omega
    conv_lhs => rw [h9, List.range_succ]
  rw [hrange, List.map_append, List.map_cons, List.map_nil, List.dropLast_concat]
  exact List.map_congr_left fun i _ => hgi i

theorem head?_toList (r : RingBuffer T) (hwf : r.WfRB) (hs : 0 < r.size) :
    r.toList.head? = some r.front := by
  obtain ⟨h0, hb, he⟩ := hwf
  unfold toList
  have : r.size = (r.size - 1) + 1 := by omega
  rw [this, List.range_succ_eq_map, List.map_cons, List.head?_cons]
  show some (r.getIdx 0) = some r.front
  unfold getIdx front capacity
  rw [Nat.add_zero, Nat.mod_eq_of_lt hb]

theorem getLast?_toList (r : RingBuffer T) (hwf : r.WfRB) (hs : 0 < r.size) :
    r.toList.getLast? = some r.back := by
  obtain ⟨h0, hb, he⟩ := hwf
  unfold toList
  have h1 : List.range r.size = List.range (r.size - 1) ++ [r.size - 1] := by
    have h9 : r.size = (r.size - 1) + 1 := by omega
    conv_lhs => rw [h9, List.range_succ]
  rw [h1, List.map_append, List.map_cons, List.map_nil, List.getLast?_concat]
  show some (r.getIdx (r.size - 1)) = some r.back
  have hspec := r.size_spec
  unfold capacity at hspec
  have hslt : r.size < r.data.length := by split at hspec <;> omega
  have hidx : (r.begin_ + (r.size - 1)) % r.data.length
      = if r.end_ = 0 then r.data.length - 1 else r.end_ - 1 := by
    rw [modTwoCases (by omega)]
    split_ifs at hspec ⊢ <;> omega
  unfold getIdx back capacity
  rw [hidx]

end RingBuffer

/-! ## The game itself (game.hpp) -/

/-- `Game::State`. -/
inductive GState where
  | playing | loss | win
deriving DecidableEq, Repr

/-- `Game::Event`. -/
inductive Event where
  | none | move | eat | lose
deriving DecidableEq, Repr

/-- `Game` from game.hpp: base state plus turn counter, status, and its own
RNG. -/
structure Game extends GameBase where
  turn : Int
  state : GState
  rng : RNG

/-- The scan of `Game::random_free_coord`: return the `pos`-th free cell in
row-major order; `none` models `throw "no free coord"`. -/
def randomFreeLoop (grid : Grid Bool) : List Coord → Nat → Option Coord
  | [], _ => none
  | c :: cs, pos =>
    if !(grid.get c) then
      if pos = 0 then some c else randomFreeLoop grid cs (pos - 1)
    else randomFreeLoop grid cs pos

/-- `Game::random_free_coord`: draw `pos < grid.size - snake.size` and pick
the `pos`-th free cell. -/
def random_free_coord (grid : Grid Bool) (snakeSize : Nat) (rng : RNG) :
    Option Coord × RNG :=
  let n := grid.size - snakeSize
  let draw := rng.random n
  (randomFreeLoop grid grid.coords.coordList draw.1, draw.2)

/-- The `Game` constructor: random start cell, snake of length 1, random
apple.  `none` models the `throw` of `random_free_coord` and the
divide-by-zero of `rng.random(0)` on an empty range. -/
def Game.mkNew (dims : CoordRange) (rng : RNG) : Option Game :=
  if dims.w = 0 ∨ dims.h = 0 then none
  else
    let grid0 := Grid.mk' dims false
    let snake0 : Snake := ⟨List.replicate (dims.size + 1) default, 0, 0⟩
    let draw := dims.randomC rng
    let start := draw.1
    let snake1 := snake0.push_front start
    let grid1 := grid0.set start true
    let rfc := random_free_coord grid1 snake1.size draw.2
    match rfc.1 with
    | Option.none => none
    | some apple =>
      some { grid := grid1, snake := snake1, apple_pos := apple,
             turn := 0, state := .playing, rng := rfc.2 }

/-- `Game::move` from game.hpp.  `none` models the `throw` inside
`random_free_coord` (unreachable under the game invariants). -/
def Game.move (g : Game) (dir : Dir) : Option (Game × Event) :=
  if g.state ≠ GState.playing then some (g, Event.none)
  else
    let g1 : Game := { g with turn := g.turn + 1 }
    let next := g.snake.front.add dir
    if ¬(g.grid.validC next = true) ∨ g.grid.get next = true then
      some ({ g1 with state := .loss }, .lose)
    else
      let max_turns := (g.grid.size : Int) * (g.grid.size : Int)
      if g1.turn > max_turns then some ({ g1 with state := .loss }, .lose)
      else
        let snake2 := g1.snake.push_front next
        let grid2 := g1.grid.set next true
        if next = g.apple_pos then
          if snake2.size = g.grid.size then
            some ({ g1 with snake := snake2, grid := grid2, state := .win }, .eat)
          else
            let rfc := random_free_coord grid2 snake2.size g1.rng
            match rfc.1 with
            | Option.none => none
            | some apple =>
              let g2 : Game :=
                { g1 with snake := snake2, grid := grid2, apple_pos := apple, rng := rfc.2 }
              some (g2, .eat)
        else
          let lst := snake2.back
          let grid3 := grid2.set lst false
          let snake3 := snake2.pop_back
          some ({ g1 with snake := snake3, grid := grid3 }, .move)

/-- Game states reachable from a freshly constructed game by `Game::move`. -/
inductive Reachable : Game → Prop where
  | base : ∀ (dims : CoordRange) (rng : RNG) (g : Game),
      Game.mkNew dims rng = some g → Reachable g
  | step : ∀ (g : Game) (dir : Dir) (p : Game × Event),
      Reachable g → Game.move g dir = some p → Reachable p.1

/-- The maintained invariant of a game state (claim C10's properties plus the
structural facts needed to push them through `Game::move`). -/
structure GameInv (g : Game) : Prop where
  grid_wf : g.grid.Wf
  cap_eq : g.snake.data.length = g.grid.size + 1
  rb_wf : g.snake.WfRB
  size_pos : 0 < g.snake.size
  size_le : g.snake.size ≤ g.grid.size
  playing_lt : g.state = GState.playing → g.snake.size < g.grid.size
  entries_valid : ∀ c ∈ g.snake.toList, g.grid.validC c = true
  nodup : g.snake.toList.Nodup
  adj : g.snake.toList.Chain' (fun p q => is_neighbor p q = true)
  mem_iff : ∀ c : Coord, g.grid.validC c = true →
    (g.grid.get c = true ↔ c ∈ g.snake.toList)


/-! ## Game invariant preservation (C10) -/

theorem Grid.set_size {T : Type} (g : Grid T) (a : Coord) (v : T) :
    (g.set a v).size = g.size := by
  simp only [Grid.size, Grid.set_w, Grid.set_h]

/-- A step target is a 4-neighbor of its origin. -/
theorem is_neighbor_add (a : Coord) (d : Dir) : is_neighbor (a.add d) a = true := by
  cases d <;> simp [is_neighbor, Coord.add, manhattan_distance] <;> omega

/-- `random_free_coord`'s scan only ever returns a free member of its
candidate list. -/
theorem randomFreeLoop_spec (grid : Grid Bool) :
    ∀ (l : List Coord) (pos : Nat) (c : Coord),
      randomFreeLoop grid l pos = some c → grid.get c = false ∧ c ∈ l := by
  intro l
  induction l with
  | nil => intro pos c h; simp [randomFreeLoop] at h
  | cons a tl ih =>
    intro pos c h
    unfold randomFreeLoop at h
    split at h
    · rename_i hfree
      split at h
      · obtain rfl := Option.some.inj h
        exact ⟨by simpa using hfree, List.mem_cons_self _ _⟩
      · rcases ih _ _ h with ⟨h1, h2⟩
        exact ⟨h1, List.mem_cons_of_mem _ h2⟩
    · rcases ih _ _ h with ⟨h1, h2⟩
      exact ⟨h1, List.mem_cons_of_mem _ h2⟩

/-- A freshly constructed game satisfies the maintained invariant. -/
theorem gameInv_init {dims : CoordRange} {rng : RNG} {g : Game}
    (h : Game.mkNew dims rng = some g) : GameInv g := by
  simp only [Game.mkNew] at h
  split at h
  · exact absurd h (by simp)
  · rename_i hdim
    push_neg at hdim
    obtain ⟨hw, hh⟩ := hdim
    split at h
    · exact absurd h (by simp)
    · rename_i apple happle
      obtain rfl := Option.some.inj h
      have hszpos : 0 < dims.size := Nat.mul_pos (by omega) (by omega)
      have hxlt : rng.seq rng.pos % dims.w < dims.w := Nat.mod_lt _ (by omega)
      have hylt : rng.seq (rng.pos + 1) % dims.h < dims.h := Nat.mod_lt _ (by omega)
      have hSval : (Grid.mk' dims false).validC (dims.randomC rng).1 = true := by
        rw [Grid.validC_iff]
        simp only [CoordRange.randomC, RNG.random, Grid.mk']
        refine ⟨by positivity, by exact_mod_cast hxlt, by positivity, by exact_mod_cast hylt⟩
      have hrwf0 : (⟨List.replicate (dims.size + 1) default, 0, 0⟩ : Snake).WfRB := by
        refine ⟨?_, ?_, ?_⟩ <;> simp
      have hsz0 : (⟨List.replicate (dims.size + 1) default, 0, 0⟩ : Snake).size = 0 := rfl
      have hcapb : (⟨List.replicate (dims.size + 1) default, 0, 0⟩ : Snake).size + 1
          < (⟨List.replicate (dims.size + 1) default, 0, 0⟩ : Snake).capacity := by
        rw [hsz0]
        simp only [RingBuffer.capacity, List.length_replicate]
        omega
      have hl0 : (⟨List.replicate (dims.size + 1) default, 0, 0⟩ : Snake).toList = [] := by
        rw [RingBuffer.toList, hsz0]
        rfl
      have hsz1 := RingBuffer.push_front_size _ (dims.randomC rng).1 hrwf0 hcapb
      have hlist1 := RingBuffer.push_front_toList _ (dims.randomC rng).1 hrwf0 hcapb
      rw [hl0] at hlist1
      rw [hsz0] at hsz1
      have hwf1 := RingBuffer.push_front_wf _ (dims.randomC rng).1 hrwf0
      have hg0wf : (Grid.mk' dims false).Wf := Grid.mk'_wf dims false
      have hg1wf : ((Grid.mk' dims false).set (dims.randomC rng).1 true).Wf :=
        Grid.set_wf hg0wf _ _
      have hg1size : ((Grid.mk' dims false).set (dims.randomC rng).1 true).size
          = dims.size := by
        rw [Grid.set_size]
        rfl
      have hgetS : ((Grid.mk' dims false).set (dims.randomC rng).1 true).get
          (dims.randomC rng).1 = true := Grid.get_set_same hg0wf hSval true
      simp only [random_free_coord] at happle
      obtain ⟨happlefree, happlemem⟩ := randomFreeLoop_spec _ _ _ _ happle
      have happleval : ((Grid.mk' dims false).set (dims.randomC rng).1 true).validC
          apple = true := by
        have := CoordRange.mem_coordList.mp happlemem
        exact this
      have hne : apple ≠ (dims.randomC rng).1 := by
        intro hq
        rw [hq, hgetS] at happlefree
        exact absurd happlefree (by simp)
      have hgt1 : 1 < dims.size := by
        by_contra hq
        push_neg at hq
        have h1 : dims.w * dims.h = 1 := by
          have : dims.size = 1 := by omega
          simpa [CoordRange.size] using this
        have hwle : dims.w ≤ dims.w * dims.h := Nat.le_mul_of_pos_right _ (by omega)
        have hhle : dims.h ≤ dims.w * dims.h := Nat.le_mul_of_pos_left _ (by omega)
        have hw1 : dims.w = 1 := by omega
        have hh1 : dims.h = 1 := by omega
        have hS := Grid.validC_iff.mp hSval
        have hA := Grid.validC_iff.mp (by
          rw [Grid.set_validC] at happleval
          exact happleval)
        rw [show (Grid.mk' dims false).w = dims.w from rfl,
          show (Grid.mk' dims false).h = dims.h from rfl, hw1, hh1] at hS hA
        simp only [Nat.cast_one] at hS hA
        apply hne
        have hx : apple.x = (dims.randomC rng).1.x := by omega
        have hy : apple.y = (dims.randomC rng).1.y := by omega
        cases apple
        cases hv : (dims.randomC rng).1
        rw [hv] at hx hy
        simp only at hx hy
        simp [hx, hy]
      refine ⟨hg1wf, ?_, hwf1, ?_, ?_, ?_, ?_, ?_, ?_, ?_⟩
      · show ((⟨List.replicate (dims.size + 1) default, 0, 0⟩ : Snake).push_front
          (dims.randomC rng).1).data.length = _
        simp only [RingBuffer.push_front, List.length_set, List.length_replicate]
        rw [hg1size]
      · show 0 < ((⟨List.replicate (dims.size + 1) default, 0, 0⟩ : Snake).push_front
          (dims.randomC rng).1).size
        omega
      · show ((⟨List.replicate (dims.size + 1) default, 0, 0⟩ : Snake).push_front
            (dims.randomC rng).1).size
          ≤ ((Grid.mk' dims false).set (dims.randomC rng).1 true).size
        rw [hsz1, hg1size]
        omega
      · intro _
        show ((⟨List.replicate (dims.size + 1) default, 0, 0⟩ : Snake).push_front
            (dims.randomC rng).1).size
          < ((Grid.mk' dims false).set (dims.randomC rng).1 true).size
        rw [hsz1, hg1size]
        omega
      · intro c hc
        rw [hlist1] at hc
        rcases List.mem_singleton.mp hc with rfl
        rw [Grid.set_validC]
        exact hSval
      · rw [hlist1]
        simp
      · rw [hlist1]
        simp
      · intro c hc
        rw [hlist1]
        by_cases hceq : c = (dims.randomC rng).1
        · subst hceq
          rw [hgetS]
          simp
        · rw [Grid.get_set_ne _ hceq]
          rw [Grid.set_validC] at hc
          rw [Grid.mk'_get dims false hc]
          simp [hceq]

/-- `Game::move` preserves the maintained invariant. -/
theorem gameInv_move {g : Game} (inv : GameInv g) {dir : Dir} {p : Game × Event}
    (h : Game.move g dir = some p) : GameInv p.1 := by
  obtain ⟨gwf, hcap, hrwf, hsp, hsle, hplt, hev, hnd, hadj, hmem⟩ := inv
  simp only [Game.move] at h
  split at h
  · obtain rfl := Option.some.inj h
    exact ⟨gwf, hcap, hrwf, hsp, hsle, hplt, hev, hnd, hadj, hmem⟩
  · rename_i hst
    push_neg at hst
    split at h
    · obtain rfl := Option.some.inj h
      exact ⟨gwf, hcap, hrwf, hsp, hsle, fun hq => by simp at hq, hev, hnd, hadj, hmem⟩
    · rename_i hmove
      simp only [not_or] at hmove
      obtain ⟨hval, hocc⟩ := hmove
      rw [not_not] at hval
      rw [Bool.not_eq_true] at hocc
      split at h
      · obtain rfl := Option.some.inj h
        exact ⟨gwf, hcap, hrwf, hsp, hsle, fun hq => by simp at hq, hev, hnd, hadj, hmem⟩
      · rename_i htl
        have hslt : g.snake.size < g.grid.size := hplt hst
        have hcapb : g.snake.size + 1 < g.snake.capacity := by
          unfold RingBuffer.capacity
          omega
        have hsz2 : (g.snake.push_front (g.snake.front.add dir)).size = g.snake.size + 1 :=
          g.snake.push_front_size _ hrwf hcapb
        have hlist2 : (g.snake.push_front (g.snake.front.add dir)).toList
            = (g.snake.front.add dir) :: g.snake.toList :=
          g.snake.push_front_toList _ hrwf hcapb
        have hwf2 := g.snake.push_front_wf (g.snake.front.add dir) hrwf
        have hcap2 : (g.snake.push_front (g.snake.front.add dir)).data.length
            = g.grid.size + 1 := by
          simp only [RingBuffer.push_front, List.length_set]
          exact hcap
        have hnmem : (g.snake.front.add dir) ∉ g.snake.toList := by
          intro hq
          have := (hmem _ hval).mpr hq
          rw [hocc] at this
          exact absurd this (by simp)
        have hnd2 : ((g.snake.front.add dir) :: g.snake.toList).Nodup :=
          List.nodup_cons.mpr ⟨hnmem, hnd⟩
        have hhead : g.snake.toList.head? = some g.snake.front :=
          g.snake.head?_toList hrwf hsp
        have hadj2 : ((g.snake.front.add dir) :: g.snake.toList).Chain'
            (fun p q => is_neighbor p q = true) := by
          rw [List.chain'_cons']
          refine ⟨?_, hadj⟩
          intro y hy
          rw [hhead] at hy
          obtain rfl := Option.some.inj hy
          exact is_neighbor_add _ _
        have hev2 : ∀ c ∈ (g.snake.front.add dir) :: g.snake.toList,
            g.grid.validC c = true := by
          intro c hc
          rcases List.mem_cons.mp hc with rfl | hc
          · exact hval
          · exact hev c hc
        have hwfg2 : (g.grid.set (g.snake.front.add dir) true).Wf := Grid.set_wf gwf _ _
        have hg2size : (g.grid.set (g.snake.front.add dir) true).size = g.grid.size :=
          Grid.set_size _ _ _
        have hmem2 : ∀ c : Coord, g.grid.validC c = true →
            ((g.grid.set (g.snake.front.add dir) true).get c = true ↔
              c ∈ (g.snake.front.add dir) :: g.snake.toList) := by
          intro c hc
          by_cases hceq : c = g.snake.front.add dir
          · subst hceq
            rw [Grid.get_set_same gwf hval]
            simp
          · rw [Grid.get_set_ne _ hceq, hmem c hc]
            simp [List.mem_cons, hceq]
        split at h
        · -- eat branch
          split at h
          · rename_i hwin
            obtain rfl := Option.some.inj h
            refine ⟨hwfg2, ?_, hwf2, ?_, ?_, fun hq => by simp at hq, ?_, ?_, ?_, ?_⟩
            · show (g.snake.push_front (g.snake.front.add dir)).data.length
                = (g.grid.set (g.snake.front.add dir) true).size + 1
              rw [hg2size]
              exact hcap2
            · show 0 < (g.snake.push_front (g.snake.front.add dir)).size
              omega
            · show (g.snake.push_front (g.snake.front.add dir)).size
                ≤ (g.grid.set (g.snake.front.add dir) true).size
              rw [hg2size]
              omega
            · intro c hc
              rw [hlist2] at hc
              rw [Grid.set_validC]
              exact hev2 c hc
            · rw [show ((g.snake.push_front (g.snake.front.add dir)).toList : List Coord)
                = _ from hlist2]
              exact hnd2
            · rw [show ((g.snake.push_front (g.snake.front.add dir)).toList : List Coord)
                = _ from hlist2]
              exact hadj2
            · intro c hc
              rw [Grid.set_validC] at hc
              rw [show ((g.snake.push_front (g.snake.front.add dir)).toList : List Coord)
                = _ from hlist2]
              exact hmem2 c hc
          · rename_i hwin
            split at h
            · exact absurd h (by simp)
            · rename_i apple happle
              obtain rfl := Option.some.inj h
              rw [hsz2] at hwin
              refine ⟨hwfg2, ?_, hwf2, ?_, ?_, ?_, ?_, ?_, ?_, ?_⟩
              · show (g.snake.push_front (g.snake.front.add dir)).data.length
                  = (g.grid.set (g.snake.front.add dir) true).size + 1
                rw [hg2size]
                exact hcap2
              · show 0 < (g.snake.push_front (g.snake.front.add dir)).size
                omega
              · show (g.snake.push_front (g.snake.front.add dir)).size
                  ≤ (g.grid.set (g.snake.front.add dir) true).size
                rw [hg2size, hsz2]
                omega
              · intro _
                show (g.snake.push_front (g.snake.front.add dir)).size
                  < (g.grid.set (g.snake.front.add dir) true).size
                rw [hg2size, hsz2]
                omega
              · intro c hc
                rw [hlist2] at hc
                rw [Grid.set_validC]
                exact hev2 c hc
              · rw [show ((g.snake.push_front (g.snake.front.add dir)).toList : List Coord)
                  = _ from hlist2]
                exact hnd2
              · rw [show ((g.snake.push_front (g.snake.front.add dir)).toList : List Coord)
                  = _ from hlist2]
                exact hadj2
              · intro c hc
                rw [Grid.set_validC] at hc
                rw [show ((g.snake.push_front (g.snake.front.add dir)).toList : List Coord)
                  = _ from hlist2]
                exact hmem2 c hc
        · -- ordinary move: drop the tail
          rename_i heat
          obtain rfl := Option.some.inj h
          have hne2 : ((g.snake.front.add dir) :: g.snake.toList) ≠ [] := by simp
          have hlast : ((g.snake.front.add dir) :: g.snake.toList).getLast? =
              some (g.snake.push_front (g.snake.front.add dir)).back := by
            rw [← hlist2]
            exact (g.snake.push_front (g.snake.front.add dir)).getLast?_toList hwf2 (by omega)
          have hlast2 : (g.snake.push_front (g.snake.front.add dir)).back
              = ((g.snake.front.add dir) :: g.snake.toList).getLast hne2 := by
            rw [List.getLast?_eq_getLast _ hne2] at hlast
            exact (Option.some.inj hlast).symm
          have hdecomp : ((g.snake.front.add dir) :: g.snake.toList).dropLast ++
              [((g.snake.front.add dir) :: g.snake.toList).getLast hne2]
              = (g.snake.front.add dir) :: g.snake.toList :=
            List.dropLast_append_getLast hne2
          have hlist3 : (g.snake.push_front (g.snake.front.add dir)).pop_back.toList
              = ((g.snake.front.add dir) :: g.snake.toList).dropLast := by
            rw [(g.snake.push_front (g.snake.front.add dir)).pop_back_toList hwf2 (by omega),
              hlist2]
          have hsz3 : (g.snake.push_front (g.snake.front.add dir)).pop_back.size
              = g.snake.size := by
            rw [(g.snake.push_front (g.snake.front.add dir)).pop_back_size hwf2 (by omega),
              hsz2]
            omega
          have hsnne : g.snake.toList ≠ [] := by
            intro hq
            have := g.snake.length_toList
            rw [hq] at this
            simp only [List.length_nil] at this
            omega
          have hlstsn : ((g.snake.front.add dir) :: g.snake.toList).getLast hne2
              ∈ g.snake.toList := by
            rw [List.getLast_cons hsnne]
            exact List.getLast_mem hsnne
          have hnelast : (g.snake.front.add dir)
              ≠ ((g.snake.front.add dir) :: g.snake.toList).getLast hne2 := by
            intro hq
            rw [← hq] at hlstsn
            exact hnmem hlstsn
          have hlstval : g.grid.validC
              (((g.snake.front.add dir) :: g.snake.toList).getLast hne2) = true :=
            hev2 _ (List.mem_cons_of_mem _ hlstsn)
          have hnd3 : ((g.snake.front.add dir) :: g.snake.toList).dropLast.Nodup :=
            (List.dropLast_sublist _).nodup hnd2
          have hadj3 : ((g.snake.front.add dir) :: g.snake.toList).dropLast.Chain'
              (fun p q => is_neighbor p q = true) := by
            have h9 := hadj2
            rw [← hdecomp, List.chain'_append] at h9
            exact h9.1
          have hlstnotmem : ((g.snake.front.add dir) :: g.snake.toList).getLast hne2
              ∉ ((g.snake.front.add dir) :: g.snake.toList).dropLast := by
            intro hq
            have hnodup : (((g.snake.front.add dir) :: g.snake.toList).dropLast ++
                [((g.snake.front.add dir) :: g.snake.toList).getLast hne2]).Nodup := by
              rw [hdecomp]
              exact hnd2
            rcases List.nodup_append.mp hnodup with ⟨-, -, hdisj⟩
            exact hdisj hq (List.mem_singleton_self _)
          have hmemdrop : ∀ c : Coord,
              c ≠ ((g.snake.front.add dir) :: g.snake.toList).getLast hne2 →
              (c ∈ ((g.snake.front.add dir) :: g.snake.toList).dropLast ↔
                c ∈ (g.snake.front.add dir) :: g.snake.toList) := by
            intro c hcne
            constructor
            · intro hc
              rw [← hdecomp]
              exact List.mem_append.mpr (Or.inl hc)
            · intro hc
              rw [← hdecomp] at hc
              rcases List.mem_append.mp hc with hc | hc
              · exact hc
              · obtain rfl := List.mem_singleton.mp hc
                exact absurd rfl hcne
          have hvalC3 : ∀ c : Coord,
              ((g.grid.set (g.snake.front.add dir) true).set
                ((g.snake.push_front (g.snake.front.add dir)).back) false).validC c
              = g.grid.validC c := by
            intro c
            rw [Grid.set_validC, Grid.set_validC]
          have hmem3 : ∀ c : Coord, g.grid.validC c = true →
              (((g.grid.set (g.snake.front.add dir) true).set
                  ((g.snake.push_front (g.snake.front.add dir)).back) false).get c = true ↔
                c ∈ ((g.snake.front.add dir) :: g.snake.toList).dropLast) := by
            intro c hc
            by_cases hceq : c = (g.snake.push_front (g.snake.front.add dir)).back
            · subst hceq
              rw [hlast2] at *
              rw [Grid.get_set_same hwfg2 (by rw [Grid.set_validC]; exact hlstval)]
              simp only [Bool.false_eq_true, false_iff]
              exact hlstnotmem
            · rw [Grid.get_set_ne _ hceq, hmem2 c hc]
              rw [hlast2] at hceq
              exact (hmemdrop c hceq).symm
          refine ⟨Grid.set_wf hwfg2 _ _, ?_, ?_, ?_, ?_, ?_, ?_, ?_, ?_, ?_⟩
          · show ((g.snake.push_front (g.snake.front.add dir)).pop_back).data.length = _
            simp only [RingBuffer.pop_back] at hcap2 ⊢
            rw [Grid.set_size, hg2size]
            exact hcap2
          · exact (g.snake.push_front (g.snake.front.add dir)).pop_back_wf hwf2
          · show 0 < ((g.snake.push_front (g.snake.front.add dir)).pop_back).size
            omega
          · show ((g.snake.push_front (g.snake.front.add dir)).pop_back).size
              ≤ ((g.grid.set (g.snake.front.add dir) true).set
                ((g.snake.push_front (g.snake.front.add dir)).back) false).size
            rw [Grid.set_size, hg2size, hsz3]
            omega
          · intro _
            show ((g.snake.push_front (g.snake.front.add dir)).pop_back).size
              < ((g.grid.set (g.snake.front.add dir) true).set
                ((g.snake.push_front (g.snake.front.add dir)).back) false).size
            rw [Grid.set_size, hg2size, hsz3]
            omega
          · intro c hc
            rw [hlist3] at hc
            rw [hvalC3]
            exact hev2 c ((List.dropLast_sublist _).subset hc)
          · rw [show (((g.snake.push_front (g.snake.front.add dir)).pop_back).toList
              : List Coord) = _ from hlist3]
            exact hnd3
          · rw [show (((g.snake.push_front (g.snake.front.add dir)).pop_back).toList
              : List Coord) = _ from hlist3]
            exact hadj3
          · intro c hc
            rw [hvalC3] at hc
            rw [show (((g.snake.push_front (g.snake.front.add dir)).pop_back).toList
              : List Coord) = _ from hlist3]
            exact hmem3 c hc

/-- A concrete freshly constructed 2x2 game (the all-zeros RNG stream). -/
def c10Game : Game :=
  { grid := ⟨2, 2, [true, false, false, false]⟩,
    snake := ⟨[⟨0, 0⟩, ⟨0, 0⟩, ⟨0, 0⟩, ⟨0, 0⟩, ⟨0, 0⟩], 4, 0⟩,
    apple_pos := ⟨1, 0⟩,
    turn := 0, state := .playing, rng := ⟨rng0.seq, 3⟩ }

/-- C10: in every game state reachable from a freshly constructed `Game` by
any sequence of `Game::move` calls, the snake's entries are pairwise
distinct, consecutive entries are 4-adjacent, the ring buffer's capacity is
`grid.size() + 1` and the snake's length never exceeds `grid.size()`, and the
occupancy grid holds `true` exactly at the coordinates of the snake. -/
theorem c10_game_invariants (g : Game) (h : Reachable g) :
    g.snake.toList.Nodup ∧
    g.snake.toList.Chain' (fun p q => is_neighbor p q = true) ∧
    g.snake.capacity = g.grid.size + 1 ∧
    g.snake.size ≤ g.grid.size ∧
    (∀ c : Coord, g.grid.validC c = true →
      (g.grid.get c = true ↔ c ∈ g.snake.toList)) := by
  have inv : GameInv g := by
    induction h with
    | base dims rng g hmk => exact gameInv_init hmk
    | step g dir p _ hmv ih => exact gameInv_move ih hmv
  exact ⟨inv.nodup, inv.adj, inv.cap_eq, inv.size_le, inv.mem_iff⟩

/-- Witness for C10 on the concrete 2x2 game fresh from the constructor. -/
theorem c10_game_invariants_witness :
    c10Game.snake.toList.Nodup ∧
    c10Game.snake.toList.Chain' (fun p q => is_neighbor p q = true) ∧
    c10Game.snake.capacity = c10Game.grid.size + 1 ∧
    c10Game.snake.size ≤ c10Game.grid.size ∧
    (∀ c : Coord, c10Game.grid.validC c = true →
      (c10Game.grid.get c = true ↔ c ∈ c10Game.snake.toList)) :=
  c10_game_invariants c10Game (Reachable.base ⟨2, 2⟩ rng0 c10Game (by rfl))

/-! ## Path reconstruction on unreachable targets (C6) -/

theorem Grid.get_of_invalid {T : Type} [Inhabited T] {g : Grid T} {a : Coord}
    (h : ¬(g.validC a = true)) : g.get a = default := by
  simp [Grid.get, h]

theorem Grid.set_of_invalid {T : Type} {g : Grid T} {a : Coord} (v : T)
    (h : ¬(g.validC a = true)) : g.set a v = g := by
  simp [Grid.set, h]

/-- The structural invariant of the BFS output grid: dimensions match, and
every cell is either genuinely relaxed (finite distance) or still the initial
`{INT_MAX, NOT_VISITED}`. -/
structure BfsInv (dims : CoordRange) (out : Grid Step) : Prop where
  wf : out.Wf
  w_eq : out.w = dims.w
  h_eq : out.h = dims.h
  cells : ∀ c : Coord, (out.get c).dist < INT_MAX ∨ out.get c = ⟨INT_MAX, NOT_VISITED⟩

/-- Invariant transported through exceptional BFS results. -/
def exInv (dims : CoordRange) : Except (Grid Step) (Grid Step × List Coord) → Prop
  | .error o => BfsInv dims o
  | .ok st => BfsInv dims st.1

theorem Grid.validC_eq_of_dims {T U : Type} {g : Grid T} {g' : Grid U}
    (hw : g.w = g'.w) (hh : g.h = g'.h) (a : Coord) : g.validC a = g'.validC a := by
  simp only [Grid.validC, Grid.coords, CoordRange.valid, hw, hh]

theorem bfsInv_set {dims : CoordRange} {out : Grid Step} (inv : BfsInv dims out)
    {b : Coord} {s : Step} (hdist : s.dist < INT_MAX) :
    BfsInv dims (out.set b s) := by
  refine ⟨Grid.set_wf inv.wf _ _, by rw [Grid.set_w]; exact inv.w_eq,
    by rw [Grid.set_h]; exact inv.h_eq, ?_⟩
  intro c
  by_cases hb : out.validC b = true
  · by_cases hc : c = b
    · subst hc
      rw [Grid.get_set_same inv.wf hb]
      exact Or.inl hdist
    · rw [Grid.get_set_ne _ hc]
      exact inv.cells c
  · rw [Grid.set_of_invalid _ hb]
    exact inv.cells c

theorem bfsStepPair_inv {dims : CoordRange} {can_move : CanMove} {tgt : Coord}
    {dist : Int} {st : Grid Step × List Coord} {a : Coord} {d : Dir}
    (inv : BfsInv dims st.1) :
    exInv dims (bfsStepPair dims can_move tgt dist st a d) := by
  simp only [bfsStepPair]
  split
  · rename_i hcond
    simp only [Bool.and_eq_true, decide_eq_true_eq] at hcond
    obtain ⟨⟨hvb, hcm⟩, hgt⟩ := hcond
    have hdist : dist < INT_MAX := by
      rcases inv.cells (a.add d) with h1 | h1
      · omega
      · rw [h1] at hgt
        simp only at hgt
        omega
    have hinv1 := bfsInv_set inv (b := a.add d) (s := ⟨dist, a⟩) hdist
    split
    · exact hinv1
    · exact hinv1
  · exact inv

theorem exfoldlM_inv {dims : CoordRange} {α : Type}
    {f : (Grid Step × List Coord) → α → Except (Grid Step) (Grid Step × List Coord)}
    (hf : ∀ st a, BfsInv dims st.1 → exInv dims (f st a)) :
    ∀ (l : List α) (st : Grid Step × List Coord), BfsInv dims st.1 →
      exInv dims (l.foldlM f st) := by
  intro l
  induction l with
  | nil => intro st hst; simpa [List.foldlM] using hst
  | cons a tl ih =>
    intro st hst
    rw [List.foldlM_cons]
    have h1 := hf st a hst
    cases hfa : f st a with
    | error o =>
      rw [hfa] at h1
      exact h1
    | ok st1 =>
      rw [hfa] at h1
      exact ih st1 h1

theorem bfsLevel_inv {dims : CoordRange} {can_move : CanMove} {tgt : Coord}
    {dist : Int} {out : Grid Step} {queue : List Coord} (inv : BfsInv dims out) :
    exInv dims (bfsLevel dims can_move tgt dist out queue) := by
  unfold bfsLevel
  refine exfoldlM_inv ?_ queue (out, []) inv
  intro st a hst
  exact exfoldlM_inv (fun st d hst => bfsStepPair_inv hst) dirs st hst

theorem bfsLevels_inv {dims : CoordRange} {can_move : CanMove} {tgt : Coord} :
    ∀ (fuel : Nat) (dist : Int) (out : Grid Step) (queue : List Coord),
      BfsInv dims out → BfsInv dims (bfsLevels dims can_move tgt fuel dist out queue) := by
  intro fuel
  induction fuel with
  | zero => intro dist out queue inv; exact inv
  | succ n ih =>
    intro dist out queue inv
    unfold bfsLevels
    split
    · exact inv
    · have h1 := @bfsLevel_inv dims can_move tgt (dist + 1) out queue inv
      split
      · rename_i outE hE
        rw [hE] at h1
        exact h1
      · rename_i st1 hE
        rw [hE] at h1
        exact ih _ _ _ h1

theorem generic_shortest_path_inv (dims : CoordRange) (can_move : CanMove)
    (frm tgt : Coord) : BfsInv dims (generic_shortest_path dims can_move frm tgt) := by
  unfold generic_shortest_path
  refine bfsLevels_inv _ _ _ _ ?_
  have hbase : BfsInv dims (Grid.mk' dims (⟨INT_MAX, NOT_VISITED⟩ : Step)) := by
    refine ⟨Grid.mk'_wf _ _, rfl, rfl, ?_⟩
    intro c
    by_cases hc : (Grid.mk' dims (⟨INT_MAX, NOT_VISITED⟩ : Step)).validC c = true
    · rw [Grid.mk'_get _ _ hc]
      exact Or.inr rfl
    · rw [Grid.get_of_invalid hc]
      exact Or.inr rfl
  exact bfsInv_set hbase (by norm_num [INT_MAX])

/-- C6 counterexample: on a 2x2 grid where no move is allowed, the target
`(1,0)` is unreachable from `(0,0)`, yet `read_path` does not return the
empty list: it pushes the target, then walks to its `NOT_VISITED`
predecessor and pushes that too before breaking. -/
theorem c6_counterexample :
    ((generic_shortest_path ⟨2, 2⟩ (fun _ _ _ => false) ⟨0, 0⟩ ⟨-1, -1⟩).get
      ⟨1, 0⟩).reachable = false ∧
    read_path (generic_shortest_path ⟨2, 2⟩ (fun _ _ _ => false) ⟨0, 0⟩ ⟨-1, -1⟩)
      ⟨0, 0⟩ ⟨1, 0⟩ = some [⟨1, 0⟩, NOT_VISITED] ∧
    read_path (generic_shortest_path ⟨2, 2⟩ (fun _ _ _ => false) ⟨0, 0⟩ ⟨-1, -1⟩)
      ⟨0, 0⟩ ⟨1, 0⟩ ≠ some [] := by
  refine ⟨by decide, by decide, by decide⟩

/-- Helper for the unreachable half of C6: for any BFS output of
`generic_shortest_path` and an in-bounds target that is unreachable (and
distinct from the valid source), `read_path` returns the two-element list
`[to, NOT_VISITED]`, never the empty list. -/
theorem readPath_unreachable (dims : CoordRange) (can_move : CanMove) (frm tgt0 tgt : Coord)
    (hval : (generic_shortest_path dims can_move frm tgt0).validC tgt = true)
    (hfrm : frm ≠ NOT_VISITED) (hne : tgt ≠ frm)
    (hunreach : ((generic_shortest_path dims can_move frm tgt0).get tgt).reachable
      = false) :
    read_path (generic_shortest_path dims can_move frm tgt0) frm tgt
      = some [tgt, NOT_VISITED] := by
  have inv := generic_shortest_path_inv dims can_move frm tgt0
  have hcell : (generic_shortest_path dims can_move frm tgt0).get tgt
      = ⟨INT_MAX, NOT_VISITED⟩ := by
    rcases inv.cells tgt with h1 | h1
    · exfalso
      simp only [Step.reachable, decide_eq_false_iff_not, not_lt] at hunreach
      omega
    · exact h1
  obtain ⟨hx0, hxw, hy0, hyh⟩ := Grid.validC_iff.mp hval
  have htgtNR : tgt ≠ ROOT := by
    intro hq
    rw [hq] at hx0
    simp [ROOT] at hx0
  have htgtNV : tgt ≠ NOT_VISITED := by
    intro hq
    rw [hq] at hx0
    simp [NOT_VISITED] at hx0
  have hNVr : NOT_VISITED ≠ ROOT := by decide
  show readPathLoop _ frm tgt []
    ((generic_shortest_path dims can_move frm tgt0).size + 2) = _
  rw [show (generic_shortest_path dims can_move frm tgt0).size + 2
    = ((generic_shortest_path dims can_move frm tgt0).size + 1) + 1 from rfl]
  rw [readPathLoop]
  rw [if_pos ⟨htgtNR, hne⟩, if_neg htgtNV, hcell]
  show readPathLoop _ frm NOT_VISITED [tgt]
    ((generic_shortest_path dims can_move frm tgt0).size + 1) = _
  rw [show (generic_shortest_path dims can_move frm tgt0).size + 1
    = (generic_shortest_path dims can_move frm tgt0).size + 1 from rfl]
  rw [readPathLoop]
  rw [if_pos ⟨hNVr, fun hq => hfrm hq.symm⟩, if_pos rfl]
  rfl

theorem Grid.validC_dims {T : Type} {g : Grid T} {dims : CoordRange}
    (hw : g.w = dims.w) (hh : g.h = dims.h) (a : Coord) :
    g.validC a = dims.valid a := by
  obtain ⟨w, h⟩ := dims
  simp only [Grid.validC, Grid.coords, hw, hh]

/-! ## A* with uniformly scaled costs (C8) -/

/-- Scale a BFS cell by `k`, keeping the `INT_MAX` "unreached" sentinel. -/
def scaleStep (k : Int) (s : Step) : Step :=
  ⟨if s.dist = INT_MAX then INT_MAX else k * s.dist, s.frm⟩

/-- Scale every cell of an A* output grid. -/
def scaleGrid (k : Int) (g : Grid Step) : Grid Step :=
  ⟨g.w, g.h, g.data.map (scaleStep k)⟩

/-- Scale a queue item's priority. -/
def scaleItem (k : Int) (it : AItem) : AItem := ⟨it.c, k * it.dist⟩

theorem scaleStep_default (k : Int) : scaleStep k default = default := by
  simp [scaleStep, default]

theorem scaleGrid_validC (k : Int) (g : Grid Step) (c : Coord) :
    (scaleGrid k g).validC c = g.validC c := rfl

theorem scaleGrid_get (k : Int) (g : Grid Step) (c : Coord) :
    (scaleGrid k g).get c = scaleStep k (g.get c) := by
  unfold Grid.get
  rw [scaleGrid_validC]
  by_cases hc : g.validC c = true
  · rw [if_pos hc, if_pos hc]
    show (g.data.map (scaleStep k)).getD (Grid.idx ⟨g.w, g.h, g.data.map (scaleStep k)⟩ c)
      default = _
    have hidx : Grid.idx ⟨g.w, g.h, g.data.map (scaleStep k)⟩ c = g.idx c := rfl
    rw [hidx, List.getD_eq_getElem?_getD, List.getD_eq_getElem?_getD, List.getElem?_map]
    cases hget : g.data[g.idx c]? with
    | none => simp [scaleStep_default]
    | some s => simp
  · rw [if_neg hc, if_neg hc, scaleStep_default]

theorem scaleGrid_set (k : Int) (g : Grid Step) (c : Coord) (s : Step) :
    scaleGrid k (g.set c s) = (scaleGrid k g).set c (scaleStep k s) := by
  unfold Grid.set
  rw [scaleGrid_validC]
  by_cases hc : g.validC c = true
  · rw [if_pos hc, if_pos hc]
    show (⟨g.w, g.h, (g.data.set (g.idx c) s).map (scaleStep k)⟩ : Grid Step) = _
    rw [List.map_set]
    rfl
  · rw [if_neg hc, if_neg hc]

/-- `popMin` commutes with positively scaling every priority. -/
theorem popMin_map (k : Int) (hk : 0 < k) :
    ∀ q : List AItem, popMin (q.map (scaleItem k)) =
      (popMin q).map (fun p => (scaleItem k p.1, p.2.map (scaleItem k))) := by
  intro q
  induction q with
  | nil => rfl
  | cons x xs ih =>
    rw [List.map_cons]
    unfold popMin
    rw [ih]
    cases hp : popMin xs with
    | none => rfl
    | some p =>
      simp only [Option.map_some']
      have hcmp : ((scaleItem k x).dist ≤ (scaleItem k p.1).dist) = (x.dist ≤ p.1.dist) := by
        simp only [scaleItem]
        rw [eq_iff_iff]
        exact mul_le_mul_left hk
      by_cases hle : x.dist ≤ p.1.dist
      · rw [if_pos (by rw [hcmp]; exact hle), if_pos hle]
        rfl
      · rw [if_neg (fun hq => hle (by rwa [hcmp] at hq)), if_neg hle]
        rfl

/-- Every element handed back by `popMin` comes from the queue. -/
theorem popMin_subset :
    ∀ (q : List AItem) (it : AItem) (rest : List AItem),
      popMin q = some (it, rest) → it ∈ q ∧ ∀ x ∈ rest, x ∈ q := by
  intro q
  induction q with
  | nil => intro it rest h; simp [popMin] at h
  | cons x xs ih =>
    intro it rest h
    cases hp : popMin xs with
    | none =>
      have hcomp : popMin (x :: xs) = some (x, []) := by
        unfold popMin
        rw [hp]
      rw [hcomp] at h
      obtain ⟨rfl, rfl⟩ := Prod.mk.inj (Option.some.inj h)
      exact ⟨List.mem_cons_self _ _, by simp⟩
    | some p =>
      obtain ⟨m, r⟩ := p
      obtain ⟨hm, hsub⟩ := ih m r hp
      have hcomp : popMin (x :: xs)
          = if x.dist ≤ m.dist then some (x, xs) else some (m, x :: r) := by
        unfold popMin
        rw [hp]
      rw [hcomp] at h
      split at h
      · obtain ⟨rfl, rfl⟩ := Prod.mk.inj (Option.some.inj h)
        exact ⟨List.mem_cons_self _ _, fun y hy => List.mem_cons_of_mem _ hy⟩
      · obtain ⟨rfl, rfl⟩ := Prod.mk.inj (Option.some.inj h)
        refine ⟨List.mem_cons_of_mem _ hm, ?_⟩
        intro y hy
        rcases List.mem_cons.mp hy with rfl | hy
        · exact List.mem_cons_self _ _
        · exact List.mem_cons_of_mem _ (hsub y hy)

/-- A coordinate never equals its own neighbor. -/
theorem coord_add_ne (a : Coord) (d : Dir) : a.add d ≠ a := by
  cases a
  cases d <;> simp [Coord.add] <;> omega

/-- The invariant carried through the A* simulation: well-formed grid of the
right dimensions, all finite distances in `[0, n]`, all queued priorities in
`[0, 306]` with their cells already relaxed. -/
structure AInv (dims : CoordRange) (n : Int) (out : Grid Step) (q : List AItem) : Prop where
  wf : out.Wf
  w_eq : out.w = dims.w
  h_eq : out.h = dims.h
  cells : ∀ e : Coord, (out.get e).dist = INT_MAX ∨
    (0 ≤ (out.get e).dist ∧ (out.get e).dist ≤ n)
  items : ∀ it ∈ q, 0 ≤ it.dist ∧ it.dist ≤ 306 ∧ (out.get it.c).dist ≠ INT_MAX

theorem AInv.mono {dims : CoordRange} {n n' : Int} {out : Grid Step} {q : List AItem}
    (inv : AInv dims n out q) (hnn : n ≤ n') : AInv dims n' out q := by
  refine ⟨inv.wf, inv.w_eq, inv.h_eq, ?_, inv.items⟩
  intro e
  rcases inv.cells e with h | ⟨h1, h2⟩
  · exact Or.inl h
  · exact Or.inr ⟨h1, le_trans h2 hnn⟩

/-- One A* relaxation step commutes with scaling all costs by `k > 0`,
and preserves the simulation invariant on the unscaled run. -/
theorem astarRelax_scale (k : Int) (hk0 : 0 < k) (hkB : 1000 * k ≤ INT_MAX)
    (dims : CoordRange) (m : Coord → Int)
    (hm0 : ∀ a, 0 ≤ m a) (hm6 : ∀ a, dims.valid a = true → m a ≤ 6)
    (c : Coord) (n : Int) (hn : n ≤ 300)
    (out1 : Grid Step) (q1 : List AItem) (d : Dir)
    (hc : 0 ≤ (out1.get c).dist ∧ (out1.get c).dist + 1 ≤ n)
    (inv : AInv dims n out1 q1) :
    (astarRelax dims (fun _ _ _ => k) (fun a => k * m a) c
        (scaleGrid k out1, q1.map (scaleItem k)) d
      = (scaleGrid k (astarRelax dims (fun _ _ _ => (1 : Int)) (fun a => 1 * m a) c
            (out1, q1) d).1,
         (astarRelax dims (fun _ _ _ => (1 : Int)) (fun a => 1 * m a) c
            (out1, q1) d).2.map (scaleItem k)))
    ∧ AInv dims n (astarRelax dims (fun _ _ _ => (1 : Int)) (fun a => 1 * m a) c
        (out1, q1) d).1
        (astarRelax dims (fun _ _ _ => (1 : Int)) (fun a => 1 * m a) c (out1, q1) d).2
    ∧ ((astarRelax dims (fun _ _ _ => (1 : Int)) (fun a => 1 * m a) c
        (out1, q1) d).1.get c).dist = (out1.get c).dist := by
  have hkB' : 1000 * k ≤ 2147483647 := hkB
  by_cases hvb : dims.valid (c.add d) = true
  · have hdcIM : (out1.get c).dist ≠ INT_MAX := by
      show (out1.get c).dist ≠ (2147483647 : Int)
      omega
    have hkIM : k ≠ INT_MAX := by
      show k ≠ (2147483647 : Int)
      omega
    have h1IM : (1 : Int) ≠ INT_MAX := by decide
    have hgetk : (scaleGrid k out1).get c = ⟨k * (out1.get c).dist, (out1.get c).frm⟩ := by
      rw [scaleGrid_get]
      simp only [scaleStep, if_neg hdcIM]
    have hvalC : out1.validC (c.add d) = true := by
      rw [Grid.validC_dims inv.w_eq inv.h_eq]
      exact hvb
    by_cases hrel : (out1.get c).dist + 1 < (out1.get (c.add d)).dist
    · -- both runs relax
      have hrelk : k * (out1.get c).dist + k < ((scaleGrid k out1).get (c.add d)).dist := by
        rw [scaleGrid_get]
        simp only [scaleStep]
        rcases inv.cells (c.add d) with hb | ⟨hb0, hbn⟩
        · rw [if_pos hb]
          have h300 : k * ((out1.get c).dist + 1) ≤ 300 * k := by nlinarith
          have hsum : k * (out1.get c).dist + k = k * ((out1.get c).dist + 1) := by ring
          show k * (out1.get c).dist + k < (2147483647 : Int)
          rw [hsum]
          linarith
        · have hbIM : (out1.get (c.add d)).dist ≠ INT_MAX := by
            show (out1.get (c.add d)).dist ≠ (2147483647 : Int)
            omega
          rw [if_neg hbIM]
          have hlt := (mul_lt_mul_left hk0).mpr hrel
          have hsum : k * (out1.get c).dist + k = k * ((out1.get c).dist + 1) := by ring
          rw [hsum]
          exact hlt
      have h1run : astarRelax dims (fun _ _ _ => (1 : Int)) (fun a => 1 * m a) c
          (out1, q1) d
          = (out1.set (c.add d) ⟨(out1.get c).dist + 1, c⟩,
             q1 ++ [⟨c.add d, ((out1.get c).dist + 1) + 1 * m (c.add d)⟩]) := by
        simp only [astarRelax, hvb, Bool.not_true, if_neg, if_pos, mul_one]
        rw [if_neg (by simp), if_neg h1IM, if_pos (by simpa using hrel)]
      have hkrun : astarRelax dims (fun _ _ _ => k) (fun a => k * m a) c
          (scaleGrid k out1, q1.map (scaleItem k)) d
          = ((scaleGrid k out1).set (c.add d) ⟨k * (out1.get c).dist + k, c⟩,
             q1.map (scaleItem k)
               ++ [⟨c.add d, (k * (out1.get c).dist + k) + k * m (c.add d)⟩]) := by
        simp only [astarRelax, hvb, Bool.not_true]
        rw [if_neg (by simp), if_neg hkIM, hgetk]
        rw [if_pos (by simpa using hrelk)]
      rw [h1run, hkrun]
      have hsetk : (scaleGrid k out1).set (c.add d) ⟨k * (out1.get c).dist + k, c⟩
          = scaleGrid k (out1.set (c.add d) ⟨(out1.get c).dist + 1, c⟩) := by
        rw [scaleGrid_set]
        have hdc1IM : ¬((out1.get c).dist + 1 = INT_MAX) := by
          show ¬((out1.get c).dist + 1 = (2147483647 : Int))
          omega
        have hstep : scaleStep k ⟨(out1.get c).dist + 1, c⟩
            = ⟨k * (out1.get c).dist + k, c⟩ := by
          simp only [scaleStep]
          rw [if_neg hdc1IM]
          rw [show k * ((out1.get c).dist + 1) = k * (out1.get c).dist + k from by ring]
        rw [hstep]
      have hqk : q1.map (scaleItem k)
            ++ [(⟨c.add d, (k * (out1.get c).dist + k) + k * m (c.add d)⟩ : AItem)]
          = (q1 ++ [(⟨c.add d, ((out1.get c).dist + 1) + 1 * m (c.add d)⟩ : AItem)]).map
              (scaleItem k) := by
        rw [List.map_append]
        congr 1
        simp only [List.map_cons, List.map_nil, scaleItem]
        rw [show k * (((out1.get c).dist + 1) + 1 * m (c.add d))
          = (k * (out1.get c).dist + k) + k * m (c.add d) from by ring]
      refine ⟨by rw [hsetk, hqk], ?_, ?_⟩
      · refine ⟨Grid.set_wf inv.wf _ _, by rw [Grid.set_w]; exact inv.w_eq,
          by rw [Grid.set_h]; exact inv.h_eq, ?_, ?_⟩
        · intro e
          by_cases he : e = c.add d
          · subst he
            rw [Grid.get_set_same inv.wf hvalC]
            refine Or.inr ⟨?_, ?_⟩
            · show (0 : Int) ≤ (out1.get c).dist + 1
              omega
            · show (out1.get c).dist + 1 ≤ n
              omega
          · rw [Grid.get_set_ne _ he]
            exact inv.cells e
        · intro it hit
          rcases List.mem_append.mp hit with hit | hit
          · obtain ⟨hi0, hi306, hifin⟩ := inv.items it hit
            refine ⟨hi0, hi306, ?_⟩
            by_cases he : it.c = c.add d
            · rw [he, Grid.get_set_same inv.wf hvalC]
              show ((out1.get c).dist + 1) ≠ (2147483647 : Int)
              omega
            · rw [Grid.get_set_ne _ he]
              exact hifin
          · obtain rfl := List.mem_singleton.mp hit
            have hm6b := hm6 _ hvb
            have hm0b := hm0 (c.add d)
            refine ⟨show (0 : Int) ≤ ((out1.get c).dist + 1) + 1 * m (c.add d) by omega,
              show (((out1.get c).dist + 1) + 1 * m (c.add d)) ≤ 306 by omega, ?_⟩
            show ((out1.set (c.add d) ⟨(out1.get c).dist + 1, c⟩).get (c.add d)).dist
              ≠ INT_MAX
            rw [Grid.get_set_same inv.wf hvalC]
            show ((out1.get c).dist + 1) ≠ (2147483647 : Int)
            omega
      · show ((out1.set (c.add d) ⟨(out1.get c).dist + 1, c⟩).get c).dist
          = (out1.get c).dist
        rw [Grid.get_set_ne _ (Ne.symm (coord_add_ne c d))]
    · -- neither run relaxes
      have hrelk : ¬(k * (out1.get c).dist + k < ((scaleGrid k out1).get (c.add d)).dist) := by
        rw [scaleGrid_get]
        simp only [scaleStep]
        rcases inv.cells (c.add d) with hb | ⟨hb0, hbn⟩
        · exfalso
          apply hrel
          rw [hb]
          show (out1.get c).dist + 1 < (2147483647 : Int)
          omega
        · have hbIM : (out1.get (c.add d)).dist ≠ INT_MAX := by
            show (out1.get (c.add d)).dist ≠ (2147483647 : Int)
            omega
          rw [if_neg hbIM]
          intro hq
          apply hrel
          have hlt : k * ((out1.get c).dist + 1) < k * (out1.get (c.add d)).dist := by
            nlinarith
          exact (mul_lt_mul_left hk0).mp hlt
      have h1run : astarRelax dims (fun _ _ _ => (1 : Int)) (fun a => 1 * m a) c
          (out1, q1) d = (out1, q1) := by
        simp only [astarRelax, hvb, Bool.not_true, mul_one]
        rw [if_neg (by simp), if_neg h1IM, if_neg (by simpa using hrel)]
      have hkrun : astarRelax dims (fun _ _ _ => k) (fun a => k * m a) c
          (scaleGrid k out1, q1.map (scaleItem k)) d
          = (scaleGrid k out1, q1.map (scaleItem k)) := by
        simp only [astarRelax, hvb, Bool.not_true]
        rw [if_neg (by simp), if_neg hkIM, hgetk]
        rw [if_neg (by simpa using hrelk)]
      rw [h1run, hkrun]
      exact ⟨rfl, inv, rfl⟩
  · -- neighbor out of range: both runs are the identity
    have hval' : dims.valid (c.add d) = false := by
      rwa [Bool.not_eq_true] at hvb
    have h1run : astarRelax dims (fun _ _ _ => (1 : Int)) (fun a => 1 * m a) c
        (out1, q1) d = (out1, q1) := by
      simp only [astarRelax, hval']
      rfl
    have hkrun : astarRelax dims (fun _ _ _ => k) (fun a => k * m a) c
        (scaleGrid k out1, q1.map (scaleItem k)) d
        = (scaleGrid k out1, q1.map (scaleItem k)) := by
      simp only [astarRelax, hval']
      rfl
    rw [h1run, hkrun]
    exact ⟨rfl, inv, rfl⟩

/-- The whole four-direction expansion commutes with scaling. -/
theorem astarRelaxFold_scale (k : Int) (hk0 : 0 < k) (hkB : 1000 * k ≤ INT_MAX)
    (dims : CoordRange) (m : Coord → Int)
    (hm0 : ∀ a, 0 ≤ m a) (hm6 : ∀ a, dims.valid a = true → m a ≤ 6)
    (c : Coord) (n : Int) (hn : n ≤ 300) :
    ∀ (l : List Dir) (out1 : Grid Step) (q1 : List AItem),
      (0 ≤ (out1.get c).dist ∧ (out1.get c).dist + 1 ≤ n) →
      AInv dims n out1 q1 →
      (l.foldl (astarRelax dims (fun _ _ _ => k) (fun a => k * m a) c)
          (scaleGrid k out1, q1.map (scaleItem k))
        = (scaleGrid k (l.foldl (astarRelax dims (fun _ _ _ => (1 : Int))
              (fun a => 1 * m a) c) (out1, q1)).1,
           (l.foldl (astarRelax dims (fun _ _ _ => (1 : Int)) (fun a => 1 * m a) c)
              (out1, q1)).2.map (scaleItem k)))
      ∧ AInv dims n
          (l.foldl (astarRelax dims (fun _ _ _ => (1 : Int)) (fun a => 1 * m a) c)
            (out1, q1)).1
          (l.foldl (astarRelax dims (fun _ _ _ => (1 : Int)) (fun a => 1 * m a) c)
            (out1, q1)).2
      ∧ ((l.foldl (astarRelax dims (fun _ _ _ => (1 : Int)) (fun a => 1 * m a) c)
          (out1, q1)).1.get c).dist = (out1.get c).dist := by
  intro l
  induction l with
  | nil => intro out1 q1 hc inv; exact ⟨rfl, inv, rfl⟩
  | cons d l ih =>
    intro out1 q1 hc inv
    obtain ⟨heq, hinv1, hsame⟩ :=
      astarRelax_scale k hk0 hkB dims m hm0 hm6 c n hn out1 q1 d hc inv
    rw [List.foldl_cons, List.foldl_cons, heq]
    have hc1 : 0 ≤ ((astarRelax dims (fun _ _ _ => (1 : Int)) (fun a => 1 * m a) c
        (out1, q1) d).1.get c).dist ∧
        ((astarRelax dims (fun _ _ _ => (1 : Int)) (fun a => 1 * m a) c
          (out1, q1) d).1.get c).dist + 1 ≤ n := by
      rw [hsame]
      exact hc
    obtain ⟨ihEq, ihInv, ihSame⟩ := ih _ _ hc1 hinv1
    refine ⟨ihEq, ihInv, ?_⟩
    rw [ihSame, hsame]

/-- The A* main loop commutes with scaling every cost by `k > 0` (with all
distances small enough that no scaled value collides with the `INT_MAX`
sentinel). -/
theorem astarLoop_scale (k : Int) (hk0 : 0 < k) (hkB : 1000 * k ≤ INT_MAX)
    (dims : CoordRange) (m : Coord → Int)
    (hm0 : ∀ a, 0 ≤ m a) (hm6 : ∀ a, dims.valid a = true → m a ≤ 6) (tgt : Coord) :
    ∀ (fuel : Nat), fuel ≤ 300 →
    ∀ (out1 : Grid Step) (q1 : List AItem),
      AInv dims (300 - (fuel : Int)) out1 q1 →
      astarLoop dims (fun _ _ _ => k) (fun a => k * m a) tgt fuel
          (scaleGrid k out1) (q1.map (scaleItem k))
        = scaleGrid k (astarLoop dims (fun _ _ _ => (1 : Int)) (fun a => 1 * m a)
            tgt fuel out1 q1) := by
  intro fuel
  induction fuel with
  | zero => intro _ out1 q1 _; rfl
  | succ f ih =>
    intro hfle out1 q1 inv
    have hpopk := popMin_map k hk0 q1
    cases hpop : popMin q1 with
    | none =>
      rw [hpop] at hpopk
      simp only [Option.map_none'] at hpopk
      have hL : astarLoop dims (fun _ _ _ => k) (fun a => k * m a) tgt (f + 1)
          (scaleGrid k out1) (q1.map (scaleItem k)) = scaleGrid k out1 := by
        unfold astarLoop
        rw [hpopk]
      have hR : astarLoop dims (fun _ _ _ => (1 : Int)) (fun a => 1 * m a) tgt (f + 1)
          out1 q1 = out1 := by
        unfold astarLoop
        rw [hpop]
      rw [hL, hR]
    | some p =>
      obtain ⟨it, rest⟩ := p
      rw [hpop] at hpopk
      simp only [Option.map_some'] at hpopk
      by_cases htgt : it.c = tgt
      · have hL : astarLoop dims (fun _ _ _ => k) (fun a => k * m a) tgt (f + 1)
            (scaleGrid k out1) (q1.map (scaleItem k)) = scaleGrid k out1 := by
          unfold astarLoop
          rw [hpopk]
          show (if it.c = tgt then scaleGrid k out1
            else astarLoop dims (fun _ _ _ => k) (fun a => k * m a) tgt f
              (dirs.foldl (astarRelax dims (fun _ _ _ => k) (fun a => k * m a) it.c)
                (scaleGrid k out1, rest.map (scaleItem k))).1
              (dirs.foldl (astarRelax dims (fun _ _ _ => k) (fun a => k * m a) it.c)
                (scaleGrid k out1, rest.map (scaleItem k))).2) = scaleGrid k out1
          rw [if_pos htgt]
        have hR : astarLoop dims (fun _ _ _ => (1 : Int)) (fun a => 1 * m a) tgt (f + 1)
            out1 q1 = out1 := by
          unfold astarLoop
          rw [hpop]
          show (if it.c = tgt then out1
            else astarLoop dims (fun _ _ _ => (1 : Int)) (fun a => 1 * m a) tgt f
              (dirs.foldl (astarRelax dims (fun _ _ _ => (1 : Int))
                  (fun a => 1 * m a) it.c) (out1, rest)).1
              (dirs.foldl (astarRelax dims (fun _ _ _ => (1 : Int))
                  (fun a => 1 * m a) it.c) (out1, rest)).2) = out1
          rw [if_pos htgt]
        rw [hL, hR]
      · obtain ⟨hmem, hsub⟩ := popMin_subset q1 it rest hpop
        obtain ⟨hit0, hit306, hitfin⟩ := inv.items it hmem
        have hdc : 0 ≤ (out1.get it.c).dist ∧ (out1.get it.c).dist ≤ 300 - ((f : Int) + 1) := by
          rcases inv.cells it.c with hcm | ⟨h1, h2⟩
          · exact absurd hcm hitfin
          · refine ⟨h1, ?_⟩
            have hcast : ((f + 1 : Nat) : Int) = (f : Int) + 1 := by push_cast; ring
            rw [← hcast]
            exact h2
        have hcfold : 0 ≤ (out1.get it.c).dist ∧
            (out1.get it.c).dist + 1 ≤ 300 - (f : Int) := by
          omega
        have hinv' : AInv dims (300 - (f : Int)) out1 rest := by
          refine AInv.mono ⟨inv.wf, inv.w_eq, inv.h_eq, inv.cells,
            fun x hx => inv.items x (hsub x hx)⟩ ?_
          push_cast
          omega
        obtain ⟨foldEq, foldInv, foldSame⟩ :=
          astarRelaxFold_scale k hk0 hkB dims m hm0 hm6 it.c (300 - (f : Int))
            (by omega) dirs out1 rest hcfold hinv'
        have hL : astarLoop dims (fun _ _ _ => k) (fun a => k * m a) tgt (f + 1)
            (scaleGrid k out1) (q1.map (scaleItem k))
            = astarLoop dims (fun _ _ _ => k) (fun a => k * m a) tgt f
                (dirs.foldl (astarRelax dims (fun _ _ _ => k) (fun a => k * m a) it.c)
                  (scaleGrid k out1, rest.map (scaleItem k))).1
                (dirs.foldl (astarRelax dims (fun _ _ _ => k) (fun a => k * m a) it.c)
                  (scaleGrid k out1, rest.map (scaleItem k))).2 := by
          conv_lhs => rw [astarLoop]
          rw [hpopk]
          show (if it.c = tgt then scaleGrid k out1
            else astarLoop dims (fun _ _ _ => k) (fun a => k * m a) tgt f
              (dirs.foldl (astarRelax dims (fun _ _ _ => k) (fun a => k * m a) it.c)
                (scaleGrid k out1, rest.map (scaleItem k))).1
              (dirs.foldl (astarRelax dims (fun _ _ _ => k) (fun a => k * m a) it.c)
                (scaleGrid k out1, rest.map (scaleItem k))).2) = _
          rw [if_neg htgt]
        have hR : astarLoop dims (fun _ _ _ => (1 : Int)) (fun a => 1 * m a) tgt (f + 1)
            out1 q1
            = astarLoop dims (fun _ _ _ => (1 : Int)) (fun a => 1 * m a) tgt f
                (dirs.foldl (astarRelax dims (fun _ _ _ => (1 : Int))
                    (fun a => 1 * m a) it.c) (out1, rest)).1
                (dirs.foldl (astarRelax dims (fun _ _ _ => (1 : Int))
                    (fun a => 1 * m a) it.c) (out1, rest)).2 := by
          conv_lhs => rw [astarLoop]
          rw [hpop]
          show (if it.c = tgt then out1
            else astarLoop dims (fun _ _ _ => (1 : Int)) (fun a => 1 * m a) tgt f
              (dirs.foldl (astarRelax dims (fun _ _ _ => (1 : Int))
                  (fun a => 1 * m a) it.c) (out1, rest)).1
              (dirs.foldl (astarRelax dims (fun _ _ _ => (1 : Int))
                  (fun a => 1 * m a) it.c) (out1, rest)).2) = _
          rw [if_neg htgt]
        rw [hL, hR, foldEq]
        exact ih (by omega) _ _ foldInv

/-- All 256 source/target pairs of the open 4x4 grid, with unit edge costs
and unit heuristic: the A* result records exactly the Manhattan distance. -/
def c8AllPairs : Bool :=
  (CoordRange.coordList ⟨4, 4⟩).all fun frm =>
    (CoordRange.coordList ⟨4, 4⟩).all fun tgt =>
      ((astar_shortest_path ⟨4, 4⟩ (fun _ _ _ => 1) frm tgt 1).get tgt).dist
        = manhattan_distance frm tgt

set_option maxRecDepth 100000 in
set_option maxHeartbeats 4000000 in
theorem c8Base : c8AllPairs = true := by decide

/-- C8 counterexample: with edge cost `k = INT_MAX` every edge is discarded
by the `edge == INT_MAX` skip, so the recorded distance of a target two steps
away stays `INT_MAX`, not `INT_MAX * 2`. -/
theorem c8_counterexample :
    (0 : Int) < INT_MAX ∧
    ((astar_shortest_path ⟨4, 4⟩ (fun _ _ _ => INT_MAX) ⟨0, 0⟩ ⟨1, 1⟩ INT_MAX).get
      ⟨1, 1⟩).dist ≠ INT_MAX * manhattan_distance ⟨0, 0⟩ ⟨1, 1⟩ := by
  refine ⟨by decide, by decide⟩

/-- C8 amended: for every positive edge cost `k` small enough not to collide
with the `INT_MAX` sentinel (1000k within `INT_MAX`; the claim's "every
positive k" fails at `k = INT_MAX`), A* on the open 4x4 grid with
`min_distance_cost = k` records distance `k * manhattan(from, to)`. -/
theorem c8_amended (k : Int) (hk0 : 0 < k) (hkB : 1000 * k ≤ INT_MAX)
    (frm tgt : Coord) (hfrm : CoordRange.valid ⟨4, 4⟩ frm = true)
    (htgt : CoordRange.valid ⟨4, 4⟩ tgt = true) :
    ((astar_shortest_path ⟨4, 4⟩ (fun _ _ _ => k) frm tgt k).get tgt).dist
      = k * manhattan_distance frm tgt := by
  have hm0 : ∀ a : Coord, 0 ≤ ((a.x - tgt.x).natAbs : Int) + ((a.y - tgt.y).natAbs : Int) := by
    intro a
    positivity
  have hm6 : ∀ a : Coord, CoordRange.valid ⟨4, 4⟩ a = true →
      ((a.x - tgt.x).natAbs : Int) + ((a.y - tgt.y).natAbs : Int) ≤ 6 := by
    intro a ha
    obtain ⟨h1, h2, h3, h4⟩ := CoordRange.valid_iff.mp ha
    obtain ⟨h5, h6, h7, h8⟩ := CoordRange.valid_iff.mp htgt
    simp only [Nat.cast_ofNat] at *
    omega
  have hvfrm : (Grid.mk' ⟨4, 4⟩ (⟨INT_MAX, INVALID⟩ : Step)).validC frm = true := hfrm
  have hwfI : (Grid.mk' ⟨4, 4⟩ (⟨INT_MAX, INVALID⟩ : Step)).Wf := Grid.mk'_wf _ _
  have hscale0 : scaleStep k ⟨0, INVALID⟩ = (⟨0, INVALID⟩ : Step) := by
    simp only [scaleStep]
    rw [if_neg (by decide), mul_zero]
  have hscaleIM : scaleStep k (⟨INT_MAX, INVALID⟩ : Step) = ⟨INT_MAX, INVALID⟩ := by
    simp [scaleStep]
  have hmkscale : scaleGrid k (Grid.mk' ⟨4, 4⟩ (⟨INT_MAX, INVALID⟩ : Step))
      = Grid.mk' ⟨4, 4⟩ (⟨INT_MAX, INVALID⟩ : Step) := by
    show (⟨4, 4, (List.replicate (4 * 4) (⟨INT_MAX, INVALID⟩ : Step)).map
      (scaleStep k)⟩ : Grid Step) = _
    rw [List.map_replicate, hscaleIM]
    rfl
  have hinitk : scaleGrid k ((Grid.mk' ⟨4, 4⟩ (⟨INT_MAX, INVALID⟩ : Step)).set frm
      ⟨0, INVALID⟩)
      = (Grid.mk' ⟨4, 4⟩ (⟨INT_MAX, INVALID⟩ : Step)).set frm ⟨0, INVALID⟩ := by
    rw [scaleGrid_set, hscale0, hmkscale]
  have hget0 : (((Grid.mk' ⟨4, 4⟩ (⟨INT_MAX, INVALID⟩ : Step)).set frm
      ⟨0, INVALID⟩).get frm) = ⟨0, INVALID⟩ := Grid.get_set_same hwfI hvfrm _
  have hinv : AInv ⟨4, 4⟩ (300 - ((90 : Nat) : Int))
      ((Grid.mk' ⟨4, 4⟩ (⟨INT_MAX, INVALID⟩ : Step)).set frm ⟨0, INVALID⟩)
      [⟨frm, 0 + 1 * (((frm.x - tgt.x).natAbs : Int) + ((frm.y - tgt.y).natAbs : Int))⟩] := by
    refine ⟨Grid.set_wf hwfI _ _, by rw [Grid.set_w]; rfl, by rw [Grid.set_h]; rfl,
      ?_, ?_⟩
    · intro e
      by_cases he : e = frm
      · subst he
        rw [hget0]
        refine Or.inr ⟨?_, ?_⟩
        · show (0 : Int) ≤ 0
          omega
        · show (0 : Int) ≤ 300 - ((90 : Nat) : Int)
          norm_num
      · rw [Grid.get_set_ne _ he]
        by_cases hev : (Grid.mk' ⟨4, 4⟩ (⟨INT_MAX, INVALID⟩ : Step)).validC e = true
        · rw [Grid.mk'_get _ _ hev]
          exact Or.inl rfl
        · rw [Grid.get_of_invalid hev]
          exact Or.inl rfl
    · intro it hit
      obtain rfl := List.mem_singleton.mp hit
      refine ⟨?_, ?_, ?_⟩
      · show (0 : Int) ≤ 0 + 1 * (((frm.x - tgt.x).natAbs : Int)
          + ((frm.y - tgt.y).natAbs : Int))
        have := hm0 frm
        omega
      · show (0 + 1 * (((frm.x - tgt.x).natAbs : Int)
          + ((frm.y - tgt.y).natAbs : Int))) ≤ 306
        have := hm6 frm hfrm
        omega
      · show ((((Grid.mk' ⟨4, 4⟩ (⟨INT_MAX, INVALID⟩ : Step)).set frm
          ⟨0, INVALID⟩).get frm)).dist ≠ INT_MAX
        rw [hget0]
        decide
  have hqinit : ([⟨frm, 0 + k * (((frm.x - tgt.x).natAbs : Int)
        + ((frm.y - tgt.y).natAbs : Int))⟩] : List AItem)
      = List.map (scaleItem k) [⟨frm, 0 + 1 * (((frm.x - tgt.x).natAbs : Int)
        + ((frm.y - tgt.y).natAbs : Int))⟩] := by
    simp only [List.map_cons, List.map_nil, scaleItem]
    rw [show k * (0 + 1 * (((frm.x - tgt.x).natAbs : Int)
        + ((frm.y - tgt.y).natAbs : Int)))
      = 0 + k * (((frm.x - tgt.x).natAbs : Int) + ((frm.y - tgt.y).natAbs : Int))
      from by ring]
  have hrun : astar_shortest_path ⟨4, 4⟩ (fun _ _ _ => k) frm tgt k
      = scaleGrid k (astarLoop ⟨4, 4⟩ (fun _ _ _ => (1 : Int))
          (fun a => 1 * (((a.x - tgt.x).natAbs : Int) + ((a.y - tgt.y).natAbs : Int)))
          tgt 90
          ((Grid.mk' ⟨4, 4⟩ (⟨INT_MAX, INVALID⟩ : Step)).set frm ⟨0, INVALID⟩)
          [⟨frm, 0 + 1 * (((frm.x - tgt.x).natAbs : Int)
            + ((frm.y - tgt.y).natAbs : Int))⟩]) := by
    show astarLoop ⟨4, 4⟩ (fun _ _ _ => k)
        (fun a => k * (((a.x - tgt.x).natAbs : Int) + ((a.y - tgt.y).natAbs : Int)))
        tgt 90
        ((Grid.mk' ⟨4, 4⟩ (⟨INT_MAX, INVALID⟩ : Step)).set frm ⟨0, INVALID⟩)
        [⟨frm, 0 + k * (((frm.x - tgt.x).natAbs : Int)
          + ((frm.y - tgt.y).natAbs : Int))⟩] = _
    rw [hqinit]
    conv_lhs => rw [← hinitk]
    exact astarLoop_scale k hk0 hkB ⟨4, 4⟩
      (fun a => ((a.x - tgt.x).natAbs : Int) + ((a.y - tgt.y).natAbs : Int))
      hm0 hm6 tgt 90 (by omega) _ _ hinv
  have hbase : ((astar_shortest_path ⟨4, 4⟩ (fun _ _ _ => (1 : Int)) frm tgt 1).get
      tgt).dist = manhattan_distance frm tgt := by
    have hall := c8Base
    unfold c8AllPairs at hall
    rw [List.all_eq_true] at hall
    have h1 := hall frm (CoordRange.mem_coordList.mpr hfrm)
    rw [List.all_eq_true] at h1
    have h2 := h1 tgt (CoordRange.mem_coordList.mpr htgt)
    rw [decide_eq_true_eq] at h2
    exact h2
  have hbase' : ((astarLoop ⟨4, 4⟩ (fun _ _ _ => (1 : Int))
      (fun a => 1 * (((a.x - tgt.x).natAbs : Int) + ((a.y - tgt.y).natAbs : Int)))
      tgt 90
      ((Grid.mk' ⟨4, 4⟩ (⟨INT_MAX, INVALID⟩ : Step)).set frm ⟨0, INVALID⟩)
      [⟨frm, 0 + 1 * (((frm.x - tgt.x).natAbs : Int)
        + ((frm.y - tgt.y).natAbs : Int))⟩]).get tgt).dist
      = manhattan_distance frm tgt := hbase
  rw [hrun, scaleGrid_get]
  simp only [scaleStep]
  rw [hbase']
  have hman6 : manhattan_distance frm tgt ≤ 6 := hm6 frm hfrm
  have hmanIM : ¬(manhattan_distance frm tgt = INT_MAX) := by
    have h6 := hm6 frm hfrm
    have h0 := hm0 frm
    show ¬((((frm.x - tgt.x).natAbs : Int) + ((frm.y - tgt.y).natAbs : Int))
      = (2147483647 : Int))
    omega
  rw [if_neg hmanIM]

/-- Witness for the amended C8 with `k = 2`, from `(0,0)` to `(3,2)`. -/
theorem c8_amended_witness :
    ((0 : Int) < 2 ∧ 1000 * 2 ≤ INT_MAX ∧
      CoordRange.valid ⟨4, 4⟩ ⟨0, 0⟩ = true ∧ CoordRange.valid ⟨4, 4⟩ ⟨3, 2⟩ = true) ∧
    ((astar_shortest_path ⟨4, 4⟩ (fun _ _ _ => 2) ⟨0, 0⟩ ⟨3, 2⟩ 2).get ⟨3, 2⟩).dist
      = 2 * manhattan_distance ⟨0, 0⟩ ⟨3, 2⟩ :=
  ⟨⟨by decide, by decide, by decide, by decide⟩,
    c8_amended 2 (by decide) (by decide) ⟨0, 0⟩ ⟨3, 2⟩ (by decide) (by decide)⟩

/-! ## Flood fill (shortest_path.hpp) and reachability (C7)

`flood_fill_go` recurses on the C++ call stack; the embedding carries fuel
and returns `none` on exhaustion (never reached from `flood_fill`, as proved
below) or on the out-of-range entry the C++ announces with "ABOUT TO BREAK
THINGS" before corrupting memory.  The row scans run on fuel `out.w`, which
dominates the number of possible steps. -/

/-- The `min_x` scan of `flood_fill_go`. -/
def scanMinX (out : Grid Bool) (cm : CanMove) (y : Int) : Nat → Int → Int
  | 0, x => x
  | fuel + 1, x =>
    if 0 < x ∧ cm ⟨x, y⟩ ⟨x - 1, y⟩ .left = true ∧ out.get ⟨x - 1, y⟩ = false then
      scanMinX out cm y fuel (x - 1)
    else x

/-- The `max_x` scan of `flood_fill_go`. -/
def scanMaxX (out : Grid Bool) (cm : CanMove) (y : Int) : Nat → Int → Int
  | 0, x => x
  | fuel + 1, x =>
    if x + 1 < (out.w : Int) ∧ cm ⟨x, y⟩ ⟨x + 1, y⟩ .right = true ∧
        out.get ⟨x + 1, y⟩ = false then
      scanMaxX out cm y fuel (x + 1)
    else x

/-- The row fill `std::fill(&out[{min_x,y}], &out[{max_x,y}]+1, true)`. -/
def markRow (out : Grid Bool) (y : Int) : Nat → Int → Grid Bool
  | 0, _ => out
  | n + 1, x => markRow (out.set ⟨x, y⟩ true) y n (x + 1)

/-- The `for (x = min_x..max_x)` loop of `flood_fill_go` with its up/down
recursions (`go` is the recursive call at the remaining stack depth). -/
def ffLoop (cm : CanMove) (go : Grid Bool → Coord → Option (Grid Bool))
    (h : Int) (y : Int) : Nat → Int → Grid Bool → Option (Grid Bool)
  | 0, _, out => some out
  | n + 1, x, out =>
    (if 0 < y ∧ cm ⟨x, y⟩ ⟨x, y - 1⟩ .up = true ∧ out.get ⟨x, y - 1⟩ = false then
        go out ⟨x, y - 1⟩ else some out).bind fun out1 =>
    (if y + 1 < h ∧ cm ⟨x, y⟩ ⟨x, y + 1⟩ .down = true ∧ out1.get ⟨x, y + 1⟩ = false then
        go out1 ⟨x, y + 1⟩ else some out1).bind fun out2 =>
    ffLoop cm go h y n (x + 1) out2

/-- `flood_fill_go` from shortest_path.hpp. -/
def flood_fill_go (cm : CanMove) : Nat → Grid Bool → Coord → Option (Grid Bool)
  | 0, _, _ => none
  | fuel + 1, out, a =>
    if out.validC a = true then
      let mn := scanMinX out cm a.y out.w a.x
      let mx := scanMaxX out cm a.y out.w a.x
      let out1 := markRow out a.y (mx - mn + 1).toNat mn
      ffLoop cm (flood_fill_go cm fuel) (out.h : Int) a.y (mx - mn + 1).toNat mn out1
    else none

/-- `flood_fill(dims, can_move, from)` from shortest_path.hpp. -/
def flood_fill (dims : CoordRange) (cm : CanMove) (frm : Coord) : Option (Grid Bool) :=
  flood_fill_go cm (dims.size + 1) (Grid.mk' dims false) frm

/-- Reachability from `frm` by in-bounds single steps allowed by `cm` — the
set the specification says the flood fill computes. -/
inductive Reach (dims : CoordRange) (cm : CanMove) (frm : Coord) : Coord → Prop where
  | refl : Reach dims cm frm frm
  | step : ∀ c d, Reach dims cm frm c → dims.valid (c.add d) = true →
      cm c (c.add d) d = true → Reach dims cm frm (c.add d)

theorem Reach.trans {dims : CoordRange} {cm : CanMove} {a b c : Coord}
    (h1 : Reach dims cm a b) (h2 : Reach dims cm b c) : Reach dims cm a c := by
  induction h2 with
  | refl => exact h1
  | step c d _ hv hm ih => exact Reach.step c d ih hv hm

/-- Pointwise monotone predicates have monotone counts. -/
theorem countP_le_of {α : Type} (p q : α → Bool) :
    ∀ (L : List α), (∀ c ∈ L, p c = true → q c = true) → L.countP p ≤ L.countP q := by
  intro L
  induction L with
  | nil => intro _; simp
  | cons x xs ih =>
    intro hmono
    rw [List.countP_cons, List.countP_cons]
    have hx : p x = true → q x = true := hmono x (List.mem_cons_self _ _)
    have hxs := ih (fun c hc => hmono c (List.mem_cons_of_mem _ hc))
    split_ifs with h1 h2
    · omega
    · exact absurd (hx h1) h2
    · omega
    · omega

/-- Strict decrease of a `countP` when the predicate shrinks pointwise and
some element genuinely flips. -/
theorem countP_lt_of {α : Type} (p q : α → Bool) :
    ∀ (L : List α), (∀ c ∈ L, p c = true → q c = true) →
      ∀ c0 ∈ L, p c0 = false → q c0 = true → L.countP p < L.countP q := by
  intro L
  induction L with
  | nil => intro _ c0 h0; simp at h0
  | cons x xs ih =>
    intro hmono c0 hc0 hp hq
    rw [List.countP_cons, List.countP_cons]
    have hx : p x = true → q x = true := hmono x (List.mem_cons_self _ _)
    have hmono' : ∀ c ∈ xs, p c = true → q c = true :=
      fun c hc => hmono c (List.mem_cons_of_mem _ hc)
    rcases List.mem_cons.mp hc0 with rfl | hc0
    · rw [if_neg (by rw [hp]; exact Bool.false_ne_true), if_pos hq]
      have := countP_le_of p q xs hmono'
      omega
    · have hlt := ih hmono' c0 hc0 hp hq
      split_ifs with h1 h2
      · omega
      · exact absurd (hx h1) h2
      · omega
      · omega

/-- The number of unmarked in-range cells, the termination measure of the
flood fill. -/
def unm (dims : CoordRange) (g : Grid Bool) : Nat :=
  dims.coordList.countP fun c => g.get c = false

theorem scanMinX_spec (out : Grid Bool) (cm : CanMove) (y : Int) :
    ∀ (fuel : Nat) (x : Int), 0 ≤ x → x < (fuel : Int) →
      (0 ≤ scanMinX out cm y fuel x ∧ scanMinX out cm y fuel x ≤ x) ∧
      (∀ t : Int, scanMinX out cm y fuel x ≤ t → t < x →
        cm ⟨t + 1, y⟩ ⟨t, y⟩ .left = true) ∧
      ¬(0 < scanMinX out cm y fuel x ∧
        cm ⟨scanMinX out cm y fuel x, y⟩ ⟨scanMinX out cm y fuel x - 1, y⟩ .left = true ∧
        out.get ⟨scanMinX out cm y fuel x - 1, y⟩ = false) := by
  intro fuel
  induction fuel with
  | zero =>
    intro x h0 hlt
    exfalso
    push_cast at hlt
    omega
  | succ f ih =>
    intro x h0 hlt
    by_cases hcond : 0 < x ∧ cm ⟨x, y⟩ ⟨x - 1, y⟩ .left = true ∧
        out.get ⟨x - 1, y⟩ = false
    · obtain ⟨hx0, hcm, hfree⟩ := hcond
      have heq : scanMinX out cm y (f + 1) x = scanMinX out cm y f (x - 1) := by
        conv_lhs => rw [scanMinX]
        rw [if_pos ⟨hx0, hcm, hfree⟩]
      obtain ⟨⟨ihb0, ihb1⟩, ihchain, ihstop⟩ :=
        ih (x - 1) (by omega) (by push_cast at hlt ⊢; omega)
      rw [heq]
      refine ⟨⟨ihb0, by omega⟩, ?_, ihstop⟩
      intro t hmn ht
      by_cases htx : t < x - 1
      · exact ihchain t hmn htx
      · have ht1 : t = x - 1 := by omega
        subst ht1
        rw [show x - 1 + 1 = x from by omega]
        exact hcm
    · have heq : scanMinX out cm y (f + 1) x = x := by
        unfold scanMinX
        rw [if_neg hcond]
      rw [heq]
      exact ⟨⟨h0, le_refl x⟩, fun t h1 h2 => absurd (lt_of_le_of_lt h1 h2) (lt_irrefl x), hcond⟩

theorem scanMaxX_spec (out : Grid Bool) (cm : CanMove) (y : Int) :
    ∀ (fuel : Nat) (x : Int), x < (out.w : Int) → (out.w : Int) - x ≤ (fuel : Int) →
      (x ≤ scanMaxX out cm y fuel x ∧ scanMaxX out cm y fuel x < (out.w : Int)) ∧
      (∀ t : Int, x ≤ t → t < scanMaxX out cm y fuel x →
        cm ⟨t, y⟩ ⟨t + 1, y⟩ .right = true) ∧
      ¬(scanMaxX out cm y fuel x + 1 < (out.w : Int) ∧
        cm ⟨scanMaxX out cm y fuel x, y⟩ ⟨scanMaxX out cm y fuel x + 1, y⟩ .right = true ∧
        out.get ⟨scanMaxX out cm y fuel x + 1, y⟩ = false) := by
  intro fuel
  induction fuel with
  | zero =>
    intro x hw hfuel
    exfalso
    push_cast at hfuel
    omega
  | succ f ih =>
    intro x hw hfuel
    by_cases hcond : x + 1 < (out.w : Int) ∧ cm ⟨x, y⟩ ⟨x + 1, y⟩ .right = true ∧
        out.get ⟨x + 1, y⟩ = false
    · obtain ⟨hx1, hcm, hfree⟩ := hcond
      have heq : scanMaxX out cm y (f + 1) x = scanMaxX out cm y f (x + 1) := by
        conv_lhs => rw [scanMaxX]
        rw [if_pos ⟨hx1, hcm, hfree⟩]
      obtain ⟨⟨ihb0, ihb1⟩, ihchain, ihstop⟩ :=
        ih (x + 1) hx1 (by push_cast at hfuel ⊢; omega)
      rw [heq]
      refine ⟨⟨by omega, ihb1⟩, ?_, ihstop⟩
      intro t ht hmx
      by_cases htx : x + 1 ≤ t
      · exact ihchain t htx hmx
      · have ht1 : t = x := by omega
        subst ht1
        exact hcm
    · have heq : scanMaxX out cm y (f + 1) x = x := by
        conv_lhs => rw [scanMaxX]
        rw [if_neg hcond]
      rw [heq]
      exact ⟨⟨le_refl x, hw⟩, fun t h1 h2 => absurd (lt_of_le_of_lt h1 h2) (lt_irrefl x),
        hcond⟩

theorem markRow_w (y : Int) : ∀ (n : Nat) (x : Int) (out : Grid Bool),
    (markRow out y n x).w = out.w := by
  intro n
  induction n with
  | zero => intro x out; rfl
  | succ m ih =>
    intro x out
    show (markRow (out.set ⟨x, y⟩ true) y m (x + 1)).w = out.w
    rw [ih, Grid.set_w]

theorem markRow_h (y : Int) : ∀ (n : Nat) (x : Int) (out : Grid Bool),
    (markRow out y n x).h = out.h := by
  intro n
  induction n with
  | zero => intro x out; rfl
  | succ m ih =>
    intro x out
    show (markRow (out.set ⟨x, y⟩ true) y m (x + 1)).h = out.h
    rw [ih, Grid.set_h]

theorem markRow_wf (y : Int) : ∀ (n : Nat) (x : Int) (out : Grid Bool), out.Wf →
    (markRow out y n x).Wf := by
  intro n
  induction n with
  | zero => intro x out h; exact h
  | succ m ih =>
    intro x out h
    show (markRow (out.set ⟨x, y⟩ true) y m (x + 1)).Wf
    exact ih _ _ (Grid.set_wf h _ _)

theorem markRow_get (y : Int) : ∀ (n : Nat) (x : Int) (out : Grid Bool), out.Wf →
    (∀ i : Nat, i < n → out.validC ⟨x + i, y⟩ = true) →
    ∀ c : Coord, ((markRow out y n x).get c = true ↔
      (out.get c = true ∨ (c.y = y ∧ x ≤ c.x ∧ c.x < x + n))) := by
  intro n
  induction n with
  | zero =>
    intro x out _ _ c
    show out.get c = true ↔ _
    push_cast
    constructor
    · exact fun h => Or.inl h
    · intro h
      rcases h with h | ⟨_, h1, h2⟩
      · exact h
      · omega
  | succ m ih =>
    intro x out hwf hvalid c
    have hv0 : out.validC ⟨x, y⟩ = true := by
      have := hvalid 0 (by omega)
      simpa using this
    have hvalid' : ∀ i : Nat, i < m → (out.set ⟨x, y⟩ true).validC ⟨x + 1 + i, y⟩ = true := by
      intro i hi
      rw [Grid.set_validC]
      have := hvalid (i + 1) (by omega)
      have hco : (⟨x + (((i : Nat) + 1 : Nat) : Int), y⟩ : Coord) = ⟨x + 1 + i, y⟩ := by
        congr 1
        push_cast
        ring
      rw [hco] at this
      exact this
    have hmain := ih (x + 1) (out.set ⟨x, y⟩ true) (Grid.set_wf hwf _ _) hvalid' c
    show (markRow (out.set ⟨x, y⟩ true) y m (x + 1)).get c = true ↔ _
    rw [hmain]
    obtain ⟨cx, cy⟩ := c
    dsimp only
    by_cases hc : (⟨cx, cy⟩ : Coord) = ⟨x, y⟩
    · rw [hc, Grid.get_set_same hwf hv0]
      simp only [Coord.mk.injEq] at hc
      obtain ⟨rfl, rfl⟩ := hc
      constructor
      · intro _
        right
        refine ⟨rfl, le_refl _, ?_⟩
        push_cast
        omega
      · intro _
        left
        rfl
    · rw [Grid.get_set_ne _ hc]
      simp only [Coord.mk.injEq, not_and] at hc
      constructor
      · intro h
        rcases h with h | ⟨hy, h1, h2⟩
        · exact Or.inl h
        · refine Or.inr ⟨hy, by omega, ?_⟩
          push_cast at h2 ⊢
          omega
      · intro h
        rcases h with h | ⟨hy, h1, h2⟩
        · exact Or.inl h
        · subst hy
          have hxne : cx ≠ x := fun hq => hc hq rfl
          refine Or.inr ⟨rfl, by omega, ?_⟩
          push_cast at h2 ⊢
          omega

theorem unm_mono (dims : CoordRange) {g g' : Grid Bool}
    (h : ∀ c, g.get c = true → g'.get c = true) : unm dims g' ≤ unm dims g := by
  apply countP_le_of
  intro c _ hc
  rw [decide_eq_true_eq] at hc ⊢
  by_cases hg : g.get c = true
  · rw [h c hg] at hc
    exact absurd hc (by simp)
  · simpa using hg

theorem unm_strict (dims : CoordRange) {g g' : Grid Bool}
    (hmono : ∀ c, g.get c = true → g'.get c = true) (c0 : Coord)
    (hc0 : c0 ∈ dims.coordList) (h1 : g.get c0 = false) (h2 : g'.get c0 = true) :
    unm dims g' < unm dims g := by
  apply countP_lt_of _ _ _ ?_ c0 hc0 ?_ ?_
  · intro c _ hc
    rw [decide_eq_true_eq] at hc ⊢
    by_cases hg : g.get c = true
    · rw [hmono c hg] at hc
      exact absurd hc (by simp)
    · simpa using hg
  · rw [decide_eq_false_iff_not]
    rw [h2]
    simp
  · rw [decide_eq_true_eq]
    exact h1

theorem coordx_eq {u v : Int} (y : Int) (h : u = v) : (⟨u, y⟩ : Coord) = ⟨v, y⟩ := by
  rw [h]

/-- The full recursive contract of `flood_fill_go` at a given amount of fuel:
on a well-formed grid with a free in-range entry cell and enough fuel, it
succeeds, only adds marks, marks the entry, every new mark is reachable from
the entry, the new marks are closed under allowed moves, and at least one
cell got marked. -/
def GoSpec (dims : CoordRange) (cm : CanMove) (fuel : Nat) : Prop :=
  ∀ (out : Grid Bool) (a : Coord),
    out.Wf → out.w = dims.w → out.h = dims.h →
    dims.valid a = true → out.get a = false →
    unm dims out < fuel →
    ∃ out', flood_fill_go cm fuel out a = some out' ∧
      out'.w = dims.w ∧ out'.h = dims.h ∧ out'.Wf ∧
      (∀ c, out.get c = true → out'.get c = true) ∧
      out'.get a = true ∧
      (∀ c, out'.get c = true → out.get c = true ∨ Reach dims cm a c) ∧
      (∀ c, out'.get c = true → out.get c = false →
        ∀ d, dims.valid (c.add d) = true → cm c (c.add d) d = true →
          out'.get (c.add d) = true) ∧
      unm dims out' < unm dims out

/-- One optional child recursion (the up/down branch bodies of the loop). -/
theorem ffChild_spec (dims : CoordRange) (cm : CanMove) (fuel : Nat)
    (hgo : GoSpec dims cm fuel) (a src tgt : Coord) (d : Dir) (P : Prop)
    [Decidable P]
    (out : Grid Bool) (hwf : out.Wf) (hw : out.w = dims.w) (hh : out.h = dims.h)
    (hfuel : unm dims out < fuel)
    (hsrc : Reach dims cm a src)
    (hstep : tgt = src.add d)
    (hPvalid : P → dims.valid tgt = true) :
    ∃ out1, (if P ∧ cm src tgt d = true ∧ out.get tgt = false then
        flood_fill_go cm fuel out tgt else some out) = some out1 ∧
      out1.w = dims.w ∧ out1.h = dims.h ∧ out1.Wf ∧
      (∀ c, out.get c = true → out1.get c = true) ∧
      (∀ c, out1.get c = true → out.get c = true ∨ Reach dims cm a c) ∧
      (∀ c, out1.get c = true → out.get c = false →
        ∀ e, dims.valid (c.add e) = true → cm c (c.add e) e = true →
          out1.get (c.add e) = true) ∧
      (P → cm src tgt d = true → out1.get tgt = true) ∧
      unm dims out1 ≤ unm dims out := by
  by_cases hcond : P ∧ cm src tgt d = true ∧ out.get tgt = false
  · obtain ⟨hP, hcm, hfree⟩ := hcond
    obtain ⟨out', heq, hw', hh', hwf', hmono, hentry, hsound, hclosed, hunm⟩ :=
      hgo out tgt hwf hw hh (hPvalid hP) hfree hfuel
    have hreachtgt : Reach dims cm a tgt := by
      rw [hstep]
      exact Reach.step src d hsrc (by rw [← hstep]; exact hPvalid hP)
        (by rw [← hstep]; exact hcm)
    refine ⟨out', by rw [if_pos ⟨hP, hcm, hfree⟩]; exact heq, hw', hh', hwf', hmono,
      ?_, hclosed, fun _ _ => hentry, le_of_lt hunm⟩
    intro c hc
    rcases hsound c hc with h | h
    · exact Or.inl h
    · exact Or.inr (Reach.trans hreachtgt h)
  · refine ⟨out, by rw [if_neg hcond], hw, hh, hwf, fun c h => h,
      fun c h => Or.inl h, ?_, ?_, le_refl _⟩
    · intro c h1 h2
      rw [h1] at h2
      exact absurd h2 (by simp)
    · intro hP hcm
      by_cases hfree : out.get tgt = false
      · exact absurd ⟨hP, hcm, hfree⟩ hcond
      · simpa using hfree

/-- The row loop of `flood_fill_go`: children succeed, only add marks, all
new marks are reachable from the entry and closed under allowed moves, and
every processed row cell has its admissible up/down neighbors marked. -/
theorem ffLoop_spec (dims : CoordRange) (cm : CanMove) (fuel : Nat)
    (hgo : GoSpec dims cm fuel) (y : Int) (a : Coord) :
    ∀ (n : Nat) (x : Int) (out : Grid Bool),
      out.Wf → out.w = dims.w → out.h = dims.h →
      unm dims out < fuel →
      (∀ i : Nat, i < n → dims.valid ⟨x + i, y⟩ = true) →
      (∀ i : Nat, i < n → out.get ⟨x + i, y⟩ = true) →
      (∀ i : Nat, i < n → Reach dims cm a ⟨x + i, y⟩) →
      ∃ out', ffLoop cm (flood_fill_go cm fuel) (dims.h : Int) y n x out = some out' ∧
        out'.w = dims.w ∧ out'.h = dims.h ∧ out'.Wf ∧
        (∀ c, out.get c = true → out'.get c = true) ∧
        (∀ c, out'.get c = true → out.get c = true ∨ Reach dims cm a c) ∧
        (∀ c, out'.get c = true → out.get c = false →
          ∀ e, dims.valid (c.add e) = true → cm c (c.add e) e = true →
            out'.get (c.add e) = true) ∧
        (∀ i : Nat, i < n →
          (0 < y → cm ⟨x + i, y⟩ ⟨x + i, y - 1⟩ .up = true →
            out'.get ⟨x + i, y - 1⟩ = true) ∧
          (y + 1 < (dims.h : Int) → cm ⟨x + i, y⟩ ⟨x + i, y + 1⟩ .down = true →
            out'.get ⟨x + i, y + 1⟩ = true)) ∧
        unm dims out' ≤ unm dims out := by
  intro n
  induction n with
  | zero =>
    intro x out hwf hw hh hfuel hvalid hmark hreach
    refine ⟨out, rfl, hw, hh, hwf, fun c h => h, fun c h => Or.inl h, ?_,
      fun i hi => absurd hi (by omega), le_refl _⟩
    intro c h1 h2
    rw [h1] at h2
    exact absurd h2 (by simp)
  | succ m ih =>
    intro x out hwf hw hh hfuel hvalid hmark hreach
    have hzero : ∀ (yy u : Int), (⟨u + ((0 : Nat) : Int), yy⟩ : Coord) = ⟨u, yy⟩ := by
      intro yy u
      congr 1
      push_cast
      ring
    have hshift : ∀ (yy u : Int) (j : Nat),
        (⟨u + 1 + (j : Int), yy⟩ : Coord) = ⟨u + ((j + 1 : Nat) : Int), yy⟩ := by
      intro yy u j
      congr 1
      push_cast
      ring
    have hv0 : dims.valid ⟨x, y⟩ = true := by
      have h := hvalid 0 (by omega)
      rwa [hzero y x] at h
    have hm0 : out.get ⟨x, y⟩ = true := by
      have h := hmark 0 (by omega)
      rwa [hzero y x] at h
    have hr0 : Reach dims cm a ⟨x, y⟩ := by
      have h := hreach 0 (by omega)
      rwa [hzero y x] at h
    obtain ⟨hx0, hxw, hy0, hyh⟩ := CoordRange.valid_iff.mp hv0
    dsimp only at hx0 hxw hy0 hyh
    have hPup : 0 < y → dims.valid ⟨x, y - 1⟩ = true := by
      intro hy
      rw [CoordRange.valid_iff]
      dsimp only
      refine ⟨hx0, hxw, by omega, by omega⟩
    have hPdn : y + 1 < (dims.h : Int) → dims.valid ⟨x, y + 1⟩ = true := by
      intro hy
      rw [CoordRange.valid_iff]
      dsimp only
      refine ⟨hx0, hxw, by omega, by omega⟩
    obtain ⟨out1c, heq1, hw1, hh1, hwf1, hmono1, hsound1, hclosed1, hup1, hunm1⟩ :=
      ffChild_spec dims cm fuel hgo a ⟨x, y⟩ ⟨x, y - 1⟩ .up (0 < y) out hwf hw hh
        hfuel hr0 rfl hPup
    obtain ⟨out2c, heq2, hw2, hh2, hwf2, hmono2, hsound2, hclosed2, hdn2, hunm2⟩ :=
      ffChild_spec dims cm fuel hgo a ⟨x, y⟩ ⟨x, y + 1⟩ .down (y + 1 < (dims.h : Int))
        out1c hwf1 hw1 hh1 (by omega) hr0 rfl hPdn
    obtain ⟨out', heqr, hw', hh', hwf', hmonor, hsoundr, hclosedr, hnbr, hunmr⟩ :=
      ih (x + 1) out2c hwf2 hw2 hh2 (by omega)
        (fun i hi => by
          have h := hvalid (i + 1) (by omega)
          rw [hshift y x i]
          exact h)
        (fun i hi => by
          have h := hmark (i + 1) (by omega)
          rw [hshift y x i]
          exact hmono2 _ (hmono1 _ h))
        (fun i hi => by
          have h := hreach (i + 1) (by omega)
          rw [hshift y x i]
          exact h)
    refine ⟨out', ?_, hw', hh', hwf', ?_, ?_, ?_, ?_, by omega⟩
    · show ffLoop cm (flood_fill_go cm fuel) (dims.h : Int) y (m + 1) x out = some out'
      conv_lhs => rw [ffLoop]
      rw [heq1, Option.some_bind, heq2, Option.some_bind]
      exact heqr
    · intro c h
      exact hmonor c (hmono2 c (hmono1 c h))
    · intro c h
      rcases hsoundr c h with h2 | h2
      · rcases hsound2 c h2 with h3 | h3
        · rcases hsound1 c h3 with h4 | h4
          · exact Or.inl h4
          · exact Or.inr h4
        · exact Or.inr h3
      · exact Or.inr h2
    · intro c hc hcnew e hve hcme
      by_cases h1m : out1c.get c = true
      · exact hmonor _ (hmono2 _ (hclosed1 c h1m hcnew e hve hcme))
      · by_cases h2m : out2c.get c = true
        · exact hmonor _ (hclosed2 c h2m (by
            by_cases hq : out1c.get c = true
            · exact absurd hq h1m
            · simpa using hq) e hve hcme)
        · exact hclosedr c hc (by
            by_cases hq : out2c.get c = true
            · exact absurd hq h2m
            · simpa using hq) e hve hcme
    · intro i hi
      by_cases hi0 : i = 0
      · subst hi0
        constructor
        · intro hy hcm
          rw [hzero y x, hzero (y - 1) x] at hcm
          rw [hzero (y - 1) x]
          exact hmonor _ (hmono2 _ (hup1 hy hcm))
        · intro hy hcm
          rw [hzero y x, hzero (y + 1) x] at hcm
          rw [hzero (y + 1) x]
          exact hmonor _ (hdn2 hy hcm)
      · obtain ⟨j, rfl⟩ : ∃ j : Nat, i = j + 1 := ⟨i - 1, by omega⟩
        have h := hnbr j (by omega)
        constructor
        · intro hy hcm
          rw [← hshift y x j, ← hshift (y - 1) x j] at hcm
          rw [← hshift (y - 1) x j]
          exact h.1 hy hcm
        · intro hy hcm
          rw [← hshift y x j, ← hshift (y + 1) x j] at hcm
          rw [← hshift (y + 1) x j]
          exact h.2 hy hcm

theorem reachRowL (dims : CoordRange) (cm : CanMove) (a : Coord) (mn : Int)
    (hmn0 : 0 ≤ mn) (hax : a.x < (dims.w : Int)) (hay0 : 0 ≤ a.y)
    (hayh : a.y < (dims.h : Int))
    (hchain : ∀ t : Int, mn ≤ t → t < a.x → cm ⟨t + 1, a.y⟩ ⟨t, a.y⟩ .left = true) :
    ∀ (k : Nat) (t : Int), t = a.x - (k : Int) → mn ≤ t → Reach dims cm a ⟨t, a.y⟩ := by
  intro k
  induction k with
  | zero =>
    intro t ht _
    have ht' : t = a.x := by push_cast at ht; omega
    subst ht'
    exact Reach.refl
  | succ j ih =>
    intro t ht hmn
    have ht' : t = a.x - ((j : Int) + 1) := by push_cast at ht; omega
    have hprev := ih (t + 1) (by omega) (by omega)
    have hco : (⟨t + 1, a.y⟩ : Coord).add .left = ⟨t, a.y⟩ := by
      show (⟨t + 1 - 1, a.y⟩ : Coord) = ⟨t, a.y⟩
      congr 1
      ring
    have hv : dims.valid ⟨t, a.y⟩ = true := by
      rw [CoordRange.valid_iff]
      dsimp only
      exact ⟨by omega, by omega, hay0, hayh⟩
    have hcm : cm ⟨t + 1, a.y⟩ ⟨t, a.y⟩ .left = true := hchain t hmn (by omega)
    have hstep := Reach.step ⟨t + 1, a.y⟩ .left hprev (by rw [hco]; exact hv)
      (by rw [hco]; exact hcm)
    rw [hco] at hstep
    exact hstep

theorem reachRowR (dims : CoordRange) (cm : CanMove) (a : Coord) (mx : Int)
    (hax0 : 0 ≤ a.x) (hmxw : mx < (dims.w : Int)) (hay0 : 0 ≤ a.y)
    (hayh : a.y < (dims.h : Int))
    (hchain : ∀ t : Int, a.x ≤ t → t < mx → cm ⟨t, a.y⟩ ⟨t + 1, a.y⟩ .right = true) :
    ∀ (k : Nat) (t : Int), t = a.x + (k : Int) → t ≤ mx → Reach dims cm a ⟨t, a.y⟩ := by
  intro k
  induction k with
  | zero =>
    intro t ht _
    have ht' : t = a.x := by push_cast at ht; omega
    subst ht'
    exact Reach.refl
  | succ j ih =>
    intro t ht hmx
    have ht' : t = a.x + ((j : Int) + 1) := by push_cast at ht; omega
    have hprev := ih (t - 1) (by omega) (by omega)
    have hco : (⟨t - 1, a.y⟩ : Coord).add .right = ⟨t, a.y⟩ := by
      show (⟨t - 1 + 1, a.y⟩ : Coord) = ⟨t, a.y⟩
      congr 1
      ring
    have hv : dims.valid ⟨t, a.y⟩ = true := by
      rw [CoordRange.valid_iff]
      dsimp only
      exact ⟨by omega, by omega, hay0, hayh⟩
    have hcm : cm ⟨t - 1, a.y⟩ ⟨t, a.y⟩ .right = true := by
      have := hchain (t - 1) (by omega) (by omega)
      have hco2 : (⟨t - 1 + 1, a.y⟩ : Coord) = ⟨t, a.y⟩ := by
        congr 1
        ring
      rwa [hco2] at this
    have hstep := Reach.step ⟨t - 1, a.y⟩ .right hprev (by rw [hco]; exact hv)
      (by rw [hco]; exact hcm)
    rw [hco] at hstep
    exact hstep

/-- The body of one `flood_fill_go` call, abstracted over the scan results:
marking the row and running the child loop establishes the full recursive
contract relative to the original grid. -/
theorem goBody (dims : CoordRange) (cm : CanMove) (f : Nat) (ih : GoSpec dims cm f)
    (out : Grid Bool) (a : Coord)
    (hwf : out.Wf) (hw : out.w = dims.w) (hh : out.h = dims.h)
    (hva : dims.valid a = true) (hfree : out.get a = false)
    (hfuel : unm dims out < f + 1)
    (mn mx : Int)
    (hmn0 : 0 ≤ mn) (hmna : mn ≤ a.x) (hmxa : a.x ≤ mx) (hmxw : mx < (dims.w : Int))
    (hchainL : ∀ t : Int, mn ≤ t → t < a.x → cm ⟨t + 1, a.y⟩ ⟨t, a.y⟩ .left = true)
    (hchainR : ∀ t : Int, a.x ≤ t → t < mx → cm ⟨t, a.y⟩ ⟨t + 1, a.y⟩ .right = true)
    (hstopL : ¬(0 < mn ∧ cm ⟨mn, a.y⟩ ⟨mn - 1, a.y⟩ .left = true ∧
      out.get ⟨mn - 1, a.y⟩ = false))
    (hstopR : ¬(mx + 1 < (dims.w : Int) ∧ cm ⟨mx, a.y⟩ ⟨mx + 1, a.y⟩ .right = true ∧
      out.get ⟨mx + 1, a.y⟩ = false)) :
    ∃ out', ffLoop cm (flood_fill_go cm f) (dims.h : Int) a.y ((mx - mn + 1).toNat) mn
        (markRow out a.y ((mx - mn + 1).toNat) mn) = some out' ∧
      out'.w = dims.w ∧ out'.h = dims.h ∧ out'.Wf ∧
      (∀ c, out.get c = true → out'.get c = true) ∧
      out'.get a = true ∧
      (∀ c, out'.get c = true → out.get c = true ∨ Reach dims cm a c) ∧
      (∀ c, out'.get c = true → out.get c = false →
        ∀ d, dims.valid (c.add d) = true → cm c (c.add d) d = true →
          out'.get (c.add d) = true) ∧
      unm dims out' < unm dims out := by
  obtain ⟨hax0, haxw, hay0, hayh⟩ := CoordRange.valid_iff.mp hva
  have hn : (((mx - mn + 1).toNat : Nat) : Int) = mx - mn + 1 :=
    Int.toNat_of_nonneg (by omega)
  have rowvalidD : ∀ i : Nat, i < (mx - mn + 1).toNat →
      dims.valid ⟨mn + i, a.y⟩ = true := by
    intro i hi
    have hi' : (i : Int) < mx - mn + 1 := by
      rw [← hn]
      exact_mod_cast hi
    rw [CoordRange.valid_iff]
    dsimp only
    refine ⟨by omega, by omega, hay0, hayh⟩
  have rowvalid : ∀ i : Nat, i < (mx - mn + 1).toNat →
      out.validC ⟨mn + i, a.y⟩ = true := by
    intro i hi
    rw [Grid.validC_dims hw hh]
    exact rowvalidD i hi
  have hget1 := markRow_get a.y ((mx - mn + 1).toNat) mn out hwf rowvalid
  have hw1 : (markRow out a.y ((mx - mn + 1).toNat) mn).w = dims.w := by
    rw [markRow_w]
    exact hw
  have hh1 : (markRow out a.y ((mx - mn + 1).toNat) mn).h = dims.h := by
    rw [markRow_h]
    exact hh
  have hwf1 : (markRow out a.y ((mx - mn + 1).toNat) mn).Wf := markRow_wf _ _ _ _ hwf
  have hmono1 : ∀ c, out.get c = true →
      (markRow out a.y ((mx - mn + 1).toNat) mn).get c = true :=
    fun c h => (hget1 c).mpr (Or.inl h)
  have rowmark : ∀ i : Nat, i < (mx - mn + 1).toNat →
      (markRow out a.y ((mx - mn + 1).toNat) mn).get ⟨mn + i, a.y⟩ = true := by
    intro i hi
    refine (hget1 _).mpr (Or.inr ⟨rfl, ?_, ?_⟩)
    · dsimp only
      have : (0 : Int) ≤ (i : Int) := by positivity
      omega
    · dsimp only
      have hi' : (i : Int) < mx - mn + 1 := by
        rw [← hn]
        exact_mod_cast hi
      omega
  have rowReach : ∀ i : Nat, i < (mx - mn + 1).toNat →
      Reach dims cm a ⟨mn + i, a.y⟩ := by
    intro i hi
    have hi' : (i : Int) < mx - mn + 1 := by
      rw [← hn]
      exact_mod_cast hi
    have hi0 : (0 : Int) ≤ (i : Int) := by positivity
    by_cases hcmp : mn + (i : Int) ≤ a.x
    · refine reachRowL dims cm a mn hmn0 haxw hay0 hayh hchainL
        ((a.x - (mn + i)).toNat) (mn + i) ?_ (by omega)
      rw [Int.toNat_of_nonneg (by omega)]
      ring
    · refine reachRowR dims cm a mx hax0 hmxw hay0 hayh hchainR
        (((mn + i) - a.x).toNat) (mn + i) ?_ (by omega)
      rw [Int.toNat_of_nonneg (by omega)]
      ring
  have hmarka : (markRow out a.y ((mx - mn + 1).toNat) mn).get a = true := by
    have := (hget1 ⟨a.x, a.y⟩).mpr (Or.inr ⟨rfl, by dsimp only; omega,
      by dsimp only; omega⟩)
    exact this
  have hunm1 : unm dims (markRow out a.y ((mx - mn + 1).toNat) mn) < unm dims out := by
    refine unm_strict dims hmono1 a (CoordRange.mem_coordList.mpr hva) hfree ?_
    exact hmarka
  obtain ⟨out', heqr, hw', hh', hwf', hmonor, hsoundr, hclosedr, hnbr, hunmr⟩ :=
    ffLoop_spec dims cm f ih a.y a ((mx - mn + 1).toNat) mn
      (markRow out a.y ((mx - mn + 1).toNat) mn) hwf1 hw1 hh1 (by omega)
      rowvalidD rowmark rowReach
  refine ⟨out', heqr, hw', hh', hwf', fun c h => hmonor c (hmono1 c h),
    hmonor a hmarka, ?_, ?_, by omega⟩
  · intro c h
    rcases hsoundr c h with h2 | h2
    · rcases (hget1 c).mp h2 with h3 | ⟨hcy, hc1, hc2⟩
      · exact Or.inl h3
      · obtain ⟨cx, cy⟩ := c
        dsimp only at hcy hc1 hc2
        subst hcy
        right
        have hi : (cx - mn).toNat < (mx - mn + 1).toNat := by omega
        have hr := rowReach ((cx - mn).toNat) hi
        have hco : (⟨mn + ((cx - mn).toNat : Int), a.y⟩ : Coord) = ⟨cx, a.y⟩ := by
          congr 1
          rw [Int.toNat_of_nonneg (by omega)]
          ring
        rwa [hco] at hr
    · exact Or.inr h2
  · intro c hc hcnew d hvd hcmd
    by_cases h1m : (markRow out a.y ((mx - mn + 1).toNat) mn).get c = true
    · rcases (hget1 c).mp h1m with h3 | ⟨hcy, hc1, hc2⟩
      · rw [hcnew] at h3
        exact absurd h3 (by simp)
      · obtain ⟨cx, cy⟩ := c
        dsimp only at hcy hc1 hc2
        subst hcy
        have hcx : cx ≤ mx := by omega
        obtain ⟨hv1, hv2, hv3, hv4⟩ := CoordRange.valid_iff.mp hvd
        cases d with
        | up =>
          dsimp only [Coord.add] at hv1 hv2 hv3 hv4
          have hi : (cx - mn).toNat < (mx - mn + 1).toNat := by omega
          have hcoY : (⟨mn + ((cx - mn).toNat : Int), a.y⟩ : Coord) = ⟨cx, a.y⟩ := by
            congr 1
            rw [Int.toNat_of_nonneg (by omega)]
            ring
          have hcoU : (⟨mn + ((cx - mn).toNat : Int), a.y - 1⟩ : Coord)
              = ⟨cx, a.y - 1⟩ := by
            congr 1
            rw [Int.toNat_of_nonneg (by omega)]
            ring
          have h := (hnbr ((cx - mn).toNat) hi).1
          rw [hcoY, hcoU] at h
          exact h (by omega) hcmd
        | down =>
          dsimp only [Coord.add] at hv1 hv2 hv3 hv4
          have hi : (cx - mn).toNat < (mx - mn + 1).toNat := by omega
          have hcoY : (⟨mn + ((cx - mn).toNat : Int), a.y⟩ : Coord) = ⟨cx, a.y⟩ := by
            congr 1
            rw [Int.toNat_of_nonneg (by omega)]
            ring
          have hcoD : (⟨mn + ((cx - mn).toNat : Int), a.y + 1⟩ : Coord)
              = ⟨cx, a.y + 1⟩ := by
            congr 1
            rw [Int.toNat_of_nonneg (by omega)]
            ring
          have h := (hnbr ((cx - mn).toNat) hi).2
          rw [hcoY, hcoD] at h
          exact h hv4 hcmd
        | left =>
          dsimp only [Coord.add] at hv1 hv2 hv3 hv4
          by_cases hmncase : mn < cx
          · have hi : (cx - 1 - mn).toNat < (mx - mn + 1).toNat := by omega
            have h := rowmark ((cx - 1 - mn).toNat) hi
            have hco : (⟨mn + ((cx - 1 - mn).toNat : Int), a.y⟩ : Coord)
                = ⟨cx - 1, a.y⟩ := by
              congr 1
              rw [Int.toNat_of_nonneg (by omega)]
              ring
            rw [hco] at h
            exact hmonor _ h
          · have hcmn : cx = mn := by omega
            subst hcmn
            by_cases hfree2 : out.get ⟨cx - 1, a.y⟩ = false
            · exact absurd ⟨by omega, hcmd, hfree2⟩ hstopL
            · have hmk : out.get ⟨cx - 1, a.y⟩ = true := by simpa using hfree2
              exact hmonor _ (hmono1 _ hmk)
        | right =>
          dsimp only [Coord.add] at hv1 hv2 hv3 hv4
          by_cases hmxcase : cx < mx
          · have hi : (cx + 1 - mn).toNat < (mx - mn + 1).toNat := by omega
            have h := rowmark ((cx + 1 - mn).toNat) hi
            have hco : (⟨mn + ((cx + 1 - mn).toNat : Int), a.y⟩ : Coord)
                = ⟨cx + 1, a.y⟩ := by
              congr 1
              rw [Int.toNat_of_nonneg (by omega)]
              ring
            rw [hco] at h
            exact hmonor _ h
          · have hcmx : cx = mx := by omega
            subst hcmx
            by_cases hfree2 : out.get ⟨cx + 1, a.y⟩ = false
            · exact absurd ⟨by omega, hcmd, hfree2⟩ hstopR
            · have hmk : out.get ⟨cx + 1, a.y⟩ = true := by simpa using hfree2
              exact hmonor _ (hmono1 _ hmk)
    · have h1f : (markRow out a.y ((mx - mn + 1).toNat) mn).get c = false := by
        simpa using h1m
      exact hclosedr c hc h1f d hvd hcmd

/-- The recursive contract holds at every fuel level. -/
theorem goSpec_all (dims : CoordRange) (cm : CanMove) : ∀ fuel, GoSpec dims cm fuel := by
  intro fuel
  induction fuel with
  | zero =>
    intro out a _ _ _ _ _ hfuel
    exact absurd hfuel (by omega)
  | succ f ih =>
    intro out a hwf hw hh hva hfree hfuel
    obtain ⟨hax0, haxw, hay0, hayh⟩ := CoordRange.valid_iff.mp hva
    have hvalidCa : out.validC a = true := by
      rw [Grid.validC_dims hw hh]
      exact hva
    have hwc : ((out.w : Nat) : Int) = ((dims.w : Nat) : Int) := by rw [hw]
    obtain ⟨⟨hmnb0, hmnb1⟩, hchainL, hstopL⟩ :=
      scanMinX_spec out cm a.y out.w a.x hax0 (by omega)
    obtain ⟨⟨hmxb0, hmxb1⟩, hchainR, hstopR⟩ :=
      scanMaxX_spec out cm a.y out.w a.x (by omega) (by omega)
    rw [hwc] at hmxb1 hstopR
    obtain ⟨out', heq, hrest⟩ := goBody dims cm f ih out a hwf hw hh hva hfree hfuel
      (scanMinX out cm a.y out.w a.x) (scanMaxX out cm a.y out.w a.x)
      hmnb0 hmnb1 hmxb0 hmxb1 hchainL hchainR hstopL hstopR
    refine ⟨out', ?_, hrest⟩
    conv_lhs => rw [flood_fill_go]
    rw [if_pos hvalidCa]
    rw [show ((out.h : Nat) : Int) = ((dims.h : Nat) : Int) from by rw [hh]]
    exact heq

theorem mk'_false_get (dims : CoordRange) (c : Coord) :
    (Grid.mk' dims false).get c = false := by
  by_cases hv : (Grid.mk' dims false).validC c = true
  · exact Grid.mk'_get dims false hv
  · rw [Grid.get_of_invalid hv]
    rfl

/-- C7: the flood fill succeeds and its bitmap marks exactly the coordinates
reachable from the (in-bounds) start by in-bounds single steps allowed by
`can_move` — in particular the marked set is the reachability closure,
independent of the scanline processing order. -/
theorem c7_flood_fill (dims : CoordRange) (cm : CanMove) (frm : Coord)
    (hfrm : dims.valid frm = true) :
    ∃ out, flood_fill dims cm frm = some out ∧
      ∀ c : Coord, (out.get c = true ↔ Reach dims cm frm c) := by
  have hunm0 : unm dims (Grid.mk' dims false) < dims.size + 1 := by
    have h1 : unm dims (Grid.mk' dims false) ≤ dims.coordList.length :=
      List.countP_le_length _
    rw [CoordRange.length_coordList] at h1
    have : dims.size = dims.w * dims.h := rfl
    omega
  obtain ⟨out, heq, hw', hh', hwf', hmono, hentry, hsound, hclosed, hunm⟩ :=
    goSpec_all dims cm (dims.size + 1) (Grid.mk' dims false) frm
      (Grid.mk'_wf dims false) rfl rfl hfrm (mk'_false_get dims frm) hunm0
  refine ⟨out, heq, ?_⟩
  intro c
  constructor
  · intro h
    rcases hsound c h with h2 | h2
    · rw [mk'_false_get dims c] at h2
      exact absurd h2 (by simp)
    · exact h2
  · intro h
    induction h with
    | refl => exact hentry
    | step c d hR hv hcm ihR =>
      exact hclosed c ihR (mk'_false_get dims c) d hv hcm

/-- Witness for C7 on the fully open 2x2 grid. -/
theorem c7_flood_fill_witness :
    CoordRange.valid ⟨2, 2⟩ ⟨0, 0⟩ = true ∧
    ∃ out, flood_fill ⟨2, 2⟩ (fun _ _ _ => true) ⟨0, 0⟩ = some out ∧
      ∀ c : Coord, (out.get c = true ↔ Reach ⟨2, 2⟩ (fun _ _ _ => true) ⟨0, 0⟩ c) :=
  ⟨by decide, c7_flood_fill ⟨2, 2⟩ (fun _ _ _ => true) ⟨0, 0⟩ (by decide)⟩

/-! ## BFS predecessor structure (C6, reachable targets)

`generic_shortest_path` records, at every relaxed cell, the queue cell it was
relaxed from.  The invariants below let `read_path` walk those predecessors
from any reachable target back to the source: predecessors are in range,
their recorded distance strictly decreases, and all finite distances are
bounded by the grid size (each BFS level that writes anything marks at least
one previously unreached cell). -/

/-- Transport a predicate pair through an `Except`-valued computation. -/
def exPred {ε σ : Type} (Q : ε → Prop) (P : σ → Prop) : Except ε σ → Prop
  | .error o => Q o
  | .ok st => P st

theorem exfoldlM_pres {ε σ α : Type} (Q : ε → Prop) (P : σ → Prop)
    (f : σ → α → Except ε σ) :
    ∀ L : List α, (∀ st a, a ∈ L → P st → exPred Q P (f st a)) →
      ∀ st : σ, P st → exPred Q P (L.foldlM f st) := by
  intro L
  induction L with
  | nil => intro _ st hst; simpa [List.foldlM] using hst
  | cons a tl ih =>
    intro hf st hst
    rw [List.foldlM_cons]
    have h1 := hf st a (List.mem_cons_self _ _) hst
    cases hfa : f st a with
    | error o =>
      rw [hfa] at h1
      exact h1
    | ok st1 =>
      rw [hfa] at h1
      exact ih (fun st' a' ha' => hf st' a' (List.mem_cons_of_mem _ ha')) st1 h1

/-- The number of cells already reached by the search. -/
def finCount (dims : CoordRange) (out : Grid Step) : Nat :=
  dims.coordList.countP fun c => decide ((out.get c).dist < INT_MAX)

/-- The predecessor structure of a BFS output grid: the source holds
`{0, ROOT}`, every other reached in-range cell points to an in-range
predecessor with strictly smaller distance, and finite distances are
nonnegative and at most the grid size. -/
structure PredCore (dims : CoordRange) (frm : Coord) (out : Grid Step) : Prop where
  wf : out.Wf
  w_eq : out.w = dims.w
  h_eq : out.h = dims.h
  frm_cell : out.get frm = ⟨0, ROOT⟩
  cells : ∀ c : Coord, (out.get c).dist < INT_MAX ∨ out.get c = ⟨INT_MAX, NOT_VISITED⟩
  nonneg : ∀ c : Coord, 0 ≤ (out.get c).dist
  le_size : ∀ c : Coord, (out.get c).dist < INT_MAX →
    (out.get c).dist ≤ (dims.size : Int)
  pos_ne : ∀ c : Coord, dims.valid c = true → c ≠ frm →
    (out.get c).dist < INT_MAX → 1 ≤ (out.get c).dist
  pred : ∀ c : Coord, dims.valid c = true → c ≠ frm →
    (out.get c).dist < INT_MAX →
    dims.valid ((out.get c).frm) = true ∧
    (out.get ((out.get c).frm)).dist < (out.get c).dist

/-- The state invariant while one BFS level writes cells at distance `D + 1`:
the core predecessor structure, the level bound, the stability of the level's
queue, the next queue's contents, and the fact that only previously
unreached cells have changed since the level started. -/
def stepPost (dims : CoordRange) (frm : Coord) (D : Int) (out0 : Grid Step)
    (queueL : List Coord) (st : Grid Step × List Coord) : Prop :=
  PredCore dims frm st.1 ∧
  (∀ c : Coord, (st.1.get c).dist < INT_MAX → (st.1.get c).dist ≤ D + 1) ∧
  (∀ b ∈ queueL, dims.valid b = true ∧ (st.1.get b).dist = D) ∧
  (∀ b ∈ st.2, dims.valid b = true ∧ (st.1.get b).dist = D + 1) ∧
  (∀ c : Coord, st.1.get c = out0.get c ∨ (out0.get c).dist = INT_MAX)

/-- One relaxation step of a BFS level preserves the predecessor structure. -/
theorem bfsStepPair_pres (dims : CoordRange) (cm : CanMove) (tgt0 frm : Coord)
    (D : Int) (hD0 : 0 ≤ D) (hDsize : D + 1 ≤ (dims.size : Int))
    (hsize : (dims.size : Int) < INT_MAX)
    (out0 : Grid Step) (queueL : List Coord)
    (st : Grid Step × List Coord) (a : Coord) (d : Dir)
    (ha : a ∈ queueL)
    (hst : stepPost dims frm D out0 queueL st) :
    exPred (PredCore dims frm) (stepPost dims frm D out0 queueL)
      (bfsStepPair dims cm tgt0 (D + 1) st a d) := by
  obtain ⟨core, hle, hqL, hnx, hchg⟩ := hst
  simp only [bfsStepPair]
  split
  · rename_i hcond
    simp only [Bool.and_eq_true, decide_eq_true_eq] at hcond
    obtain ⟨⟨hvb, hcmb⟩, hgt⟩ := hcond
    obtain ⟨hva, hda⟩ := hqL a ha
    have hbfrm : a.add d ≠ frm := by
      intro hq
      rw [hq, core.frm_cell] at hgt
      simp only at hgt
      omega
    have hane : a ≠ a.add d := by
      intro hq
      have h9 : (st.1.get a).dist > D + 1 := by rw [hq]; exact hgt
      omega
    have hvalidCb : st.1.validC (a.add d) = true := by
      rw [Grid.validC_dims core.w_eq core.h_eq]
      exact hvb
    have hout0b : (out0.get (a.add d)).dist = INT_MAX := by
      rcases hchg (a.add d) with h | h
      · rw [← h]
        rcases core.cells (a.add d) with hf | hIM
        · exfalso
          have := hle _ hf
          omega
        · rw [hIM]
      · exact h
    have hgetb : (st.1.set (a.add d) ⟨D + 1, a⟩).get (a.add d) = ⟨D + 1, a⟩ :=
      Grid.get_set_same core.wf hvalidCb _
    have hDIM : D + 1 < INT_MAX := by omega
    have core' : PredCore dims frm (st.1.set (a.add d) ⟨D + 1, a⟩) := by
      refine ⟨Grid.set_wf core.wf _ _, by rw [Grid.set_w]; exact core.w_eq,
        by rw [Grid.set_h]; exact core.h_eq,
        by rw [Grid.get_set_ne _ (fun hq => hbfrm hq.symm)]; exact core.frm_cell,
        ?_, ?_, ?_, ?_, ?_⟩
      · intro c
        by_cases hc : c = a.add d
        · subst hc
          rw [hgetb]
          exact Or.inl hDIM
        · rw [Grid.get_set_ne _ hc]
          exact core.cells c
      · intro c
        by_cases hc : c = a.add d
        · subst hc
          rw [hgetb]
          show (0 : Int) ≤ D + 1
          omega
        · rw [Grid.get_set_ne _ hc]
          exact core.nonneg c
      · intro c
        by_cases hc : c = a.add d
        · subst hc
          rw [hgetb]
          intro _
          exact hDsize
        · rw [Grid.get_set_ne _ hc]
          exact core.le_size c
      · intro c hvc hcf
        by_cases hc : c = a.add d
        · subst hc
          rw [hgetb]
          intro _
          show (1 : Int) ≤ D + 1
          omega
        · rw [Grid.get_set_ne _ hc]
          exact core.pos_ne c hvc hcf
      · intro c hvc hcf hcfin
        by_cases hc : c = a.add d
        · subst hc
          rw [hgetb]
          refine ⟨hva, ?_⟩
          show ((st.1.set (a.add d) ⟨D + 1, a⟩).get a).dist < D + 1
          rw [Grid.get_set_ne _ hane, hda]
          omega
        · rw [Grid.get_set_ne _ hc] at hcfin ⊢
          obtain ⟨hp1, hp2⟩ := core.pred c hvc hcf hcfin
          refine ⟨hp1, ?_⟩
          have hpne : (st.1.get c).frm ≠ a.add d := by
            intro hq
            rw [hq] at hp2
            have := hle _ hcfin
            omega
          rw [Grid.get_set_ne _ hpne]
          exact hp2
    have hle' : ∀ c : Coord, ((st.1.set (a.add d) ⟨D + 1, a⟩).get c).dist < INT_MAX →
        ((st.1.set (a.add d) ⟨D + 1, a⟩).get c).dist ≤ D + 1 := by
      intro c
      by_cases hc : c = a.add d
      · subst hc
        rw [hgetb]
        intro _
        exact le_refl _
      · rw [Grid.get_set_ne _ hc]
        exact hle c
    have hqL' : ∀ b ∈ queueL, dims.valid b = true ∧
        ((st.1.set (a.add d) ⟨D + 1, a⟩).get b).dist = D := by
      intro b hb
      obtain ⟨h1, h2⟩ := hqL b hb
      refine ⟨h1, ?_⟩
      have hbne : b ≠ a.add d := by
        intro hq
        rw [hq] at h2
        omega
      rw [Grid.get_set_ne _ hbne]
      exact h2
    have hnx' : ∀ b ∈ st.2 ++ [a.add d], dims.valid b = true ∧
        ((st.1.set (a.add d) ⟨D + 1, a⟩).get b).dist = D + 1 := by
      intro b hb
      rcases List.mem_append.mp hb with hb | hb
      · obtain ⟨h1, h2⟩ := hnx b hb
        refine ⟨h1, ?_⟩
        by_cases hbne : b = a.add d
        · subst hbne
          rw [hgetb]
        · rw [Grid.get_set_ne _ hbne]
          exact h2
      · obtain rfl := List.mem_singleton.mp hb
        exact ⟨hvb, by rw [hgetb]⟩
    have hchg' : ∀ c : Coord, (st.1.set (a.add d) ⟨D + 1, a⟩).get c = out0.get c ∨
        (out0.get c).dist = INT_MAX := by
      intro c
      by_cases hc : c = a.add d
      · subst hc
        exact Or.inr hout0b
      · rw [Grid.get_set_ne _ hc]
        exact hchg c
    split
    · exact core'
    · exact ⟨core', hle', hqL', hnx', hchg'⟩
  · exact ⟨core, hle, hqL, hnx, hchg⟩

/-- A full BFS level preserves the predecessor structure, yielding either the
early-exit grid (error) or the next state with its queue facts. -/
theorem bfsLevel_pres (dims : CoordRange) (cm : CanMove) (tgt0 frm : Coord)
    (D : Int) (hD0 : 0 ≤ D) (hDsize : D + 1 ≤ (dims.size : Int))
    (hsize : (dims.size : Int) < INT_MAX)
    (out : Grid Step) (queueL : List Coord)
    (hcore : PredCore dims frm out)
    (hle : ∀ c : Coord, (out.get c).dist < INT_MAX → (out.get c).dist ≤ D)
    (hqL : ∀ b ∈ queueL, dims.valid b = true ∧ (out.get b).dist = D) :
    exPred (PredCore dims frm) (stepPost dims frm D out queueL)
      (bfsLevel dims cm tgt0 (D + 1) out queueL) := by
  refine exfoldlM_pres _ _ _ queueL ?_ (out, ([] : List Coord))
    ⟨hcore, fun c hc => by dsimp only at hc ⊢; have := hle c hc; omega, hqL,
      fun b hb => absurd hb (List.not_mem_nil b), fun c => Or.inl rfl⟩
  intro st a haL hst
  refine exfoldlM_pres _ _ _ dirs ?_ st hst
  intro st' d _ hst'
  exact bfsStepPair_pres dims cm tgt0 frm D hD0 hDsize hsize out queueL st' a d haL hst'

/-- At most `dims.size` cells can hold a finite distance. -/
theorem finCount_le_size (dims : CoordRange) (out : Grid Step) :
    finCount dims out ≤ dims.size := by
  unfold finCount
  calc dims.coordList.countP _ ≤ dims.coordList.length := List.countP_le_length _
    _ = dims.w * dims.h := CoordRange.length_coordList dims
    _ = dims.size := rfl

/-- The level loop of `generic_shortest_path` preserves the predecessor
structure all the way to the returned grid. -/
theorem bfsLevels_pred (dims : CoordRange) (cm : CanMove) (tgt0 frm : Coord)
    (hsize : (dims.size : Int) < INT_MAX) :
    ∀ (fuel : Nat) (D : Int) (out : Grid Step) (queue : List Coord),
      0 ≤ D →
      PredCore dims frm out →
      (∀ c : Coord, (out.get c).dist < INT_MAX → (out.get c).dist ≤ D) →
      (∀ b ∈ queue, dims.valid b = true ∧ (out.get b).dist = D) →
      (queue ≠ [] → D + 1 ≤ (finCount dims out : Int)) →
      PredCore dims frm (bfsLevels dims cm tgt0 fuel D out queue) := by
  intro fuel
  induction fuel with
  | zero =>
    intro D out queue _ hcore _ _ _
    exact hcore
  | succ f ih =>
    intro D out queue hD0 hcore hle hq hcnt
    rw [bfsLevels]
    split
    · exact hcore
    · rename_i hne
      have hqne : queue ≠ [] := by
        intro h
        exact hne (by rw [h]; rfl)
      have hcnt' := hcnt hqne
      have hfin_le : finCount dims out ≤ dims.size := finCount_le_size dims out
      have hDsize : D + 1 ≤ (dims.size : Int) := by
        have : (finCount dims out : Int) ≤ (dims.size : Int) := by exact_mod_cast hfin_le
        omega
      have hlev := bfsLevel_pres dims cm tgt0 frm D hD0 hDsize hsize out queue hcore hle hq
      cases hres : bfsLevel dims cm tgt0 (D + 1) out queue with
      | error outE =>
        rw [hres] at hlev
        exact hlev
      | ok p =>
        obtain ⟨out1, next1⟩ := p
        rw [hres] at hlev
        obtain ⟨core1, hle1, -, hnx1, hchg1⟩ := hlev
        refine ih (D + 1) out1 next1 (by omega) core1 hle1 hnx1 ?_
        intro hne1
        obtain ⟨b, hb⟩ := List.exists_mem_of_ne_nil next1 hne1
        obtain ⟨hvb, hdb⟩ := hnx1 b hb
        have hbIM : (out.get b).dist = INT_MAX := by
          rcases hchg1 b with h | h
          · exfalso
            have hfd : (out.get b).dist = D + 1 := by rw [← h]; exact hdb
            have hfin : (out.get b).dist < INT_MAX := by rw [hfd]; omega
            have := hle b hfin
            omega
          · exact h
        have hmono : ∀ c ∈ dims.coordList,
            decide ((out.get c).dist < INT_MAX) = true →
            decide ((out1.get c).dist < INT_MAX) = true := by
          intro c _ hp
          rcases hchg1 c with h | h
          · rw [h]
            exact hp
          · exfalso
            have h2 := of_decide_eq_true hp
            rw [h] at h2
            exact lt_irrefl _ h2
        have hb_mem : b ∈ dims.coordList := CoordRange.mem_coordList.mpr hvb
        have hlt : finCount dims out < finCount dims out1 := by
          refine countP_lt_of _ _ dims.coordList hmono b hb_mem ?_ ?_
          · rw [hbIM]
            exact decide_eq_false (lt_irrefl _)
          · rw [hdb]
            exact decide_eq_true (by omega)
        have hc2 : (finCount dims out : Int) < (finCount dims out1 : Int) := by
          exact_mod_cast hlt
        omega

/-- An in-range coordinate is neither of the sentinels. -/
theorem valid_ne_sentinels {dims : CoordRange} {c : Coord} (hv : dims.valid c = true) :
    c ≠ ROOT ∧ c ≠ NOT_VISITED := by
  simp only [CoordRange.valid, Bool.and_eq_true, decide_eq_true_eq] at hv
  obtain ⟨⟨⟨hx0, hxw⟩, hy0⟩, hyh⟩ := hv
  constructor
  · intro hq
    rw [hq] at hx0
    exact absurd hx0 (by decide)
  · intro hq
    rw [hq] at hx0
    exact absurd hx0 (by decide)

/-- The BFS of `generic_shortest_path` produces a predecessor structure. -/
theorem generic_shortest_path_pred (dims : CoordRange) (cm : CanMove) (frm tgt0 : Coord)
    (hfrm : dims.valid frm = true) (hsize : (dims.size : Int) < INT_MAX) :
    PredCore dims frm (generic_shortest_path dims cm frm tgt0) := by
  have hvC : (Grid.mk' dims (⟨INT_MAX, NOT_VISITED⟩ : Step)).validC frm = true := by
    rw [Grid.validC_dims rfl rfl]
    exact hfrm
  have hfrmget : ((Grid.mk' dims (⟨INT_MAX, NOT_VISITED⟩ : Step)).set frm
      ⟨0, ROOT⟩).get frm = ⟨0, ROOT⟩ :=
    Grid.get_set_same (Grid.mk'_wf _ _) hvC _
  have hother : ∀ c : Coord, c ≠ frm →
      ((Grid.mk' dims (⟨INT_MAX, NOT_VISITED⟩ : Step)).set frm ⟨0, ROOT⟩).get c
        = ⟨INT_MAX, NOT_VISITED⟩ := by
    intro c hc
    rw [Grid.get_set_ne _ hc]
    by_cases hv : (Grid.mk' dims (⟨INT_MAX, NOT_VISITED⟩ : Step)).validC c = true
    · exact Grid.mk'_get _ _ hv
    · rw [Grid.get_of_invalid hv]
      rfl
  have hcore : PredCore dims frm
      ((Grid.mk' dims (⟨INT_MAX, NOT_VISITED⟩ : Step)).set frm ⟨0, ROOT⟩) := by
    refine ⟨Grid.set_wf (Grid.mk'_wf _ _) _ _, by rw [Grid.set_w]; rfl,
      by rw [Grid.set_h]; rfl, hfrmget, ?_, ?_, ?_, ?_, ?_⟩
    · intro c
      by_cases hc : c = frm
      · subst hc
        rw [hfrmget]
        left
        show (0 : Int) < (2147483647 : Int)
        omega
      · right
        exact hother c hc
    · intro c
      by_cases hc : c = frm
      · subst hc
        rw [hfrmget]
      · rw [hother c hc]
        show (0 : Int) ≤ (2147483647 : Int)
        omega
    · intro c
      by_cases hc : c = frm
      · subst hc
        rw [hfrmget]
        intro _
        show (0 : Int) ≤ (dims.size : Int)
        omega
      · rw [hother c hc]
        intro h
        exact absurd h (lt_irrefl _)
    · intro c _ hc
      rw [hother c hc]
      intro h
      exact absurd h (lt_irrefl _)
    · intro c _ hc
      rw [hother c hc]
      intro h
      exact absurd h (lt_irrefl _)
  show PredCore dims frm (bfsLevels dims cm tgt0 (dims.size + 2) 0
    ((Grid.mk' dims (⟨INT_MAX, NOT_VISITED⟩ : Step)).set frm ⟨0, ROOT⟩) [frm])
  refine bfsLevels_pred dims cm tgt0 frm hsize (dims.size + 2) 0 _ [frm]
    le_rfl hcore ?_ ?_ ?_
  · intro c hfin
    by_cases hc : c = frm
    · subst hc
      rw [hfrmget]
    · rw [hother c hc] at hfin
      exact absurd hfin (lt_irrefl _)
  · intro b hb
    rw [List.mem_singleton] at hb
    subst hb
    exact ⟨hfrm, by rw [hfrmget]⟩
  · intro _
    have h1 : 0 < finCount dims
        ((Grid.mk' dims (⟨INT_MAX, NOT_VISITED⟩ : Step)).set frm ⟨0, ROOT⟩) := by
      unfold finCount
      refine List.countP_pos.mpr ⟨frm, CoordRange.mem_coordList.mpr hfrm, ?_⟩
      rw [hfrmget]
      exact decide_eq_true (by show (0 : Int) < (2147483647 : Int); omega)
    omega

/-- Walking predecessors from any reachable non-source cell of a predecessor
structure collects the reverse path: it starts at the cell, follows `frm`
pointers, and its last element points straight at the source. -/
theorem readPathWalk (dims : CoordRange) (frm : Coord) (out : Grid Step)
    (core : PredCore dims frm out) :
    ∀ (n : Nat) (c : Coord) (acc : List Coord) (fuel : Nat),
      dims.valid c = true → c ≠ frm → (out.get c).dist < INT_MAX →
      (out.get c).dist.toNat < n → (out.get c).dist.toNat + 1 ≤ fuel →
      ∃ l : List Coord, readPathLoop out frm c acc fuel = some (acc ++ l) ∧
        l ≠ [] ∧ l.head? = some c ∧
        l.Chain' (fun p q => (out.get p).frm = q) ∧
        (∀ h : l ≠ [], (out.get (l.getLast h)).frm = frm) ∧
        (∀ x ∈ l, dims.valid x = true) := by
  intro n
  induction n with
  | zero =>
    intro c acc fuel _ _ _ hlt _
    omega
  | succ m ih =>
    intro c acc fuel hvc hcfrm hcfin hlt hfuel
    obtain ⟨hcR, hcNV⟩ := valid_ne_sentinels hvc
    obtain ⟨f, rfl⟩ : ∃ g, fuel = g + 1 := ⟨fuel - 1, by omega⟩
    have hpos : (1 : Int) ≤ (out.get c).dist := core.pos_ne c hvc hcfrm hcfin
    obtain ⟨hvp, hplt⟩ := core.pred c hvc hcfrm hcfin
    have hp0 : (0 : Int) ≤ (out.get ((out.get c).frm)).dist := core.nonneg _
    have hcomp : readPathLoop out frm c acc (f + 1)
        = readPathLoop out frm ((out.get c).frm) (acc ++ [c]) f := by
      rw [readPathLoop]
      rw [if_pos ⟨hcR, hcfrm⟩, if_neg hcNV]
    by_cases hpfrm : (out.get c).frm = frm
    · obtain ⟨f1, rfl⟩ : ∃ g, f = g + 1 := ⟨f - 1, by omega⟩
      refine ⟨[c], ?_, by simp, rfl, List.chain'_singleton c, ?_, ?_⟩
      · rw [hcomp, hpfrm]
        rw [readPathLoop]
        rw [if_neg (fun h => h.2 rfl)]
      · intro h
        rw [List.getLast_singleton]
        exact hpfrm
      · intro x hx
        rw [List.mem_singleton] at hx
        subst hx
        exact hvc
    · have hpfin : (out.get ((out.get c).frm)).dist < INT_MAX := by omega
      have hplt' : (out.get ((out.get c).frm)).dist.toNat < m := by omega
      have hpfuel : (out.get ((out.get c).frm)).dist.toNat + 1 ≤ f := by omega
      obtain ⟨l1, hrun, hne1, hhead1, hchain1, hlast1, hval1⟩ :=
        ih ((out.get c).frm) (acc ++ [c]) f hvp hpfrm hpfin hplt' hpfuel
      refine ⟨c :: l1, ?_, by simp, rfl, ?_, ?_, ?_⟩
      · rw [hcomp, hrun]
        simp
      · rw [List.chain'_cons']
        refine ⟨?_, hchain1⟩
        intro y hy
        rw [hhead1] at hy
        exact Option.mem_some_iff.mp hy
      · intro h
        rw [List.getLast_cons hne1]
        exact hlast1 hne1
      · intro x hx
        rcases List.mem_cons.mp hx with rfl | hx
        · exact hvc
        · exact hval1 x hx

/-- C6: `read_path` on a BFS result.  When the target is reachable it returns
the found path in reverse order: a nonempty list whose front is `to`, whose
consecutive elements follow the recorded predecessors, and whose back is the
first step out of `from` (its predecessor is `from` itself), all in range.
When the in-bounds target is unreachable it does NOT return an empty list but
the two-element list `[to, NOT_VISITED]`. -/
theorem c6_amended (dims : CoordRange) (can_move : CanMove) (frm tgt0 tgt : Coord)
    (hfrm : dims.valid frm = true) (htgt : dims.valid tgt = true)
    (hne : tgt ≠ frm) (hsize : (dims.size : Int) < INT_MAX) :
    (((generic_shortest_path dims can_move frm tgt0).get tgt).reachable = true →
      ∃ l : List Coord,
        read_path (generic_shortest_path dims can_move frm tgt0) frm tgt = some l ∧
        l ≠ [] ∧ l.head? = some tgt ∧
        l.Chain' (fun p q =>
          ((generic_shortest_path dims can_move frm tgt0).get p).frm = q) ∧
        (∀ h : l ≠ [],
          ((generic_shortest_path dims can_move frm tgt0).get (l.getLast h)).frm
            = frm) ∧
        (∀ x ∈ l, dims.valid x = true)) ∧
    (((generic_shortest_path dims can_move frm tgt0).get tgt).reachable = false →
      read_path (generic_shortest_path dims can_move frm tgt0) frm tgt
        = some [tgt, NOT_VISITED]) := by
  have core := generic_shortest_path_pred dims can_move frm tgt0 hfrm hsize
  constructor
  · intro hreach
    have hfin : ((generic_shortest_path dims can_move frm tgt0).get tgt).dist
        < INT_MAX := of_decide_eq_true hreach
    have hsz : (generic_shortest_path dims can_move frm tgt0).size = dims.size := by
      show (generic_shortest_path dims can_move frm tgt0).w *
        (generic_shortest_path dims can_move frm tgt0).h = dims.w * dims.h
      rw [core.w_eq, core.h_eq]
    have hd := core.le_size tgt hfin
    obtain ⟨l, hrun, hne1, hhead, hchain, hlast, hval⟩ :=
      readPathWalk dims frm _ core
        (((generic_shortest_path dims can_move frm tgt0).get tgt).dist.toNat + 1)
        tgt [] ((generic_shortest_path dims can_move frm tgt0).size + 2)
        htgt hne hfin (by omega) (by rw [hsz]; omega)
    refine ⟨l, ?_, hne1, hhead, hchain, hlast, hval⟩
    show readPathLoop (generic_shortest_path dims can_move frm tgt0) frm tgt []
      ((generic_shortest_path dims can_move frm tgt0).size + 2) = some l
    rw [hrun, List.nil_append]
  · intro hunreach
    refine readPath_unreachable dims can_move frm tgt0 tgt ?_ ?_ hne hunreach
    · rw [Grid.validC_dims core.w_eq core.h_eq]
      exact htgt
    · exact (valid_ne_sentinels hfrm).2

/-- Witness for C6 on the fully open 2x2 grid, from (0,0) to the reachable
corner (1,1). -/
theorem c6_amended_witness :
    (CoordRange.valid ⟨2, 2⟩ ⟨0, 0⟩ = true ∧ CoordRange.valid ⟨2, 2⟩ ⟨1, 1⟩ = true ∧
      (⟨1, 1⟩ : Coord) ≠ ⟨0, 0⟩ ∧
      ((CoordRange.size ⟨2, 2⟩ : Int) < INT_MAX) ∧
      ((generic_shortest_path ⟨2, 2⟩ (fun _ _ _ => true) ⟨0, 0⟩
        ⟨-1, -1⟩).get ⟨1, 1⟩).reachable = true) ∧
    ((((generic_shortest_path ⟨2, 2⟩ (fun _ _ _ => true) ⟨0, 0⟩
        ⟨-1, -1⟩).get ⟨1, 1⟩).reachable = true →
      ∃ l : List Coord,
        read_path (generic_shortest_path ⟨2, 2⟩ (fun _ _ _ => true) ⟨0, 0⟩ ⟨-1, -1⟩)
          ⟨0, 0⟩ ⟨1, 1⟩ = some l ∧
        l ≠ [] ∧ l.head? = some ⟨1, 1⟩ ∧
        l.Chain' (fun p q =>
          ((generic_shortest_path ⟨2, 2⟩ (fun _ _ _ => true) ⟨0, 0⟩
            ⟨-1, -1⟩).get p).frm = q) ∧
        (∀ h : l ≠ [],
          ((generic_shortest_path ⟨2, 2⟩ (fun _ _ _ => true) ⟨0, 0⟩
            ⟨-1, -1⟩).get (l.getLast h)).frm = ⟨0, 0⟩) ∧
        (∀ x ∈ l, CoordRange.valid ⟨2, 2⟩ x = true)) ∧
    (((generic_shortest_path ⟨2, 2⟩ (fun _ _ _ => true) ⟨0, 0⟩
        ⟨-1, -1⟩).get ⟨1, 1⟩).reachable = false →
      read_path (generic_shortest_path ⟨2, 2⟩ (fun _ _ _ => true) ⟨0, 0⟩ ⟨-1, -1⟩)
        ⟨0, 0⟩ ⟨1, 1⟩ = some [⟨1, 1⟩, NOT_VISITED])) :=
  ⟨⟨by decide, by decide, by decide, by decide, by decide⟩,
    c6_amended ⟨2, 2⟩ (fun _ _ _ => true) ⟨0, 0⟩ ⟨-1, -1⟩ ⟨1, 1⟩
      (by decide) (by decide) (by decide) (by decide)⟩
